import Mathlib

/-
Verification of the Databricks schema-simplification layer
(src/server/transportWrapper.ts and the schema simplifier module).

The JavaScript value universe is modelled by the inductive type Json below.
JS objects are modelled as association lists of key/value pairs in insertion
order (JS object literals and spreads preserve insertion order; duplicate
keys cannot occur in a JS object, and none of the modelled constructors
introduce them).  A field whose JS value is undefined is modelled as an
absent field: for the code under verification the two are observationally
identical (truthiness tests, `!== undefined` presence tests applied to
fields the code itself never sets to undefined, and JSON serialization,
which drops undefined-valued fields).

The recursive simplifier is not structurally terminating (its `$ref` branch
recurses into the referenced node at the same depth), so the embedding is
fuel-instrumented: `none` means the computation does not return a value
(non-terminating recursion, or a thrown TypeError such as member access on
null or iterating a non-iterable).  One unit of fuel is consumed at each
entry into simplifySchemaForDatabricks; all helpers are structurally
recursive, so every definition reduces by rfl on concrete inputs.
-/

inductive Json where
  | null
  | bool (b : Bool)
  | num (n : Int)
  | str (s : String)
  | arr (elems : List Json)
  | obj (fields : List (String × Json))

-- Structural equality of modelled JS values (JS SameValueZero / strict
-- equality; for the string and primitive values this code compares, strict
-- equality coincides with structural equality).
mutual

def jsonBeq : Json → Json → Bool
  | .null, .null => true
  | .bool a, .bool b => a == b
  | .num a, .num b => a == b
  | .str a, .str b => a == b
  | .arr xs, .arr ys => jsonBeqList xs ys
  | .obj fs, .obj gs => jsonBeqFields fs gs
  | _, _ => false

def jsonBeqList : List Json → List Json → Bool
  | [], [] => true
  | x :: xs, y :: ys => jsonBeq x y && jsonBeqList xs ys
  | _, _ => false

def jsonBeqFields : List (String × Json) → List (String × Json) → Bool
  | [], [] => true
  | (k, v) :: fs, (l, w) :: gs => k == l && jsonBeq v w && jsonBeqFields fs gs
  | _, _ => false

end

/-- Option-level strict equality, for `schema1.type === schema2.type`
(undefined === undefined is true). -/
def optBeq : Option Json → Option Json → Bool
  | none, none => true
  | some a, some b => jsonBeq a b
  | _, _ => false

/-- JS truthiness. -/
def truthy : Json → Bool
  | .null => false
  | .bool b => b
  | .num n => n != 0
  | .str s => s != ""
  | .arr _ => true
  | .obj _ => true

def truthyO : Option Json → Bool
  | none => false
  | some v => truthy v

/-- Whether `typeof v === "object"` (true for null, arrays and objects). -/
def jsTypeofObject : Json → Bool
  | .null => true
  | .arr _ => true
  | .obj _ => true
  | _ => false

def jsTypeofObjectO : Option Json → Bool
  | none => false
  | some v => jsTypeofObject v

def lookupF : List (String × Json) → String → Option Json
  | [], _ => none
  | (k, v) :: rest, key => if k == key then some v else lookupF rest key

def hasKeyF (fs : List (String × Json)) (key : String) : Bool :=
  (lookupF fs key).isSome

/-- Spread-then-assign field update, as in a JS object literal
`{...o, k: v}`: an existing key keeps its position and gets the new value,
a new key is appended at the end. -/
def setFieldL : List (String × Json) → String → Json → List (String × Json)
  | [], key, v => [(key, v)]
  | (k, w) :: rest, key, v =>
    if k == key then (key, v) :: rest else (k, w) :: setFieldL rest key v

/-- Decimal rendering of a Nat (structural, the first argument is fuel,
instantiated with the number itself). -/
def natToStrGo : Nat → Nat → List Char → List Char
  | 0, _, acc => acc
  | fuel + 1, m, acc =>
    if m == 0 then acc
    else natToStrGo fuel (m / 10) (Char.ofNat (m % 10 + 48) :: acc)

def natToStr (n : Nat) : String :=
  if n == 0 then "0" else String.mk (natToStrGo n n [])

def digitVal? (c : Char) : Option Nat :=
  if c == '0' then some 0 else if c == '1' then some 1 else if c == '2' then some 2
  else if c == '3' then some 3 else if c == '4' then some 4 else if c == '5' then some 5
  else if c == '6' then some 6 else if c == '7' then some 7 else if c == '8' then some 8
  else if c == '9' then some 9 else none

def natOfCharsGo : List Char → Nat → Option Nat
  | [], acc => some acc
  | c :: cs, acc =>
    match digitVal? c with
    | some d => natOfCharsGo cs (acc * 10 + d)
    | none => none

def strToNat? (s : String) : Option Nat :=
  match s.toList with
  | [] => none
  | cs => natOfCharsGo cs 0

/-- `Object.entries(v)`: the own enumerable entries of a JS value.  Objects
yield their fields, arrays yield index/element pairs, strings yield
index/character pairs, other primitives yield nothing.  (Callers only apply
this to truthy values, so the throwing case `Object.entries(null)` does not
arise.) -/
def enumEntriesArr : Nat → List Json → List (String × Json)
  | _, [] => []
  | i, x :: xs => (natToStr i, x) :: enumEntriesArr (i + 1) xs

def enumEntriesStr : Nat → List Char → List (String × Json)
  | _, [] => []
  | i, c :: cs => (natToStr i, Json.str c.toString) :: enumEntriesStr (i + 1) cs

def jsEntries : Json → List (String × Json)
  | .obj fs => fs
  | .arr xs => enumEntriesArr 0 xs
  | .str s => enumEntriesStr 0 s.toList
  | _ => []

/-- JS member access `v[key]`; `none` is undefined.  Arrays and strings
expose canonical numeric indices and `length`.  Member access on null
throws in JS; every access site in the modelled code is guarded so that a
null receiver never reaches this function (the simplifier and the property
merger test for null explicitly, the response helpers test truthiness
first). -/
def jsGet : Json → String → Option Json
  | .obj fs, key => lookupF fs key
  | .arr xs, key =>
    if key == "length" then some (.num xs.length)
    else match strToNat? key with
      | some i => if natToStr i == key then xs[i]? else none
      | none => none
  | .str s, key =>
    if key == "length" then some (.num s.length)
    else match strToNat? key with
      | some i =>
        if natToStr i == key then (s.toList[i]?).map (fun c => Json.str c.toString)
        else none
      | none => none
  | _, _ => none

/-- JS short-circuit `a || b` restricted to the shapes used here. -/
def jsOr (a : Option Json) (b : Json) : Json :=
  match a with
  | some v => if truthy v then v else b
  | none => b

/-- `definitions || schema.$defs || schema.definitions || {}`
(line 119 of the simplifier). -/
def collectDefs (definitions : Option Json) (schema : Json) : Json :=
  jsOr definitions (jsOr (jsGet schema "$defs") (jsOr (jsGet schema "definitions") (.obj [])))

/-- `for ... of v`: arrays iterate their elements, strings their characters;
anything else is not iterable and throws (none). -/
def iterList : Json → Option (List Json)
  | .arr xs => some xs
  | .str s => some (s.toList.map (fun c => Json.str c.toString))
  | _ => none

def charsPrefixOf : List Char → List Char → Bool
  | [], _ => true
  | _ :: _, [] => false
  | c :: cs, d :: ds => c == d && charsPrefixOf cs ds

def removeFirstGo : List Char → List Char → Option (List Char)
  | _, [] => none
  | pat, c :: rest =>
    if charsPrefixOf pat (c :: rest) then some ((c :: rest).drop pat.length)
    else (removeFirstGo pat rest).map (c :: ·)

/-- JS `s.replace(pat, "")` with a string pattern: remove the first
occurrence of pat, if any. -/
def replaceFirstEmpty (s pat : String) : String :=
  match removeFirstGo pat.toList s.toList with
  | some cs => String.mk cs
  | none => s

/-- `$ref.replace("#/$defs/", "").replace("#/definitions/", "")`
(line 134). -/
def stripLocalRef (ref : String) : String :=
  replaceFirstEmpty (replaceFirstEmpty ref "#/$defs/") "#/definitions/"

/-- normalizeType (lines 89-100): collapse a type union to one tag.  The
argument is `string | string[] | undefined` in the source; `none` models
undefined.  A falsy value returns undefined; a string returns itself; an
array returns its first element that is not the string "null", or "null"
if there is none.  (The call site only passes arrays; a truthy value that
is neither string nor array would throw at `.filter` in JS.) -/
def normalizeType (type : Option Json) : Option Json :=
  if !truthyO type then none
  else match type with
  | some (.str s) => some (.str s)
  | some (.arr types) =>
    let nonNullTypes := types.filter (fun t => !jsonBeq t (.str "null"))
    match nonNullTypes with
    | t :: _ => some t
    | [] => some (.str "null")
  | _ => none

/-- Lines 127-130: if `Array.isArray(schema.type)`, replace the type field
by its normalization (spread copy); otherwise keep the node. -/
def normalizeSchemaType (schema : Json) : Json :=
  match schema with
  | .obj fs =>
    match lookupF fs "type" with
    | some (.arr types) =>
      .obj (setFieldL fs "type" ((normalizeType (some (.arr types))).getD .null))
    | _ => schema
  | _ => schema

/-- `node.type === tag` for a string literal tag. -/
def typeIs (j : Json) (tag : String) : Bool :=
  match jsGet j "type" with
  | some (.str t) => t == tag
  | _ => false

/-- The opaque fallback node (depth overflow, unresolved $ref,
no object option). -/
def fallbackSchema : Json :=
  .obj [("type", .str "object"), ("additionalProperties", .bool true)]

def enumLen : Json → Nat
  | .arr xs => xs.length
  | .str s => s.length
  | _ => 0

def enumFirst : Json → Option Json
  | .arr (x :: _) => some x
  | .str s =>
    match s.toList with
    | c :: _ => some (.str c.toString)
    | [] => none
  | _ => none

/-- `typeof firstValue` dispatch of lines 197-200. -/
def inferredTypeTag (e : Json) : Option String :=
  match enumFirst e with
  | some (.str _) => some "string"
  | some (.num _) => some "number"
  | some (.bool _) => some "boolean"
  | _ => none

/-- Conditional field assignment `if (x) out.k = x`: the field is written
exactly when the value is truthy. -/
def chunkTruthy (k : String) (o : Option Json) : List (String × Json) :=
  if truthyO o then [(k, o.getD .null)] else []

/-- Conditional field assignment `if (x !== undefined) out.k = x`: the
field is written exactly when present. -/
def chunkPresent (k : String) (o : Option Json) : List (String × Json) :=
  match o with
  | some v => [(k, v)]
  | none => []

/-- The field copies of the primitive/default branch (lines 189-193):
type, enum, const, description, default, each written under its original
truthiness or presence test. -/
def primBase (stp : Json) : List (String × Json) :=
  chunkTruthy "type" (jsGet stp "type")
  ++ chunkTruthy "enum" (jsGet stp "enum")
  ++ chunkPresent "const" (jsGet stp "const")
  ++ chunkTruthy "description" (jsGet stp "description")
  ++ chunkPresent "default" (jsGet stp "default")

/-- The primitive/default branch (lines 186-203): copy type, enum, const,
description, default; infer a type from the first enum value if no type
survived; fall back to a bare object node if nothing was copied. -/
def primitiveOut (stp : Json) : Json :=
  let typeOpt := jsGet stp "type"
  let enumOpt := jsGet stp "enum"
  let fields := primBase stp
  let fields2 :=
    if !truthyO typeOpt && truthyO enumOpt && !(enumLen (enumOpt.getD .null) == 0) then
      match inferredTypeTag (enumOpt.getD .null) with
      | some tag => fields ++ [("type", .str tag)]
      | none => fields
    else fields
  if fields2.isEmpty then .obj [("type", .str "object")] else .obj fields2

/-- The object branch result (lines 167-173).  `required` and
`additionalProperties` are carried through verbatim when present on the
input node (the source always writes the `required` key, with value
undefined when absent; an undefined-valued key is modelled as an absent
key, see the header note). -/
def mkObjectOut (stp : Json) (simplifiedProperties : List (String × Json)) : Json :=
  .obj ([("type", .str "object"), ("properties", .obj simplifiedProperties)]
    ++ chunkPresent "required" (jsGet stp "required")
    ++ chunkTruthy "description" (jsGet stp "description")
    ++ chunkPresent "additionalProperties" (jsGet stp "additionalProperties"))

/-- The array branch result (lines 178-182). -/
def mkArrayOut (stp : Json) (items2 : Json) : Json :=
  .obj ([("type", .str "array"), ("items", items2)]
    ++ chunkTruthy "description" (jsGet stp "description"))

-- JS string coercion, used by `descriptions.join(" OR ")`.
mutual

def jsToString : Json → String
  | .null => "null"
  | .bool b => if b then "true" else "false"
  | .num n => if n < 0 then "-" ++ natToStr n.natAbs else natToStr n.natAbs
  | .str s => s
  | .arr xs => jsToStringJoin xs
  | .obj _ => "[object Object]"

def jsToStringJoin : List Json → String
  | [] => ""
  | [x] => (match x with | .null => "" | y => jsToString y)
  | x :: xs => (match x with | .null => "" | y => jsToString y) ++ "," ++ jsToStringJoin xs

end

/-- The different-types fallback of mergePropertySchemas (lines 281-290):
a string-typed node joining any truthy descriptions with " OR ". -/
def mergePropFallback (schema1 schema2 : Json) : Json :=
  let descriptions :=
    ([jsGet schema1 "description", jsGet schema2 "description"].filterMap id).filter truthy
  .obj ([("type", .str "string")]
    ++ (if descriptions.isEmpty then []
        else [("description",
               .str (String.intercalate " OR " (descriptions.map jsToString)))]))

/-- mergePropertySchemas (lines 271-291): resolve one property key claimed
by two variants.  Same type: keep the first.  Exactly one typed: keep the
typed one.  Otherwise degrade to the string-typed fallback.  (Member
access on a null argument would throw.) -/
def mergePropertySchemas (schema1 schema2 : Json) : Option Json :=
  match schema1, schema2 with
  | .null, _ => none
  | _, .null => none
  | _, _ =>
    if optBeq (jsGet schema1 "type") (jsGet schema2 "type") then some schema1
    else if truthyO (jsGet schema1 "type") && !truthyO (jsGet schema2 "type") then some schema1
    else if truthyO (jsGet schema2 "type") && !truthyO (jsGet schema1 "type") then some schema2
    else some (mergePropFallback schema1 schema2)

def elemB (seen : List Json) (x : Json) : Bool :=
  seen.any (fun y => jsonBeq y x)

/-- Set insertion order with deduplication, as produced by `new Set(list)`
followed by spreading: first occurrences, in order. -/
def dedupGo : List Json → List Json → List Json
  | _, [] => []
  | seen, x :: xs =>
    if elemB seen x then dedupGo seen xs
    else x :: dedupGo (seen ++ [x]) xs

def dedupB (l : List Json) : List Json := dedupGo [] l

/-- `new Set(v || [])` spread back to a list; a truthy non-iterable
argument throws (none). -/
def jsSetElems : Option Json → Option (List Json)
  | none => some []
  | some v =>
    if !truthy v then some []
    else match v with
      | .arr xs => some (dedupB xs)
      | .str s => some (dedupB (s.toList.map (fun c => Json.str c.toString)))
      | _ => none

/-- Lines 252-258: `[...firstSet].filter(prop => requiredSets.every(set =>
set.has(prop)))`, empty when there are no recorded sets. -/
def finalRequiredOf (requiredSets : List (List Json)) : List Json :=
  match requiredSets with
  | [] => []
  | firstSet :: _ => firstSet.filter (fun prop => requiredSets.all (fun s => elemB s prop))

/-- The property-accumulation step of mergeSchemaOptions (lines 232-239):
insert each property of one option into the accumulated mapping, resolving
clashes with mergePropertySchemas. -/
def mergePropsInto : List (String × Json) → List (String × Json) → Option (List (String × Json))
  | acc, [] => some acc
  | acc, (key, propSchema) :: rest =>
    match lookupF acc key with
    | some existing =>
      if truthy existing then
        match mergePropertySchemas existing propSchema with
        | none => none
        | some merged => mergePropsInto (setFieldL acc key merged) rest
      else mergePropsInto (setFieldL acc key propSchema) rest
    | none => mergePropsInto (acc ++ [(key, propSchema)]) rest

/-- The option walk of mergeSchemaOptions (lines 220-245), parametrized by
the (fuel-instrumented) recursive simplifier.  The walk either returns a
result early (inl, the primitive short-circuit) or finishes with the
accumulated merged properties, required sets, and object-seen flag (inr). -/
def mergeLoop (recSimp : Json → Nat → Nat → Option Json → Option Json)
    (maxDepth currentDepth : Nat) (defs : Json) :
    List Json → List (String × Json) → List (List Json) → Bool →
    Option (Json ⊕ (List (String × Json) × List (List Json) × Bool))
  | [], mergedProperties, requiredSets, hasObjectOptions =>
    some (.inr (mergedProperties, requiredSets, hasObjectOptions))
  | option :: rest, mergedProperties, requiredSets, hasObjectOptions =>
    match recSimp option maxDepth currentDepth (some defs) with
    | none => none
    | some simplified =>
      if typeIs simplified "object" && truthyO (jsGet simplified "properties") then
        match jsSetElems (jsGet simplified "required") with
        | none => none
        | some optionRequired =>
          match mergePropsInto mergedProperties
              (jsEntries ((jsGet simplified "properties").getD .null)) with
          | none => none
          | some merged2 =>
            mergeLoop recSimp maxDepth currentDepth defs rest merged2
              (requiredSets ++ [optionRequired]) true
      else if truthyO (jsGet simplified "type") && !hasObjectOptions then
        some (.inl simplified)
      else mergeLoop recSimp maxDepth currentDepth defs rest mergedProperties
        requiredSets hasObjectOptions

/-- mergeSchemaOptions (lines 210-265), parametrized by the recursive
simplifier. -/
def mergeSchemaOptions (recSimp : Json → Nat → Nat → Option Json → Option Json)
    (options : List Json) (maxDepth currentDepth : Nat) (defs : Json) : Option Json :=
  match mergeLoop recSimp maxDepth currentDepth defs options [] [] false with
  | none => none
  | some (.inl result) => some result
  | some (.inr (mergedProperties, requiredSets, hasObjectOptions)) =>
    if !hasObjectOptions then some fallbackSchema
    else
      let finalRequired := finalRequiredOf requiredSets
      some (.obj ([("type", .str "object"), ("properties", .obj mergedProperties)]
        ++ (if finalRequired.isEmpty then [] else [("required", .arr finalRequired)])))

/-- The properties loop of the object branch (lines 156-165), parametrized
by the recursive simplifier; currentDepth is already the child depth. -/
def simplifyProps (recSimp : Json → Nat → Nat → Option Json → Option Json)
    (maxDepth currentDepth : Nat) (defs : Json) :
    List (String × Json) → Option (List (String × Json))
  | [] => some []
  | (key, propSchema) :: rest =>
    match recSimp propSchema maxDepth currentDepth (some defs) with
    | none => none
    | some v => (simplifyProps recSimp maxDepth currentDepth defs rest).map ((key, v) :: ·)

/-- The body of simplifySchemaForDatabricks (lines 118-203) on a non-null
receiver, with the recursive occurrence abstracted.  Branches in source
order: collect defs; depth guard; type-array normalization; $ref
resolution (same depth); anyOf/oneOf merge; allOf merge; object recursion
(depth + 1); array recursion (depth + 1); primitive copy. -/
def simplifyCore (recSimp : Json → Nat → Nat → Option Json → Option Json)
    (schema : Json) (maxDepth currentDepth : Nat) (definitions : Option Json) : Option Json :=
  let defs := collectDefs definitions schema
  if currentDepth > maxDepth then some fallbackSchema
  else
    let schemaToProcess := normalizeSchemaType schema
    let refOpt := jsGet schemaToProcess "$ref"
    if truthyO refOpt then
      match refOpt with
      | some (.str refStr) =>
        match jsGet defs (stripLocalRef refStr) with
        | some refSchema =>
          if truthy refSchema then recSimp refSchema maxDepth currentDepth (some defs)
          else some fallbackSchema
        | none => some fallbackSchema
      | _ => none
    else
      let anyOfOpt := jsGet schemaToProcess "anyOf"
      let oneOfOpt := jsGet schemaToProcess "oneOf"
      if truthyO anyOfOpt || truthyO oneOfOpt then
        match iterList (jsOr anyOfOpt (jsOr oneOfOpt (.arr []))) with
        | some options => mergeSchemaOptions recSimp options maxDepth currentDepth defs
        | none => none
      else if truthyO (jsGet schemaToProcess "allOf") then
        match iterList ((jsGet schemaToProcess "allOf").getD .null) with
        | some options => mergeSchemaOptions recSimp options maxDepth currentDepth defs
        | none => none
      else if typeIs schemaToProcess "object" && truthyO (jsGet schemaToProcess "properties") then
        match simplifyProps recSimp maxDepth (currentDepth + 1) defs
            (jsEntries ((jsGet schemaToProcess "properties").getD .null)) with
        | some simplifiedProperties => some (mkObjectOut schemaToProcess simplifiedProperties)
        | none => none
      else if typeIs schemaToProcess "array" && truthyO (jsGet schemaToProcess "items") then
        match recSimp ((jsGet schemaToProcess "items").getD .null) maxDepth
            (currentDepth + 1) (some defs) with
        | some items2 => some (mkArrayOut schemaToProcess items2)
        | none => none
      else some (primitiveOut schemaToProcess)

/-- One unfolding of simplifySchemaForDatabricks (lines 112-204): a null
receiver throws at the first member access (line 119); otherwise run the
body. -/
def simplifyStep (recSimp : Json → Nat → Nat → Option Json → Option Json)
    (schema : Json) (maxDepth currentDepth : Nat) (definitions : Option Json) : Option Json :=
  match schema with
  | .null => none
  | _ => simplifyCore recSimp schema maxDepth currentDepth definitions

/-- simplifySchemaForDatabricks, fuel-instrumented.  Arguments after fuel
match the source: schema, maxDepth, currentDepth, definitions. -/
def simplifySchemaForDatabricks : Nat → Json → Nat → Nat → Option Json → Option Json
  | 0, _, _, _, _ => none
  | fuel + 1, schema, maxDepth, currentDepth, definitions =>
    simplifyStep (simplifySchemaForDatabricks fuel) schema maxDepth currentDepth definitions

/-- Fuel-instrumented entry point for mergeSchemaOptions as the claims
reference it (options simplified with the given fuel). -/
def mergeSchemaOptionsFuel (fuel : Nat) (options : List Json)
    (maxDepth currentDepth : Nat) (defs : Json) : Option Json :=
  mergeSchemaOptions (simplifySchemaForDatabricks fuel) options maxDepth currentDepth defs

/-- simplifyToolInputSchema (lines 297-303): a missing or falsy input
schema becomes an empty object schema, otherwise simplify at maxDepth 4,
depth 0. -/
def simplifyToolInputSchema (fuel : Nat) (inputSchema : Option Json) : Option Json :=
  match inputSchema with
  | none => some (.obj [("type", .str "object"), ("properties", .obj [])])
  | some v =>
    if !truthy v then some (.obj [("type", .str "object"), ("properties", .obj [])])
    else simplifySchemaForDatabricks fuel v 4 0 none

/-- The per-tool mapping function of simplifyToolsListResponse
(lines 321-329): a falsy or non-object element passes through; otherwise
a spread copy with inputSchema replaced. -/
def simplifyToolEntry (fuel : Nat) (tool : Json) : Option Json :=
  if !truthy tool || !jsTypeofObject tool then some tool
  else match simplifyToolInputSchema fuel (jsGet tool "inputSchema") with
    | none => none
    | some v => some (.obj (setFieldL (jsEntries tool) "inputSchema" v))

def simplifyToolsList (fuel : Nat) : List Json → Option (List Json)
  | [] => some []
  | tool :: rest =>
    match simplifyToolEntry fuel tool with
    | none => none
    | some t2 => (simplifyToolsList fuel rest).map (t2 :: ·)

/-- simplifyToolsListResponse (lines 308-342). -/
def simplifyToolsListResponse (fuel : Nat) (response : Json) : Option Json :=
  if !truthy response || !jsTypeofObject response then some response
  else
    let resultOpt := jsGet response "result"
    if truthyO resultOpt && jsTypeofObjectO resultOpt then
      match jsGet (resultOpt.getD .null) "tools" with
      | some (.arr tools) =>
        match simplifyToolsList fuel tools with
        | none => none
        | some simplifiedTools =>
          some (.obj (setFieldL (jsEntries response) "result"
            (.obj (setFieldL (jsEntries (resultOpt.getD .null)) "tools"
              (.arr simplifiedTools)))))
      | _ => some response
    else some response

/-- isToolsListResponse (lines 41-52). -/
def isToolsListResponse (message : Json) : Bool :=
  if !truthy message || !jsTypeofObject message then false
  else if truthyO (jsGet message "method") || !truthyO (jsGet message "result") then false
  else match jsGet ((jsGet message "result").getD .null) "tools" with
    | some (.arr _) => true
    | _ => false

/-- The message value the wrapped send (wrapTransportForDatabricks,
lines 26-32) delivers to the underlying transport send: the simplified
tools/list response when classified, the original message otherwise. -/
def wrappedSendMessage (fuel : Nat) (message : Json) : Option Json :=
  if isToolsListResponse message then simplifyToolsListResponse fuel message
  else some message

-- Key-order-insensitive JSON value equality: objects are compared as
-- finite maps (same key set, pointwise equal values), arrays pointwise.
-- This is the appropriate reading of equality of JSON documents, where
-- object member order carries no meaning.
def keysSubF (gs fs : List (String × Json)) : Bool :=
  gs.all (fun q => (lookupF fs q.1).isSome)

mutual

def jeqB : Json → Json → Bool
  | .null, .null => true
  | .bool a, .bool b => a == b
  | .num a, .num b => a == b
  | .str a, .str b => a == b
  | .arr xs, .arr ys => jeqList xs ys
  | .obj fs, .obj gs => jeqFieldsIn fs gs && keysSubF gs fs
  | _, _ => false

def jeqList : List Json → List Json → Bool
  | [], [] => true
  | x :: xs, y :: ys => jeqB x y && jeqList xs ys
  | _, _ => false

def jeqFieldsIn : List (String × Json) → List (String × Json) → Bool
  | [], _ => true
  | (k, v) :: rest, gs =>
    (match lookupF gs k with
     | some w => jeqB v w
     | none => false) && jeqFieldsIn rest gs

end

-- Whether a key occurs anywhere in a JSON tree, at any depth.
mutual

def hasKeyDeep (key : String) : Json → Bool
  | .obj fs => hasKeyF fs key || hasKeyDeepF key fs
  | .arr xs => hasKeyDeepL key xs
  | _ => false

def hasKeyDeepL (key : String) : List Json → Bool
  | [] => false
  | x :: xs => hasKeyDeep key x || hasKeyDeepL key xs

def hasKeyDeepF (key : String) : List (String × Json) → Bool
  | [] => false
  | (_, v) :: rest => hasKeyDeep key v || hasKeyDeepF key rest

end

def isStrJ : Json → Bool
  | .str _ => true
  | _ => false

def typeFieldOK (fs : List (String × Json)) : Bool :=
  match lookupF fs "type" with
  | some (.arr xs) => xs.all isStrJ
  | _ => true

-- Every type field anywhere in the tree that holds an array holds only
-- strings (the schema data model restricts type sets to lists of tags).
mutual

def allTAS : Json → Bool
  | .obj fs => typeFieldOK fs && allTASF fs
  | .arr xs => allTASL xs
  | _ => true

def allTASL : List Json → Bool
  | [] => true
  | x :: xs => allTAS x && allTASL xs

def allTASF : List (String × Json) → Bool
  | [] => true
  | (_, v) :: rest => allTAS v && allTASF rest

end

def allTASO : Option Json → Bool
  | none => true
  | some v => allTAS v

-- Cleanliness of a simplified node at schema positions: no banned key and
-- no array-valued type at the node itself, a properties field (when
-- present) holding an object mapping, recursively clean property values
-- and items child.  Values carried through verbatim from the input
-- (required, description, additionalProperties, enum, const, default) are
-- opaque data at schema level and are not descended into.
def cleanTop (fs : List (String × Json)) : Bool :=
  !(hasKeyF fs "$ref") && !(hasKeyF fs "anyOf") && !(hasKeyF fs "oneOf")
  && !(hasKeyF fs "allOf") && !(hasKeyF fs "$defs") && !(hasKeyF fs "definitions")
  && (match lookupF fs "type" with | some (.arr _) => false | _ => true)

mutual

def schemaClean : Json → Bool
  | .obj fs => cleanTop fs && schemaCleanF fs
  | _ => true

def schemaCleanF : List (String × Json) → Bool
  | [] => true
  | (k, v) :: rest =>
    (if k == "properties" then schemaCleanPropVal v
     else if k == "items" then schemaClean v
     else true) && schemaCleanF rest

def schemaCleanPropVal : Json → Bool
  | .obj ps => schemaCleanProps ps
  | _ => false

def schemaCleanProps : List (String × Json) → Bool
  | [] => true
  | (_, v) :: rest => schemaClean v && schemaCleanProps rest

end

-- A tree with none of the union or reference vocabulary anywhere and with
-- well-formed type sets: the domain on which the simplifier is a plain
-- structural transform.
def simpleTree (j : Json) : Bool :=
  !(hasKeyDeep "$ref" j) && !(hasKeyDeep "anyOf" j) && !(hasKeyDeep "oneOf" j)
  && !(hasKeyDeep "allOf" j) && allTAS j

/-! ## Field lookup algebra -/

theorem lookupF_append (fs gs : List (String × Json)) (k : String) :
    lookupF (fs ++ gs) k =
      (match lookupF fs k with
       | some v => some v
       | none => lookupF gs k) := by
  induction fs with
  | nil => simp [lookupF]
  | cons p rest ih =>
    obtain ⟨k2, v⟩ := p
    by_cases h : k2 == k <;> simp [lookupF, h, ih]

theorem lookupF_chunkTruthy_self (k : String) (o : Option Json) :
    lookupF (chunkTruthy k o) k = if truthyO o then some (o.getD .null) else none := by
  unfold chunkTruthy
  by_cases h : truthyO o <;> simp [h, lookupF]

theorem lookupF_chunkTruthy_other (k k2 : String) (o : Option Json) (h : k ≠ k2) :
    lookupF (chunkTruthy k o) k2 = none := by
  unfold chunkTruthy
  by_cases ht : truthyO o <;> simp [ht, lookupF, h]

theorem lookupF_chunkPresent_self (k : String) (o : Option Json) :
    lookupF (chunkPresent k o) k = o := by
  unfold chunkPresent
  cases o <;> simp [lookupF]

theorem lookupF_chunkPresent_other (k k2 : String) (o : Option Json) (h : k ≠ k2) :
    lookupF (chunkPresent k o) k2 = none := by
  unfold chunkPresent
  cases o <;> simp [lookupF, h]

theorem lookupF_setFieldL_self (fs : List (String × Json)) (k : String) (v : Json) :
    lookupF (setFieldL fs k v) k = some v := by
  induction fs with
  | nil => simp [setFieldL, lookupF]
  | cons p rest ih =>
    obtain ⟨k2, w⟩ := p
    by_cases h : k2 == k <;> simp [setFieldL, lookupF, h, ih]

theorem lookupF_setFieldL_other (fs : List (String × Json)) (k k2 : String) (v : Json)
    (h : k ≠ k2) :
    lookupF (setFieldL fs k v) k2 = lookupF fs k2 := by
  induction fs with
  | nil => simp [setFieldL, lookupF, h]
  | cons p rest ih =>
    obtain ⟨k3, w⟩ := p
    by_cases h3 : k3 = k
    · subst h3
      simp [setFieldL, lookupF, h]
    · simp [setFieldL, lookupF, h3, ih]

theorem jsGet_normalizeSchemaType_other (schema : Json) (k : String) (h : k ≠ "type") :
    jsGet (normalizeSchemaType schema) k = jsGet schema k := by
  cases schema with
  | obj fs =>
    simp only [normalizeSchemaType]
    cases htype : lookupF fs "type" with
    | none => rfl
    | some v =>
      cases v with
      | arr types =>
        show lookupF (setFieldL fs "type" _) k = lookupF fs k
        exact lookupF_setFieldL_other fs "type" k _ (fun hk => h hk.symm)
      | null => rfl
      | bool b => rfl
      | num n => rfl
      | str s => rfl
      | obj fs2 => rfl
  | null => rfl
  | bool b => rfl
  | num n => rfl
  | str s => rfl
  | arr xs => rfl

/-! ## Every simplifier result is a JS object -/

theorem mergeLoop_isObj (recSimp : Json → Nat → Nat → Option Json → Option Json)
    (hrec : ∀ s md d dfs o, recSimp s md d dfs = some o → ∃ fs, o = Json.obj fs)
    (md d : Nat) (defs : Json) :
    ∀ opts acc reqs hasObj r,
      mergeLoop recSimp md d defs opts acc reqs hasObj = some (Sum.inl r) →
      ∃ fs, r = Json.obj fs := by
  intro opts
  induction opts with
  | nil => intro acc reqs hasObj r h; simp [mergeLoop] at h
  | cons o rest ih =>
    intro acc reqs hasObj r h
    simp only [mergeLoop] at h
    split at h
    · exact absurd h (by simp)
    · rename_i simplified hrs
      split at h
      · split at h
        · exact absurd h (by simp)
        · split at h
          · exact absurd h (by simp)
          · exact ih _ _ _ _ h
      · split at h
        · have hsr : simplified = r := by simpa using h
          subst hsr
          exact hrec _ _ _ _ _ hrs
        · exact ih _ _ _ _ h

theorem mergeSchemaOptions_isObj (recSimp : Json → Nat → Nat → Option Json → Option Json)
    (hrec : ∀ s md d dfs o, recSimp s md d dfs = some o → ∃ fs, o = Json.obj fs)
    (options : List Json) (md d : Nat) (defs : Json) (out : Json)
    (h : mergeSchemaOptions recSimp options md d defs = some out) :
    ∃ fs, out = Json.obj fs := by
  unfold mergeSchemaOptions at h
  split at h
  · exact absurd h (by simp)
  · rename_i r hml
    have hro : r = out := by simpa using h
    subst hro
    exact mergeLoop_isObj recSimp hrec md d defs options [] [] false _ hml
  · split at h
    · exact ⟨_, (by simpa using h.symm)⟩
    · exact ⟨_, (by simpa using h.symm)⟩

theorem primitiveOut_isObj (stp : Json) : ∃ fs, primitiveOut stp = Json.obj fs := by
  simp only [primitiveOut]
  repeat' split
  all_goals exact ⟨_, rfl⟩

theorem fallbackSchema_isObj : ∃ fs, fallbackSchema = Json.obj fs := ⟨_, rfl⟩

theorem simplifyCore_isObj (recSimp : Json → Nat → Nat → Option Json → Option Json)
    (hrec : ∀ s md d dfs o, recSimp s md d dfs = some o → ∃ fs, o = Json.obj fs)
    (schema : Json) (md d : Nat) (dfs : Option Json) (out : Json)
    (h : simplifyCore recSimp schema md d dfs = some out) :
    ∃ fs, out = Json.obj fs := by
  simp only [simplifyCore] at h
  split at h
  · obtain rfl : fallbackSchema = out := by simpa using h
    exact fallbackSchema_isObj
  · split at h
    · split at h
      · split at h
        · split at h
          · exact hrec _ _ _ _ _ h
          · obtain rfl : fallbackSchema = out := by simpa using h
            exact fallbackSchema_isObj
        · obtain rfl : fallbackSchema = out := by simpa using h
          exact fallbackSchema_isObj
      · exact absurd h (by simp)
    · split at h
      · split at h
        · exact mergeSchemaOptions_isObj recSimp hrec _ _ _ _ _ h
        · exact absurd h (by simp)
      · split at h
        · split at h
          · exact mergeSchemaOptions_isObj recSimp hrec _ _ _ _ _ h
          · exact absurd h (by simp)
        · split at h
          · split at h
            · obtain rfl : mkObjectOut _ _ = out := by simpa using h
              exact ⟨_, rfl⟩
            · exact absurd h (by simp)
          · split at h
            · split at h
              · obtain rfl : mkArrayOut _ _ = out := by simpa using h
                exact ⟨_, rfl⟩
              · exact absurd h (by simp)
            · obtain rfl : primitiveOut _ = out := by simpa using h
              exact primitiveOut_isObj _

theorem simplifyStep_isObj (recSimp : Json → Nat → Nat → Option Json → Option Json)
    (hrec : ∀ s md d dfs o, recSimp s md d dfs = some o → ∃ fs, o = Json.obj fs)
    (schema : Json) (md d : Nat) (dfs : Option Json) (out : Json)
    (h : simplifyStep recSimp schema md d dfs = some out) :
    ∃ fs, out = Json.obj fs := by
  unfold simplifyStep at h
  cases schema with
  | null => exact absurd h (by simp)
  | bool b => exact simplifyCore_isObj recSimp hrec _ md d dfs out h
  | num n => exact simplifyCore_isObj recSimp hrec _ md d dfs out h
  | str s => exact simplifyCore_isObj recSimp hrec _ md d dfs out h
  | arr xs => exact simplifyCore_isObj recSimp hrec _ md d dfs out h
  | obj fs => exact simplifyCore_isObj recSimp hrec _ md d dfs out h

theorem simplify_isObj :
    ∀ fuel schema md d dfs out,
      simplifySchemaForDatabricks fuel schema md d dfs = some out →
      ∃ fs, out = Json.obj fs := by
  intro fuel
  induction fuel with
  | zero => intro schema md d dfs out h; exact absurd h (by simp [simplifySchemaForDatabricks])
  | succ n ih =>
    intro schema md d dfs out h
    exact simplifyStep_isObj _ (fun s md2 d2 dfs2 o ho => ih s md2 d2 dfs2 o ho) schema md d dfs out h

/-! ## Type-set well-formedness is inherited by reachable subvalues -/

theorem allTASF_lookup (fs : List (String × Json)) (k : String) (v : Json)
    (hall : allTASF fs = true) (hl : lookupF fs k = some v) : allTAS v = true := by
  induction fs with
  | nil => simp [lookupF] at hl
  | cons p rest ih =>
    obtain ⟨k2, w⟩ := p
    simp only [allTASF, Bool.and_eq_true] at hall
    by_cases hk : k2 = k
    · subst hk
      simp [lookupF] at hl
      exact hl ▸ hall.1
    · simp [lookupF, hk] at hl
      exact ih hall.2 hl

theorem allTASL_get (xs : List Json) :
    ∀ (i : Nat) (v : Json), allTASL xs = true → xs[i]? = some v → allTAS v = true := by
  induction xs with
  | nil => intro i v _ hg; simp at hg
  | cons x rest ih =>
    intro i v hall hg
    simp only [allTASL, Bool.and_eq_true] at hall
    cases i with
    | zero => simp at hg; exact hg ▸ hall.1
    | succ j =>
      simp only [List.getElem?_cons_succ] at hg
      exact ih j v hall.2 hg

theorem allTAS_obj_fields (fs : List (String × Json)) (h : allTAS (.obj fs) = true) :
    allTASF fs = true := by
  simp only [allTAS, Bool.and_eq_true] at h
  exact h.2

theorem allTAS_jsGet (j : Json) (k : String) (v : Json)
    (hall : allTAS j = true) (hg : jsGet j k = some v) : allTAS v = true := by
  cases j with
  | obj fs => exact allTASF_lookup fs k v (allTAS_obj_fields fs hall) hg
  | arr xs =>
    simp only [jsGet] at hg
    split at hg
    · cases hg; rfl
    · split at hg
      · split at hg
        · exact allTASL_get xs _ v (by simpa [allTAS] using hall) hg
        · cases hg
      · cases hg
  | str s =>
    simp only [jsGet] at hg
    split at hg
    · cases hg; rfl
    · split at hg
      · split at hg
        · obtain ⟨c, hc, rfl⟩ := Option.map_eq_some'.mp hg
          rfl
        · cases hg
      · cases hg
  | null => cases hg
  | bool b => cases hg
  | num n => cases hg

theorem allTASF_enumEntriesArr (xs : List Json) (hall : allTASL xs = true) :
    ∀ i, allTASF (enumEntriesArr i xs) = true := by
  induction xs with
  | nil => intro i; rfl
  | cons x rest ih =>
    intro i
    simp only [allTASL, Bool.and_eq_true] at hall
    simp only [enumEntriesArr, allTASF, Bool.and_eq_true]
    exact ⟨hall.1, ih hall.2 (i + 1)⟩

theorem allTASF_enumEntriesStr (cs : List Char) : ∀ i, allTASF (enumEntriesStr i cs) = true := by
  induction cs with
  | nil => intro i; rfl
  | cons c rest ih =>
    intro i
    simp only [enumEntriesStr, allTASF, Bool.and_eq_true]
    exact ⟨rfl, ih (i + 1)⟩

theorem allTAS_jsEntries (j : Json) (hall : allTAS j = true) :
    allTASF (jsEntries j) = true := by
  cases j with
  | obj fs => exact allTAS_obj_fields fs hall
  | arr xs => exact allTASF_enumEntriesArr xs (by simpa [allTAS] using hall) 0
  | str s => exact allTASF_enumEntriesStr s.toList 0
  | null => rfl
  | bool b => rfl
  | num n => rfl

theorem allTASL_mapStr (cs : List Char) :
    allTASL (cs.map (fun c => Json.str c.toString)) = true := by
  induction cs with
  | nil => rfl
  | cons c rest ih =>
    simp only [List.map, allTASL, Bool.and_eq_true]
    exact ⟨rfl, ih⟩

theorem allTAS_iterList (j : Json) (xs : List Json)
    (hall : allTAS j = true) (hi : iterList j = some xs) : allTASL xs = true := by
  cases j with
  | arr ys => cases hi; simpa [allTAS] using hall
  | str s => cases hi; exact allTASL_mapStr s.toList
  | null => cases hi
  | bool b => cases hi
  | num n => cases hi
  | obj fs => cases hi

theorem allTAS_jsOr (a : Option Json) (b : Json)
    (ha : allTASO a = true) (hb : allTAS b = true) : allTAS (jsOr a b) = true := by
  cases a with
  | none => exact hb
  | some v =>
    simp only [jsOr]
    split
    · exact ha
    · exact hb

theorem allTASO_jsGet (j : Json) (k : String) (hall : allTAS j = true) :
    allTASO (jsGet j k) = true := by
  cases hg : jsGet j k with
  | none => rfl
  | some v => exact allTAS_jsGet j k v hall hg

theorem allTAS_collectDefs (dfs : Option Json) (schema : Json)
    (hd : allTASO dfs = true) (hs : allTAS schema = true) :
    allTAS (collectDefs dfs schema) = true := by
  unfold collectDefs
  exact allTAS_jsOr _ _ hd
    (allTAS_jsOr _ _ (allTASO_jsGet schema "$defs" hs)
      (allTAS_jsOr _ _ (allTASO_jsGet schema "definitions" hs) rfl))

theorem allTASF_setFieldL (fs : List (String × Json)) (k : String) (v : Json)
    (hall : allTASF fs = true) (hv : allTAS v = true) :
    allTASF (setFieldL fs k v) = true := by
  induction fs with
  | nil => simpa [setFieldL, allTASF] using hv
  | cons p rest ih =>
    obtain ⟨k2, w⟩ := p
    simp only [allTASF, Bool.and_eq_true] at hall
    by_cases hk : k2 = k
    · subst hk
      simp [setFieldL, allTASF, hv, hall.2]
    · simp only [setFieldL, show (k2 == k) = false by simpa using hk, Bool.false_eq_true,
        if_false, allTASF, Bool.and_eq_true]
      exact ⟨hall.1, ih hall.2⟩

theorem isStrJ_filter_nonNull (xs : List Json) (hall : xs.all isStrJ = true) :
    ∀ t rest2, xs.filter (fun t => !jsonBeq t (.str "null")) = t :: rest2 → isStrJ t = true := by
  intro t rest2 hf
  have hmem : t ∈ xs.filter (fun t => !jsonBeq t (.str "null")) := by
    rw [hf]; exact List.mem_cons_self t rest2
  have : t ∈ xs := (List.mem_filter.mp hmem).1
  exact (List.all_eq_true.mp hall) t this

theorem normalizeTypeArr_str (xs : List Json) (hall : xs.all isStrJ = true) :
    isStrJ ((normalizeType (some (.arr xs))).getD .null) = true := by
  simp only [normalizeType, truthyO, truthy]
  cases hf : xs.filter (fun t => !jsonBeq t (.str "null")) with
  | nil => rfl
  | cons t rest2 =>
    have := isStrJ_filter_nonNull xs hall t rest2 hf
    simpa using this

theorem allTAS_isStr (v : Json) (h : isStrJ v = true) : allTAS v = true := by
  cases v <;> simp_all [isStrJ, allTAS]

theorem typeFieldOK_setFieldL_str (fs : List (String × Json)) (v : Json)
    (hv : isStrJ v = true) : typeFieldOK (setFieldL fs "type" v) = true := by
  unfold typeFieldOK
  rw [lookupF_setFieldL_self]
  cases v <;> simp_all [isStrJ]

theorem allTAS_normalizeSchemaType (schema : Json) (hall : allTAS schema = true) :
    allTAS (normalizeSchemaType schema) = true := by
  cases schema with
  | obj fs =>
    simp only [normalizeSchemaType]
    cases htype : lookupF fs "type" with
    | none => exact hall
    | some v =>
      cases v with
      | arr types =>
        have hok : typeFieldOK fs = true := by
          simp only [allTAS, Bool.and_eq_true] at hall
          exact hall.1
        have hstr : types.all isStrJ = true := by
          unfold typeFieldOK at hok
          rw [htype] at hok
          exact hok
        have hs2 : isStrJ ((normalizeType (some (.arr types))).getD .null) = true :=
          normalizeTypeArr_str types hstr
        simp only [allTAS, Bool.and_eq_true]
        refine ⟨typeFieldOK_setFieldL_str fs _ hs2, ?_⟩
        exact allTASF_setFieldL fs "type" _ (allTAS_obj_fields fs hall) (allTAS_isStr _ hs2)
      | null => exact hall
      | bool b => exact hall
      | num n => exact hall
      | str s => exact hall
      | obj fs2 => exact hall
  | null => exact hall
  | bool b => exact hall
  | num n => exact hall
  | str s => exact hall
  | arr xs => exact hall

/-- The type field of a node, required not to be a JS array. -/
def typeNotArrB (j : Json) : Bool :=
  match jsGet j "type" with
  | some (.arr _) => false
  | _ => true

theorem typeNotArrB_normalizeSchemaType (schema : Json) (hall : allTAS schema = true) :
    typeNotArrB (normalizeSchemaType schema) = true := by
  cases schema with
  | obj fs =>
    simp only [normalizeSchemaType]
    cases htype : lookupF fs "type" with
    | none => simp [typeNotArrB, jsGet, htype]
    | some v =>
      cases v with
      | arr types =>
        have hok : typeFieldOK fs = true := by
          simp only [allTAS, Bool.and_eq_true] at hall
          exact hall.1
        have hstr : types.all isStrJ = true := by
          unfold typeFieldOK at hok
          rw [htype] at hok
          exact hok
        have hs2 : isStrJ ((normalizeType (some (.arr types))).getD .null) = true :=
          normalizeTypeArr_str types hstr
        simp only [typeNotArrB, jsGet, lookupF_setFieldL_self]
        cases hv : (normalizeType (some (.arr types))).getD .null <;> simp_all [isStrJ]
      | null => simp [typeNotArrB, jsGet, htype]
      | bool b => simp [typeNotArrB, jsGet, htype]
      | num n => simp [typeNotArrB, jsGet, htype]
      | str s => simp [typeNotArrB, jsGet, htype]
      | obj fs2 => simp [typeNotArrB, jsGet, htype]
  | null => rfl
  | bool b => rfl
  | num n => rfl
  | str s => rfl
  | arr xs => rfl

/-! ## Cleanliness of the constructed output nodes -/

theorem lookupF_none_of_not_mem (fs : List (String × Json)) (k : String)
    (h : ∀ p ∈ fs, p.1 ≠ k) : lookupF fs k = none := by
  induction fs with
  | nil => rfl
  | cons p rest ih =>
    obtain ⟨k2, v⟩ := p
    have hk2 : k2 ≠ k := h (k2, v) (List.mem_cons_self _ _)
    simp only [lookupF, show (k2 == k) = false by simpa using hk2, Bool.false_eq_true, if_false]
    exact ih (fun q hq => h q (List.mem_cons_of_mem _ hq))

def allowedOutKeys : List String :=
  ["type", "properties", "items", "required", "description",
   "additionalProperties", "enum", "const", "default"]

theorem cleanTop_of_allowed (fs : List (String × Json))
    (hall : ∀ p ∈ fs, p.1 ∈ allowedOutKeys)
    (htype : (match lookupF fs "type" with | some (.arr _) => false | _ => true) = true) :
    cleanTop fs = true := by
  have hnone : ∀ k : String, k ∉ allowedOutKeys → lookupF fs k = none := by
    intro k hk
    exact lookupF_none_of_not_mem fs k (fun p hp he => hk (he ▸ hall p hp))
  unfold cleanTop
  rw [hasKeyF, hnone "$ref" (by decide), hasKeyF, hnone "anyOf" (by decide),
    hasKeyF, hnone "oneOf" (by decide), hasKeyF, hnone "allOf" (by decide),
    hasKeyF, hnone "$defs" (by decide), hasKeyF, hnone "definitions" (by decide)]
  simpa using htype

theorem schemaCleanF_of_fields (fs : List (String × Json))
    (hp : ∀ p ∈ fs, p.1 = "properties" → schemaCleanPropVal p.2 = true)
    (hi : ∀ p ∈ fs, p.1 = "items" → schemaClean p.2 = true) :
    schemaCleanF fs = true := by
  induction fs with
  | nil => rfl
  | cons p rest ih =>
    obtain ⟨k, v⟩ := p
    have hrest : schemaCleanF rest = true :=
      ih (fun q hq => hp q (List.mem_cons_of_mem _ hq))
        (fun q hq => hi q (List.mem_cons_of_mem _ hq))
    simp only [schemaCleanF, Bool.and_eq_true]
    refine ⟨?_, hrest⟩
    by_cases hk : k = "properties"
    · have hps := hp (k, v) (List.mem_cons_self _ _) hk
      subst hk
      simpa using hps
    · by_cases hk2 : k = "items"
      · subst hk2
        have hc := hi ("items", v) (List.mem_cons_self _ _) rfl
        simpa [show (("items" : String) == "properties") = false by decide] using hc
      · simp [show (k == "properties") = false by simpa using hk,
          show (k == "items") = false by simpa using hk2]

theorem mem_chunkPresent (p : String × Json) (k : String) (o : Option Json)
    (h : p ∈ chunkPresent k o) : p.1 = k := by
  unfold chunkPresent at h
  cases o with
  | none => simp at h
  | some v =>
    simp only [List.mem_singleton] at h
    rw [h]

theorem mem_chunkTruthy (p : String × Json) (k : String) (o : Option Json)
    (h : p ∈ chunkTruthy k o) : p.1 = k := by
  unfold chunkTruthy at h
  split at h
  · simp only [List.mem_singleton] at h
    rw [h]
  · simp at h

theorem lookupF_chunkTruthy_ne (k k2 : String) (o : Option Json) (h : (k == k2) = false) :
    lookupF (chunkTruthy k o) k2 = none := by
  apply lookupF_none_of_not_mem
  intro p hp he
  rw [← he, mem_chunkTruthy p k o hp] at h
  simp at h

theorem lookupF_chunkPresent_ne (k k2 : String) (o : Option Json) (h : (k == k2) = false) :
    lookupF (chunkPresent k o) k2 = none := by
  apply lookupF_none_of_not_mem
  intro p hp he
  rw [← he, mem_chunkPresent p k o hp] at h
  simp at h

theorem schemaClean_obj (fs : List (String × Json))
    (h1 : cleanTop fs = true) (h2 : schemaCleanF fs = true) :
    schemaClean (.obj fs) = true := by
  simp [schemaClean, h1, h2]

theorem mem_pair_append3 {p a b : String × Json} {c1 c2 c3 : List (String × Json)}
    (hp : p ∈ [a, b] ++ c1 ++ c2 ++ c3) :
    p = a ∨ p = b ∨ p ∈ c1 ∨ p ∈ c2 ∨ p ∈ c3 := by
  simp only [List.append_assoc, List.cons_append, List.nil_append, List.mem_cons,
    List.mem_append] at hp
  tauto

theorem mem_pair_append1 {p a b : String × Json} {c1 : List (String × Json)}
    (hp : p ∈ [a, b] ++ c1) :
    p = a ∨ p = b ∨ p ∈ c1 := by
  simp only [List.cons_append, List.nil_append, List.mem_cons, List.mem_append] at hp
  tauto

theorem mem_primBase {p : String × Json} {stp : Json} (hp : p ∈ primBase stp) :
    p.1 = "type" ∨ p.1 = "enum" ∨ p.1 = "const" ∨ p.1 = "description" ∨ p.1 = "default" := by
  unfold primBase at hp
  simp only [List.append_assoc, List.mem_append] at hp
  rcases hp with h | h | h | h | h
  · exact Or.inl (mem_chunkTruthy p _ _ h)
  · exact Or.inr (Or.inl (mem_chunkTruthy p _ _ h))
  · exact Or.inr (Or.inr (Or.inl (mem_chunkPresent p _ _ h)))
  · exact Or.inr (Or.inr (Or.inr (Or.inl (mem_chunkTruthy p _ _ h))))
  · exact Or.inr (Or.inr (Or.inr (Or.inr (mem_chunkPresent p _ _ h))))

theorem schemaClean_mkObjectOut (stp : Json) (props : List (String × Json))
    (hprops : schemaCleanProps props = true) :
    schemaClean (mkObjectOut stp props) = true := by
  unfold mkObjectOut
  have hmem : ∀ p ∈ ([("type", Json.str "object"), ("properties", Json.obj props)]
      ++ chunkPresent "required" (jsGet stp "required")
      ++ chunkTruthy "description" (jsGet stp "description")
      ++ chunkPresent "additionalProperties" (jsGet stp "additionalProperties")),
      p.1 = "type" ∨ p.1 = "properties" ∨ p.1 = "required" ∨ p.1 = "description"
        ∨ p.1 = "additionalProperties" := by
    intro p hp
    rcases mem_pair_append3 hp with rfl | rfl | h | h | h
    · exact Or.inl rfl
    · exact Or.inr (Or.inl rfl)
    · exact Or.inr (Or.inr (Or.inl (mem_chunkPresent p _ _ h)))
    · exact Or.inr (Or.inr (Or.inr (Or.inl (mem_chunkTruthy p _ _ h))))
    · exact Or.inr (Or.inr (Or.inr (Or.inr (mem_chunkPresent p _ _ h))))
  apply schemaClean_obj
  · apply cleanTop_of_allowed
    · intro p hp
      rcases hmem p hp with h | h | h | h | h <;> rw [h] <;> decide
    · rfl
  · apply schemaCleanF_of_fields
    · intro p hp hk
      rcases mem_pair_append3 hp with rfl | rfl | h | h | h
      · simp at hk
      · simpa [schemaCleanPropVal] using hprops
      · rw [mem_chunkPresent p _ _ h] at hk; simp at hk
      · rw [mem_chunkTruthy p _ _ h] at hk; simp at hk
      · rw [mem_chunkPresent p _ _ h] at hk; simp at hk
    · intro p hp hk
      rcases hmem p hp with h | h | h | h | h <;> rw [h] at hk <;> simp at hk

theorem schemaClean_mkArrayOut (stp : Json) (items2 : Json)
    (hitems : schemaClean items2 = true) :
    schemaClean (mkArrayOut stp items2) = true := by
  unfold mkArrayOut
  have hmem : ∀ p ∈ ([("type", Json.str "array"), ("items", items2)]
      ++ chunkTruthy "description" (jsGet stp "description")),
      p.1 = "type" ∨ p.1 = "items" ∨ p.1 = "description" := by
    intro p hp
    rcases mem_pair_append1 hp with rfl | rfl | h
    · exact Or.inl rfl
    · exact Or.inr (Or.inl rfl)
    · exact Or.inr (Or.inr (mem_chunkTruthy p _ _ h))
  apply schemaClean_obj
  · apply cleanTop_of_allowed
    · intro p hp
      rcases hmem p hp with h | h | h <;> rw [h] <;> decide
    · rfl
  · apply schemaCleanF_of_fields
    · intro p hp hk
      rcases hmem p hp with h | h | h <;> rw [h] at hk <;> simp at hk
    · intro p hp hk
      rcases mem_pair_append1 hp with rfl | rfl | h
      · simp at hk
      · exact hitems
      · rw [mem_chunkTruthy p _ _ h] at hk; simp at hk

theorem lookupF_primBase_type (stp : Json) :
    lookupF (primBase stp) "type" =
      (if truthyO (jsGet stp "type") then some ((jsGet stp "type").getD .null) else none) := by
  unfold primBase
  simp only [List.append_assoc]
  rw [lookupF_append, lookupF_chunkTruthy_self]
  cases ht : truthyO (jsGet stp "type") with
  | true => simp
  | false =>
    simp only [Bool.false_eq_true, if_false]
    rw [lookupF_append, lookupF_append, lookupF_append]
    rw [lookupF_chunkTruthy_ne "enum" "type" _ (by decide),
      lookupF_chunkPresent_ne "const" "type" _ (by decide),
      lookupF_chunkTruthy_ne "description" "type" _ (by decide),
      lookupF_chunkPresent_ne "default" "type" _ (by decide)]

theorem schemaClean_primFields (stp : Json) (htype : typeNotArrB stp = true)
    (extra : List (String × Json))
    (hex : extra = [] ∨ ∃ tag, extra = [("type", Json.str tag)]) :
    schemaClean (Json.obj (primBase stp ++ extra)) = true := by
  have hexkey : ∀ p ∈ extra, p.1 = "type" := by
    intro p hp
    rcases hex with rfl | ⟨tag, rfl⟩
    · simp at hp
    · simp only [List.mem_singleton] at hp
      rw [hp]
  have hmem : ∀ p ∈ primBase stp ++ extra,
      p.1 = "type" ∨ p.1 = "enum" ∨ p.1 = "const" ∨ p.1 = "description" ∨ p.1 = "default" := by
    intro p hp
    rcases List.mem_append.mp hp with h | h
    · exact mem_primBase h
    · exact Or.inl (hexkey p h)
  apply schemaClean_obj
  · apply cleanTop_of_allowed
    · intro p hp
      rcases hmem p hp with h | h | h | h | h <;> rw [h] <;> decide
    · rw [lookupF_append, lookupF_primBase_type]
      cases ht : truthyO (jsGet stp "type") with
      | true =>
        simp only [ht, if_true]
        cases hv : jsGet stp "type" with
        | none => rw [hv] at ht; simp [truthyO] at ht
        | some v =>
          unfold typeNotArrB at htype
          rw [hv] at htype
          simp only [hv, Option.getD_some]
          cases v <;> simp_all
      | false =>
        simp only [Bool.false_eq_true, if_false]
        rcases hex with rfl | ⟨tag, rfl⟩
        · rfl
        · rfl
  · apply schemaCleanF_of_fields
    · intro p hp hk
      rcases hmem p hp with h | h | h | h | h <;> rw [h] at hk <;> simp at hk
    · intro p hp hk
      rcases hmem p hp with h | h | h | h | h <;> rw [h] at hk <;> simp at hk

theorem primitiveOut_shape (stp : Json) :
    primitiveOut stp = Json.obj [("type", Json.str "object")]
    ∨ primitiveOut stp = Json.obj (primBase stp)
    ∨ ∃ tag, primitiveOut stp = Json.obj (primBase stp ++ [("type", Json.str tag)]) := by
  simp only [primitiveOut]
  repeat' split
  all_goals first
    | exact Or.inl rfl
    | exact Or.inr (Or.inl rfl)
    | exact Or.inr (Or.inr ⟨_, rfl⟩)

theorem schemaClean_primitiveOut (stp : Json) (htype : typeNotArrB stp = true) :
    schemaClean (primitiveOut stp) = true := by
  rcases primitiveOut_shape stp with h | h | ⟨tag, h⟩
  · rw [h]; rfl
  · rw [h]
    have := schemaClean_primFields stp htype [] (Or.inl rfl)
    simpa using this
  · rw [h]
    exact schemaClean_primFields stp htype [("type", Json.str tag)] (Or.inr ⟨tag, rfl⟩)


/-! ## Cleanliness through the option merger -/

theorem schemaCleanProps_values (acc : List (String × Json)) (k : String) (v : Json)
    (hacc : schemaCleanProps acc = true) (hl : lookupF acc k = some v) :
    schemaClean v = true := by
  induction acc with
  | nil => simp [lookupF] at hl
  | cons p rest ih =>
    obtain ⟨k2, w⟩ := p
    simp only [schemaCleanProps, Bool.and_eq_true] at hacc
    by_cases hk : k2 = k
    · subst hk
      simp [lookupF] at hl
      exact hl ▸ hacc.1
    · simp [lookupF, hk] at hl
      exact ih hacc.2 hl

theorem schemaCleanProps_setFieldL (acc : List (String × Json)) (k : String) (m : Json)
    (hacc : schemaCleanProps acc = true) (hm : schemaClean m = true) :
    schemaCleanProps (setFieldL acc k m) = true := by
  induction acc with
  | nil => simpa [setFieldL, schemaCleanProps] using hm
  | cons p rest ih =>
    obtain ⟨k2, w⟩ := p
    simp only [schemaCleanProps, Bool.and_eq_true] at hacc
    by_cases hk : k2 = k
    · subst hk
      rw [setFieldL, if_pos (beq_self_eq_true _)]
      simp only [schemaCleanProps, Bool.and_eq_true]
      exact ⟨hm, hacc.2⟩
    · simp only [setFieldL, show (k2 == k) = false by simpa using hk, Bool.false_eq_true,
        if_false, schemaCleanProps, Bool.and_eq_true]
      exact ⟨hacc.1, ih hacc.2⟩

theorem schemaCleanProps_append (a b : List (String × Json))
    (ha : schemaCleanProps a = true) (hb : schemaCleanProps b = true) :
    schemaCleanProps (a ++ b) = true := by
  induction a with
  | nil => simpa using hb
  | cons p rest ih =>
    obtain ⟨k, v⟩ := p
    simp only [schemaCleanProps, Bool.and_eq_true] at ha ⊢
    exact ⟨ha.1, ih ha.2⟩

theorem schemaClean_mergePropFallback (s1 s2 : Json) :
    schemaClean (mergePropFallback s1 s2) = true := by
  simp only [mergePropFallback]
  split
  · rfl
  · rfl

theorem mergePropertySchemas_clean (s1 s2 m : Json)
    (h1 : schemaClean s1 = true) (h2 : schemaClean s2 = true)
    (h : mergePropertySchemas s1 s2 = some m) : schemaClean m = true := by
  unfold mergePropertySchemas at h
  split at h
  · cases h
  · cases h
  · split at h
    · cases h; exact h1
    · split at h
      · cases h; exact h1
      · split at h
        · cases h; exact h2
        · cases h; exact schemaClean_mergePropFallback s1 s2

theorem mergePropsInto_clean :
    ∀ entries acc out, schemaCleanProps acc = true → schemaCleanProps entries = true →
      mergePropsInto acc entries = some out → schemaCleanProps out = true := by
  intro entries
  induction entries with
  | nil => intro acc out hacc _ h; cases h; exact hacc
  | cons p rest ih =>
    intro acc out hacc hent h
    obtain ⟨key, propSchema⟩ := p
    simp only [schemaCleanProps, Bool.and_eq_true] at hent
    simp only [mergePropsInto] at h
    split at h
    · rename_i existing hex
      split at h
      · split at h
        · cases h
        · rename_i merged hm
          have hexc : schemaClean existing = true := schemaCleanProps_values acc key existing hacc hex
          have hmc : schemaClean merged = true :=
            mergePropertySchemas_clean existing propSchema merged hexc hent.1 hm
          exact ih _ _ (schemaCleanProps_setFieldL acc key merged hacc hmc) hent.2 h
      · exact ih _ _ (schemaCleanProps_setFieldL acc key propSchema hacc hent.1) hent.2 h
    · refine ih _ _ ?_ hent.2 h
      apply schemaCleanProps_append _ _ hacc
      simp [schemaCleanProps, hent.1]

theorem schemaCleanF_propVal (fs : List (String × Json)) :
    ∀ pv, schemaCleanF fs = true → lookupF fs "properties" = some pv →
      schemaCleanPropVal pv = true := by
  induction fs with
  | nil => intro pv _ hp; simp [lookupF] at hp
  | cons p rest ih =>
    intro pv hcf hp
    obtain ⟨k2, w⟩ := p
    simp only [schemaCleanF, Bool.and_eq_true] at hcf
    by_cases hk : k2 = "properties"
    · subst hk
      have he : (("properties" : String) == "properties") = true := by decide
      rw [lookupF, if_pos he] at hp
      rw [Option.some_inj] at hp
      subst hp
      rw [if_pos he] at hcf
      exact hcf.1
    · have he : ((k2 : String) == "properties") = false := by simpa using hk
      rw [lookupF, if_neg (by simp [he])] at hp
      exact ih pv hcf.2 hp

theorem clean_obj_props (fs : List (String × Json)) (pv : Json)
    (hc : schemaClean (Json.obj fs) = true) (hp : lookupF fs "properties" = some pv) :
    ∃ ps, pv = Json.obj ps ∧ schemaCleanProps ps = true := by
  have hcf : schemaCleanF fs = true := by
    simp only [schemaClean, Bool.and_eq_true] at hc
    exact hc.2
  have hv := schemaCleanF_propVal fs pv hcf hp
  cases pv with
  | obj ps => exact ⟨ps, rfl, by simpa [schemaCleanPropVal] using hv⟩
  | null => simp [schemaCleanPropVal] at hv
  | bool b => simp [schemaCleanPropVal] at hv
  | num n => simp [schemaCleanPropVal] at hv
  | str s2 => simp [schemaCleanPropVal] at hv
  | arr xs => simp [schemaCleanPropVal] at hv

theorem schemaClean_mergeOut (props rc : List (String × Json))
    (hprops : schemaCleanProps props = true)
    (hrc : rc = [] ∨ ∃ r, rc = [("required", r)]) :
    schemaClean (.obj ([("type", Json.str "object"), ("properties", Json.obj props)] ++ rc))
      = true := by
  have hexkey : ∀ p ∈ rc, p.1 = "required" := by
    intro p hp
    rcases hrc with rfl | ⟨r, rfl⟩
    · simp at hp
    · simp only [List.mem_singleton] at hp
      rw [hp]
  apply schemaClean_obj
  · apply cleanTop_of_allowed
    · intro p hp
      rcases mem_pair_append1 hp with rfl | rfl | h
      · exact (by decide : ("type" : String) ∈ allowedOutKeys)
      · exact (by decide : ("properties" : String) ∈ allowedOutKeys)
      · rw [hexkey p h]; decide
    · rfl
  · apply schemaCleanF_of_fields
    · intro p hp hk
      rcases mem_pair_append1 hp with rfl | rfl | h
      · simp at hk
      · simpa [schemaCleanPropVal] using hprops
      · rw [hexkey p h] at hk; simp at hk
    · intro p hp hk
      rcases mem_pair_append1 hp with rfl | rfl | h
      · simp at hk
      · simp at hk
      · rw [hexkey p h] at hk; simp at hk

theorem mergeLoop_clean (recSimp : Json → Nat → Nat → Option Json → Option Json)
    (hrecObj : ∀ s md d dfs o, recSimp s md d dfs = some o → ∃ fs, o = Json.obj fs)
    (hrecClean : ∀ s md d dfs o, allTAS s = true → allTASO dfs = true →
      recSimp s md d dfs = some o → schemaClean o = true)
    (md d : Nat) (defs : Json) (hdefs : allTAS defs = true) :
    ∀ opts acc reqs hasObj res,
      allTASL opts = true → schemaCleanProps acc = true →
      mergeLoop recSimp md d defs opts acc reqs hasObj = some res →
      (∀ r, res = Sum.inl r → schemaClean r = true) ∧
      (∀ props2 reqs2 hasObj2, res = Sum.inr (props2, reqs2, hasObj2) →
        schemaCleanProps props2 = true) := by
  intro opts
  induction opts with
  | nil =>
    intro acc reqs hasObj res _ hacc h
    simp only [mergeLoop, Option.some_inj] at h
    subst h
    constructor
    · intro r hr; cases hr
    · intro props2 reqs2 hasObj2 hr
      rw [Sum.inr.injEq, Prod.mk.injEq] at hr
      exact hr.1 ▸ hacc
  | cons o rest ih =>
    intro acc reqs hasObj res hall hacc h
    simp only [allTASL, Bool.and_eq_true] at hall
    simp only [mergeLoop] at h
    split at h
    · exact absurd h (by simp)
    · rename_i simplified hrs
      have hsc : schemaClean simplified = true :=
        hrecClean o md d (some defs) simplified hall.1 (by simpa [allTASO] using hdefs) hrs
      obtain ⟨sf, rfl⟩ := hrecObj o md d (some defs) simplified hrs
      split at h
      · rename_i hcond
        simp only [Bool.and_eq_true] at hcond
        have hpv : ∃ pv, lookupF sf "properties" = some pv := by
          rcases hl : lookupF sf "properties" with _ | pv
          · rw [show jsGet (Json.obj sf) "properties" = lookupF sf "properties" from rfl, hl]
              at hcond
            simp [truthyO] at hcond
          · exact ⟨pv, rfl⟩
        obtain ⟨pv, hpv⟩ := hpv
        obtain ⟨ps, rfl, hps⟩ := clean_obj_props sf pv hsc hpv
        split at h
        · exact absurd h (by simp)
        · split at h
          · exact absurd h (by simp)
          · rename_i merged2 hmp
            have hent : jsEntries ((jsGet (Json.obj sf) "properties").getD Json.null) = ps := by
              rw [show jsGet (Json.obj sf) "properties" = lookupF sf "properties" from rfl, hpv]
              rfl
            rw [hent] at hmp
            have hm2 : schemaCleanProps merged2 = true :=
              mergePropsInto_clean ps acc merged2 hacc hps hmp
            exact ih _ _ _ _ hall.2 hm2 h
      · split at h
        · rw [Option.some_inj] at h
          subst h
          constructor
          · intro r hr
            rw [Sum.inl.injEq] at hr
            exact hr ▸ hsc
          · intro props2 reqs2 hasObj2 hr; cases hr
        · exact ih _ _ _ _ hall.2 hacc h

theorem mergeSchemaOptions_clean (recSimp : Json → Nat → Nat → Option Json → Option Json)
    (hrecObj : ∀ s md d dfs o, recSimp s md d dfs = some o → ∃ fs, o = Json.obj fs)
    (hrecClean : ∀ s md d dfs o, allTAS s = true → allTASO dfs = true →
      recSimp s md d dfs = some o → schemaClean o = true)
    (options : List Json) (md d : Nat) (defs : Json) (out : Json)
    (hopts : allTASL options = true) (hdefs : allTAS defs = true)
    (h : mergeSchemaOptions recSimp options md d defs = some out) :
    schemaClean out = true := by
  unfold mergeSchemaOptions at h
  split at h
  · exact absurd h (by simp)
  · rename_i r hml
    rw [Option.some_inj] at h
    subst h
    exact (mergeLoop_clean recSimp hrecObj hrecClean md d defs hdefs options [] [] false _
      hopts rfl hml).1 _ rfl
  · rename_i props reqs hasObj hml
    have hprops : schemaCleanProps props = true :=
      (mergeLoop_clean recSimp hrecObj hrecClean md d defs hdefs options [] [] false _
        hopts rfl hml).2 props reqs hasObj rfl
    split at h
    · rw [Option.some_inj] at h
      subst h
      rfl
    · rw [Option.some_inj] at h
      subst h
      apply schemaClean_mergeOut props _ hprops
      split
      · exact Or.inl rfl
      · exact Or.inr ⟨_, rfl⟩

theorem simplifyProps_clean (recSimp : Json → Nat → Nat → Option Json → Option Json)
    (hrecClean : ∀ s md d dfs o, allTAS s = true → allTASO dfs = true →
      recSimp s md d dfs = some o → schemaClean o = true)
    (md d : Nat) (defs : Json) (hdefs : allTAS defs = true) :
    ∀ entries out, allTASF entries = true →
      simplifyProps recSimp md d defs entries = some out →
      schemaCleanProps out = true := by
  intro entries
  induction entries with
  | nil => intro out _ h; cases h; rfl
  | cons p rest ih =>
    intro out hall h
    obtain ⟨key, propSchema⟩ := p
    simp only [allTASF, Bool.and_eq_true] at hall
    simp only [simplifyProps] at h
    split at h
    · exact absurd h (by simp)
    · rename_i v hv
      cases hrest : simplifyProps recSimp md d defs rest with
      | none => rw [hrest] at h; exact absurd h (by simp)
      | some out2 =>
        rw [hrest] at h
        simp only [Option.map_some', Option.some_inj] at h
        subst h
        simp only [schemaCleanProps, Bool.and_eq_true]
        exact ⟨hrecClean propSchema md d (some defs) v hall.1
          (by simpa [allTASO] using hdefs) hv, ih out2 hall.2 hrest⟩

theorem simplifyCore_clean (recSimp : Json → Nat → Nat → Option Json → Option Json)
    (hrecObj : ∀ s md d dfs o, recSimp s md d dfs = some o → ∃ fs, o = Json.obj fs)
    (hrecClean : ∀ s md d dfs o, allTAS s = true → allTASO dfs = true →
      recSimp s md d dfs = some o → schemaClean o = true)
    (schema : Json) (md d : Nat) (dfs : Option Json) (out : Json)
    (hs : allTAS schema = true) (hd : allTASO dfs = true)
    (h : simplifyCore recSimp schema md d dfs = some out) :
    schemaClean out = true := by
  have hdefs : allTAS (collectDefs dfs schema) = true := allTAS_collectDefs dfs schema hd hs
  have hstp : allTAS (normalizeSchemaType schema) = true := allTAS_normalizeSchemaType schema hs
  have hTna : typeNotArrB (normalizeSchemaType schema) = true :=
    typeNotArrB_normalizeSchemaType schema hs
  simp only [simplifyCore] at h
  split at h
  · rw [Option.some_inj] at h; subst h; rfl
  · split at h
    · -- $ref branch
      split at h
      · rename_i refStr href
        split at h
        · rename_i refSchema hlook
          split at h
          · exact hrecClean _ md d _ out
              (allTAS_jsGet _ _ refSchema hdefs hlook) (by simpa [allTASO] using hdefs) h
          · rw [Option.some_inj] at h; subst h; rfl
        · rw [Option.some_inj] at h; subst h; rfl
      · exact absurd h (by simp)
    · split at h
      · -- anyOf / oneOf branch
        split at h
        · rename_i options hiter
          have hv : allTAS (jsOr (jsGet (normalizeSchemaType schema) "anyOf")
              (jsOr (jsGet (normalizeSchemaType schema) "oneOf") (Json.arr []))) = true :=
            allTAS_jsOr _ _ (allTASO_jsGet _ "anyOf" hstp)
              (allTAS_jsOr _ _ (allTASO_jsGet _ "oneOf" hstp) rfl)
          exact mergeSchemaOptions_clean recSimp hrecObj hrecClean options md d _ out
            (allTAS_iterList _ options hv hiter) hdefs h
        · exact absurd h (by simp)
      · split at h
        · -- allOf branch
          split at h
          · rename_i options hiter
            rename_i hallof
            have hv : allTAS ((jsGet (normalizeSchemaType schema) "allOf").getD Json.null)
                = true := by
              rcases ha : jsGet (normalizeSchemaType schema) "allOf" with _ | av
              · rfl
              · exact allTAS_jsGet _ _ av hstp ha
            exact mergeSchemaOptions_clean recSimp hrecObj hrecClean options md d _ out
              (allTAS_iterList _ options hv hiter) hdefs h
          · exact absurd h (by simp)
        · split at h
          · -- object branch
            split at h
            · rename_i hcond scrutx props2 hsp
              simp only [Bool.and_eq_true] at hcond
              have hpv : ∃ pv, jsGet (normalizeSchemaType schema) "properties" = some pv := by
                rcases hl : jsGet (normalizeSchemaType schema) "properties" with _ | pv
                · rw [hl] at hcond; simp [truthyO] at hcond
                · exact ⟨pv, rfl⟩
              obtain ⟨pv, hpv⟩ := hpv
              rw [Option.some_inj] at h
              subst h
              apply schemaClean_mkObjectOut
              apply simplifyProps_clean recSimp hrecClean md (d + 1) _ hdefs _ _ _ hsp
              rw [hpv]
              exact allTAS_jsEntries pv (allTAS_jsGet _ _ pv hstp hpv)
            · exact absurd h (by simp)
          · split at h
            · -- array branch
              split at h
              · rename_i hcond scrutx items2 hit
                simp only [Bool.and_eq_true] at hcond
                have hiv : ∃ iv, jsGet (normalizeSchemaType schema) "items" = some iv := by
                  rcases hl : jsGet (normalizeSchemaType schema) "items" with _ | iv
                  · rw [hl] at hcond; simp [truthyO] at hcond
                  · exact ⟨iv, rfl⟩
                obtain ⟨iv, hiv⟩ := hiv
                rw [Option.some_inj] at h
                subst h
                apply schemaClean_mkArrayOut
                refine hrecClean _ md (d + 1) _ items2 ?_ (by simpa [allTASO] using hdefs) hit
                rw [hiv]
                exact allTAS_jsGet _ _ iv hstp hiv
              · exact absurd h (by simp)
            · -- primitive branch
              rw [Option.some_inj] at h
              subst h
              exact schemaClean_primitiveOut _ hTna

theorem simplify_clean :
    ∀ fuel schema md d dfs out,
      allTAS schema = true → allTASO dfs = true →
      simplifySchemaForDatabricks fuel schema md d dfs = some out →
      schemaClean out = true := by
  intro fuel
  induction fuel with
  | zero =>
    intro schema md d dfs out _ _ h
    exact absurd h (by simp [simplifySchemaForDatabricks])
  | succ n ih =>
    intro schema md d dfs out hs hd h
    have hobj := fun s md2 d2 dfs2 o ho => simplify_isObj n s md2 d2 dfs2 o ho
    have hclean := fun s md2 d2 dfs2 o h1 h2 ho => ih s md2 d2 dfs2 o h1 h2 ho
    cases schema with
    | null => exact absurd h (by simp [simplifySchemaForDatabricks, simplifyStep])
    | bool b => exact simplifyCore_clean _ hobj hclean _ md d dfs out hs hd h
    | num n2 => exact simplifyCore_clean _ hobj hclean _ md d dfs out hs hd h
    | str s2 => exact simplifyCore_clean _ hobj hclean _ md d dfs out hs hd h
    | arr xs => exact simplifyCore_clean _ hobj hclean _ md d dfs out hs hd h
    | obj fs => exact simplifyCore_clean _ hobj hclean _ md d dfs out hs hd h

/-! ## Claim C1: no forbidden construct in the simplified output -/

/-- C1, counterexample: the claim states that the returned node contains no
key `$ref` at any depth, *including inside a carried-through schema-valued
additionalProperties*.  The object branch carries additionalProperties
through verbatim (line 172), so a schema-valued additionalProperties
holding a `$ref` key survives into the output. -/
theorem C1_counterexample :
    simplifySchemaForDatabricks 9
      (.obj [("type", .str "object"),
             ("properties", .obj [("a", .obj [("type", .str "string")])]),
             ("additionalProperties", .obj [("$ref", .str "#/x")])]) 4 0 none
    = some (.obj [("type", .str "object"),
                  ("properties", .obj [("a", .obj [("type", .str "string")])]),
                  ("additionalProperties", .obj [("$ref", .str "#/x")])])
    ∧ hasKeyDeep "$ref"
        (.obj [("type", .str "object"),
               ("properties", .obj [("a", .obj [("type", .str "string")])]),
               ("additionalProperties", .obj [("$ref", .str "#/x")])]) = true :=
  ⟨rfl, rfl⟩

/-- C1, amended: for every input whose type sets hold only string tags
(the data model's schema nodes), every node the simplifier returns is
clean at all schema positions: at the root and recursively below every
`properties` entry and `items` child there is no `$ref`, `anyOf`, `oneOf`,
`allOf`, `$defs` or `definitions` key and no array-valued `type` (and each
`properties` field holds an object mapping); values carried through
verbatim (`required`, `description`, `additionalProperties`, `enum`,
`const`, `default`) are exempt. -/
theorem C1_theorem (fuel : Nat) (schema : Json) (maxDepth currentDepth : Nat)
    (definitions : Option Json) (out : Json)
    (h1 : allTAS schema = true) (h2 : allTASO definitions = true)
    (h3 : simplifySchemaForDatabricks fuel schema maxDepth currentDepth definitions = some out) :
    schemaClean out = true :=
  simplify_clean fuel schema maxDepth currentDepth definitions out h1 h2 h3

/-- C1, witness: the amended theorem applied to a concrete union-typed
schema. -/
theorem C1_witness :
    allTAS (.obj [("type", .arr [.str "number", .str "null"]),
                  ("anyOf", .arr [])]) = true
    ∧ schemaClean (.obj [("type", .str "object"),
                         ("additionalProperties", .bool true)]) = true :=
  ⟨rfl, C1_theorem 9 (.obj [("type", .arr [.str "number", .str "null"]),
                            ("anyOf", .arr [])]) 4 0 none
          (.obj [("type", .str "object"), ("additionalProperties", .bool true)])
          rfl rfl rfl⟩

/-! ## Claim C2: termination -/

/-- C2: a direct `$ref` cycle.  The node `A` refers to itself through the
reference table; resolution recurses at the same depth, so the depth guard
never fires. -/
theorem cyclicNode_diverges :
    ∀ fuel, simplifySchemaForDatabricks fuel
      (.obj [("$ref", .str "#/$defs/A")]) 4 0
      (some (.obj [("A", .obj [("$ref", .str "#/$defs/A")])])) = none := by
  intro fuel
  induction fuel with
  | zero => rfl
  | succ m ih => exact ih

/-- C2 (refuting the claimed termination): on the self-referential schema
whose `$defs` table maps `A` to a node that is just `$ref: #/$defs/A`, the
simplifier never returns, whatever the recursion budget: each unfolding
re-enters the same node at the same depth.  In the source this is an
infinite recursion (a stack overflow in practice), contradicting the
claim that the depth guard suffices as the sole termination guarantee. -/
theorem C2_theorem :
    ∀ fuel, simplifySchemaForDatabricks fuel
      (.obj [("$defs", .obj [("A", .obj [("$ref", .str "#/$defs/A")])]),
             ("$ref", .str "#/$defs/A")]) 4 0 none = none := by
  intro fuel
  cases fuel with
  | zero => rfl
  | succ m => exact cyclicNode_diverges m

/-! ## Claim C7: normalizeType -/

theorem filter_nonNull_map_str (ts : List String) :
    (ts.map Json.str).filter (fun t => !jsonBeq t (.str "null"))
      = (ts.filter (fun s => !(s == "null"))).map Json.str := by
  induction ts with
  | nil => rfl
  | cons a rest ih =>
    have hb : jsonBeq (Json.str a) (Json.str "null") = (a == "null") := rfl
    cases h : a == "null" with
    | true => simp [List.filter_cons, hb, h, ih]
    | false => simp [List.filter_cons, hb, h, ih]

/-- C7: normalizeType is total on type values and satisfies: a single tag
is returned unchanged; a set of tags yields the first tag in original
order after dropping "null"; a set consisting only of "null" tags yields
"null".  Consequently simplifying a schema whose type is the set
[number, string, null] yields the type number. -/
theorem C7_theorem :
    (∀ s : String, s ≠ "" → normalizeType (some (.str s)) = some (.str s))
    ∧ (∀ (ts : List String) (t : String) (rest2 : List String),
        ts.filter (fun s => !(s == "null")) = t :: rest2 →
        normalizeType (some (.arr (ts.map Json.str))) = some (.str t))
    ∧ (∀ ts : List String,
        ts.filter (fun s => !(s == "null")) = [] →
        normalizeType (some (.arr (ts.map Json.str))) = some (.str "null"))
    ∧ simplifySchemaForDatabricks 5
        (.obj [("type", .arr [.str "number", .str "string", .str "null"])]) 4 0 none
      = some (.obj [("type", .str "number")]) := by
  refine ⟨?_, ?_, ?_, rfl⟩
  · intro s hs
    simp [normalizeType, truthyO, truthy, hs]
  · intro ts t rest2 hf
    simp [normalizeType, truthyO, truthy, filter_nonNull_map_str, hf]
  · intro ts hf
    simp [normalizeType, truthyO, truthy, filter_nonNull_map_str, hf]

/-- C7, witness. -/
theorem C7_witness :
    normalizeType (some (.str "integer")) = some (.str "integer")
    ∧ normalizeType (some (.arr [.str "number", .str "string", .str "null"]))
        = some (.str "number")
    ∧ normalizeType (some (.arr [.str "null", .str "null"])) = some (.str "null") :=
  ⟨C7_theorem.1 "integer" (by decide),
   C7_theorem.2.1 ["number", "string", "null"] "number" ["string"] (by decide),
   C7_theorem.2.2.1 ["null", "null"] (by decide)⟩

/-! ## Claim C8: unclassified messages pass through unchanged -/

/-- Whether the message has a result field whose tools member is a JS
array — the shape condition of the classifier. -/
def resultToolsIsArray (m : Json) : Bool :=
  match jsGet m "result" with
  | some r => (match jsGet r "tools" with | some (.arr _) => true | _ => false)
  | none => false

theorem isToolsListResponse_shape (m : Json) (hm : resultToolsIsArray m = false) :
    isToolsListResponse m = false := by
  unfold isToolsListResponse
  split
  · rfl
  · split
    · rfl
    · rename_i hcond
      unfold resultToolsIsArray at hm
      cases hr : jsGet m "result" with
      | none =>
        rw [hr] at hcond
        simp [truthyO] at hcond
      | some r =>
        rw [hr] at hm
        simpa using hm

/-- C8: a message with no result field, or whose result lacks a tools
sequence (so in particular every message not classified as a tools/list
response), is forwarded to the underlying send as exactly the original
message value. -/
theorem C8_theorem :
    (∀ (fuel : Nat) (message : Json), resultToolsIsArray message = false →
      wrappedSendMessage fuel message = some message)
    ∧ (∀ (fuel : Nat) (message : Json), isToolsListResponse message = false →
      wrappedSendMessage fuel message = some message) := by
  constructor
  · intro fuel message hm
    simp [wrappedSendMessage, isToolsListResponse_shape message hm]
  · intro fuel message hm
    simp [wrappedSendMessage, hm]

/-- C8, witness: a plain response with no tools list passes through. -/
theorem C8_witness :
    resultToolsIsArray (.obj [("id", .num 1), ("result", .obj [("ok", .bool true)])]) = false
    ∧ wrappedSendMessage 3 (.obj [("id", .num 1), ("result", .obj [("ok", .bool true)])])
        = some (.obj [("id", .num 1), ("result", .obj [("ok", .bool true)])]) :=
  ⟨rfl, C8_theorem.1 3 (.obj [("id", .num 1), ("result", .obj [("ok", .bool true)])]) rfl⟩

/-! ## Claim C10: non-object tool entries pass through -/

/-- C10: in a classified tools/list response, an element of the tools
sequence that is not a structured object — null, a boolean, a number or a
string — is carried into the rewritten sequence unchanged, receives no
inputSchema field, and never makes the rewrite fail; a whole tools list of
such elements round-trips through simplifyToolsListResponse. -/
theorem C10_theorem :
    (∀ (fuel : Nat) (t : Json),
      (t = .null ∨ (∃ b, t = .bool b) ∨ (∃ n, t = .num n) ∨ (∃ s, t = .str s)) →
      simplifyToolEntry fuel t = some t)
    ∧ simplifyToolsListResponse 5
        (.obj [("result", .obj [("tools", .arr [.null, .str "x", .num 3])])])
      = some (.obj [("result", .obj [("tools", .arr [.null, .str "x", .num 3])])]) := by
  constructor
  · intro fuel t ht
    rcases ht with rfl | ⟨b, rfl⟩ | ⟨n, rfl⟩ | ⟨s, rfl⟩
    · rfl
    · cases b <;> rfl
    · simp [simplifyToolEntry, truthy, jsTypeofObject]
    · simp [simplifyToolEntry, truthy, jsTypeofObject]
  · rfl

/-- C10, witness. -/
theorem C10_witness : simplifyToolEntry 4 (.str "tool-as-text") = some (.str "tool-as-text") :=
  C10_theorem.1 4 (.str "tool-as-text") (Or.inr (Or.inr (Or.inr ⟨"tool-as-text", rfl⟩)))

/-! ## Claim C6: reference resolution -/

theorem simplifyCore_ref_found (recSimp : Json → Nat → Nat → Option Json → Option Json)
    (fs : List (String × Json)) (maxDepth currentDepth : Nat) (definitions : Option Json)
    (refStr : String) (refSchema : Json)
    (hd : ¬ currentDepth > maxDepth)
    (href : jsGet (Json.obj fs) "$ref" = some (.str refStr))
    (hne : refStr ≠ "")
    (hlook : jsGet (collectDefs definitions (Json.obj fs)) (stripLocalRef refStr)
      = some refSchema)
    (htr : truthy refSchema = true) :
    simplifyCore recSimp (Json.obj fs) maxDepth currentDepth definitions
      = recSimp refSchema maxDepth currentDepth
          (some (collectDefs definitions (Json.obj fs))) := by
  simp only [simplifyCore]
  rw [if_neg hd]
  rw [jsGet_normalizeSchemaType_other (Json.obj fs) "$ref" (by decide), href]
  rw [if_pos (show truthyO (some (Json.str refStr)) = true by
    simpa [truthyO, truthy] using hne)]
  show (match jsGet (collectDefs definitions (Json.obj fs)) (stripLocalRef refStr) with
        | some rs =>
          if truthy rs = true then
            recSimp rs maxDepth currentDepth (some (collectDefs definitions (Json.obj fs)))
          else some fallbackSchema
        | none => some fallbackSchema) = _
  rw [hlook]
  show (if truthy refSchema = true then
          recSimp refSchema maxDepth currentDepth (some (collectDefs definitions (Json.obj fs)))
        else some fallbackSchema) = _
  rw [if_pos htr]

theorem simplifyCore_ref_notfound (recSimp : Json → Nat → Nat → Option Json → Option Json)
    (fs : List (String × Json)) (maxDepth currentDepth : Nat) (definitions : Option Json)
    (refStr : String)
    (hd : ¬ currentDepth > maxDepth)
    (href : jsGet (Json.obj fs) "$ref" = some (.str refStr))
    (hne : refStr ≠ "")
    (hlook : jsGet (collectDefs definitions (Json.obj fs)) (stripLocalRef refStr) = none) :
    simplifyCore recSimp (Json.obj fs) maxDepth currentDepth definitions
      = some fallbackSchema := by
  simp only [simplifyCore]
  rw [if_neg hd]
  rw [jsGet_normalizeSchemaType_other (Json.obj fs) "$ref" (by decide), href]
  rw [if_pos (show truthyO (some (Json.str refStr)) = true by
    simpa [truthyO, truthy] using hne)]
  show (match jsGet (collectDefs definitions (Json.obj fs)) (stripLocalRef refStr) with
        | some rs =>
          if truthy rs = true then
            recSimp rs maxDepth currentDepth (some (collectDefs definitions (Json.obj fs)))
          else some fallbackSchema
        | none => some fallbackSchema) = _
  rw [hlook]

theorem jsGet_ref_obj (schema : Json) (refStr : String)
    (href : jsGet schema "$ref" = some (.str refStr)) :
    ∃ fs, schema = Json.obj fs := by
  cases schema with
  | obj fs => exact ⟨fs, rfl⟩
  | null => cases href
  | bool b => cases href
  | num n => cases href
  | str s =>
    rw [show jsGet (Json.str s) "$ref" = none from rfl] at href
    cases href
  | arr xs =>
    rw [show jsGet (Json.arr xs) "$ref" = none from rfl] at href
    cases href

/-- C6: for every node carrying a string `$ref` (a nonempty reference
string), at inspected depth (depth at most maxDepth): stripping the
`#/$defs/` or `#/definitions/` prefix and looking the name up in the
collected reference table either finds a (truthy) node — and the result
equals simplifying that referenced node at the *same* depth with the same
table — or does not, and the result is the opaque fallback.  The concrete
Point example from the spec resolves to the inlined object. -/
theorem C6_theorem :
    (∀ (fuel maxDepth currentDepth : Nat) (schema : Json) (definitions : Option Json)
       (refStr : String) (refSchema : Json),
       currentDepth ≤ maxDepth →
       jsGet schema "$ref" = some (.str refStr) →
       refStr ≠ "" →
       jsGet (collectDefs definitions schema) (stripLocalRef refStr) = some refSchema →
       truthy refSchema = true →
       simplifySchemaForDatabricks (fuel + 1) schema maxDepth currentDepth definitions
         = simplifySchemaForDatabricks fuel refSchema maxDepth currentDepth
             (some (collectDefs definitions schema)))
    ∧ (∀ (fuel maxDepth currentDepth : Nat) (schema : Json) (definitions : Option Json)
       (refStr : String),
       currentDepth ≤ maxDepth →
       jsGet schema "$ref" = some (.str refStr) →
       refStr ≠ "" →
       jsGet (collectDefs definitions schema) (stripLocalRef refStr) = none →
       simplifySchemaForDatabricks (fuel + 1) schema maxDepth currentDepth definitions
         = some fallbackSchema)
    ∧ simplifySchemaForDatabricks 9
        (.obj [("$defs", .obj [("Point",
            .obj [("type", .str "object"),
                  ("properties", .obj [("x", .obj [("type", .str "number")]),
                                       ("y", .obj [("type", .str "number")])])])]),
               ("$ref", .str "#/$defs/Point")]) 4 0 none
      = some (.obj [("type", .str "object"),
                    ("properties", .obj [("x", .obj [("type", .str "number")]),
                                         ("y", .obj [("type", .str "number")])])]) := by
  refine ⟨?_, ?_, rfl⟩
  · intro fuel maxDepth currentDepth schema definitions refStr refSchema hd href hne hlook htr
    obtain ⟨fs, rfl⟩ := jsGet_ref_obj schema refStr href
    exact simplifyCore_ref_found (simplifySchemaForDatabricks fuel) fs maxDepth currentDepth
      definitions refStr refSchema (by omega) href hne hlook htr
  · intro fuel maxDepth currentDepth schema definitions refStr hd href hne hlook
    obtain ⟨fs, rfl⟩ := jsGet_ref_obj schema refStr href
    exact simplifyCore_ref_notfound (simplifySchemaForDatabricks fuel) fs maxDepth currentDepth
      definitions refStr (by omega) href hne hlook

/-- C6, witness: resolution of a found reference at depth 0. -/
theorem C6_witness :
    simplifySchemaForDatabricks 6 (.obj [("$ref", .str "#/$defs/N")]) 4 0
        (some (.obj [("N", .obj [("type", .str "string")])]))
      = simplifySchemaForDatabricks 5 (.obj [("type", .str "string")]) 4 0
          (some (.obj [("N", .obj [("type", .str "string")])])) :=
  C6_theorem.1 5 4 0 (.obj [("$ref", .str "#/$defs/N")])
    (some (.obj [("N", .obj [("type", .str "string")])]))
    "#/$defs/N" (.obj [("type", .str "string")])
    (by omega) rfl (by decide) rfl rfl

/-! ## Claim C4: the tools/list rewrite -/

theorem simplifyToolsList_forall2 :
    ∀ (fuel : Nat) (tools tools2 : List Json),
      simplifyToolsList fuel tools = some tools2 →
      List.Forall₂ (fun t t2 => simplifyToolEntry fuel t = some t2) tools tools2 := by
  intro fuel tools
  induction tools with
  | nil =>
    intro tools2 h
    cases h
    exact List.Forall₂.nil
  | cons t rest ih =>
    intro tools2 h
    simp only [simplifyToolsList] at h
    split at h
    · exact absurd h (by simp)
    · rename_i t2 ht
      cases hrest : simplifyToolsList fuel rest with
      | none => rw [hrest] at h; exact absurd h (by simp)
      | some rest2 =>
        rw [hrest] at h
        simp only [Option.map_some', Option.some_inj] at h
        subst h
        exact List.Forall₂.cons ht (ih rest2 hrest)

/-- C4: for a classified tools/list response (an object message whose
result is an object with a tools array), the interceptor produces the
spread copy of the message with result replaced by the spread copy of the
result with tools replaced element-wise; every other field of the message
and of the result is unchanged; each tool entry that is an object is
replaced by its spread copy with inputSchema replaced by the Schema
Simplifier's output; a missing inputSchema receives the empty object
schema; a truthy inputSchema is simplified at maxDepth 4, depth 0; and the
spec's concrete example rewrites as stated. -/
theorem C4_theorem :
    (∀ (fuel : Nat) (mf rf : List (String × Json)) (tools tools2 : List Json),
      lookupF mf "result" = some (.obj rf) →
      lookupF rf "tools" = some (.arr tools) →
      simplifyToolsList fuel tools = some tools2 →
      simplifyToolsListResponse fuel (.obj mf)
        = some (.obj (setFieldL mf "result"
            (.obj (setFieldL rf "tools" (.arr tools2)))))
      ∧ (∀ k, k ≠ "result" →
          lookupF (setFieldL mf "result" (.obj (setFieldL rf "tools" (.arr tools2)))) k
            = lookupF mf k)
      ∧ lookupF (setFieldL mf "result" (.obj (setFieldL rf "tools" (.arr tools2)))) "result"
          = some (.obj (setFieldL rf "tools" (.arr tools2)))
      ∧ (∀ k, k ≠ "tools" →
          lookupF (setFieldL rf "tools" (.arr tools2)) k = lookupF rf k)
      ∧ lookupF (setFieldL rf "tools" (.arr tools2)) "tools" = some (.arr tools2))
    ∧ (∀ (fuel : Nat) (tools tools2 : List Json),
        simplifyToolsList fuel tools = some tools2 →
        List.Forall₂ (fun t t2 => simplifyToolEntry fuel t = some t2) tools tools2)
    ∧ (∀ (fuel : Nat) (tf : List (String × Json)) (v : Json),
        simplifyToolInputSchema fuel (lookupF tf "inputSchema") = some v →
        simplifyToolEntry fuel (.obj tf) = some (.obj (setFieldL tf "inputSchema" v))
        ∧ (∀ k, k ≠ "inputSchema" →
            lookupF (setFieldL tf "inputSchema" v) k = lookupF tf k)
        ∧ lookupF (setFieldL tf "inputSchema" v) "inputSchema" = some v)
    ∧ (∀ fuel : Nat, simplifyToolInputSchema fuel none
        = some (.obj [("type", .str "object"), ("properties", .obj [])]))
    ∧ (∀ (fuel : Nat) (is2 : Json), truthy is2 = true →
        simplifyToolInputSchema fuel (some is2)
          = simplifySchemaForDatabricks fuel is2 4 0 none)
    ∧ simplifyToolsListResponse 9
        (.obj [("result", .obj [("tools", .arr [.obj [("name", .str "x"),
          ("inputSchema", .obj [("type", .arr [.str "string", .str "null"])])]])])])
      = some (.obj [("result", .obj [("tools", .arr [.obj [("name", .str "x"),
          ("inputSchema", .obj [("type", .str "string")])]])])]) := by
  refine ⟨?_, simplifyToolsList_forall2, ?_, fun _ => rfl, ?_, rfl⟩
  · intro fuel mf rf tools tools2 hres htools hst
    refine ⟨?_, ?_, lookupF_setFieldL_self _ _ _, ?_, lookupF_setFieldL_self _ _ _⟩
    · show (if (truthyO (lookupF mf "result") && jsTypeofObjectO (lookupF mf "result")) = true
            then
              (match jsGet ((lookupF mf "result").getD Json.null) "tools" with
               | some (Json.arr tools3) =>
                 (match simplifyToolsList fuel tools3 with
                  | none => none
                  | some simplifiedTools =>
                    some (Json.obj (setFieldL mf "result"
                      (Json.obj (setFieldL (jsEntries ((lookupF mf "result").getD Json.null))
                        "tools" (Json.arr simplifiedTools))))))
               | _ => some (Json.obj mf))
            else some (Json.obj mf))
          = some (Json.obj (setFieldL mf "result"
              (Json.obj (setFieldL rf "tools" (Json.arr tools2)))))
      rw [hres]
      rw [if_pos (by simp [truthyO, truthy, jsTypeofObjectO, jsTypeofObject])]
      show (match lookupF rf "tools" with
            | some (Json.arr tools3) =>
              (match simplifyToolsList fuel tools3 with
               | none => none
               | some simplifiedTools =>
                 some (Json.obj (setFieldL mf "result"
                   (Json.obj (setFieldL rf "tools" (Json.arr simplifiedTools))))))
            | _ => some (Json.obj mf))
          = some (Json.obj (setFieldL mf "result"
              (Json.obj (setFieldL rf "tools" (Json.arr tools2)))))
      rw [htools]
      show (match simplifyToolsList fuel tools with
            | none => none
            | some simplifiedTools =>
              some (Json.obj (setFieldL mf "result"
                (Json.obj (setFieldL rf "tools" (Json.arr simplifiedTools))))))
          = some (Json.obj (setFieldL mf "result"
              (Json.obj (setFieldL rf "tools" (Json.arr tools2)))))
      rw [hst]
    · intro k hk
      exact lookupF_setFieldL_other mf "result" k _ (fun he => hk he.symm)
    · intro k hk
      exact lookupF_setFieldL_other rf "tools" k _ (fun he => hk he.symm)
  · intro fuel tf v hv
    refine ⟨?_, ?_, lookupF_setFieldL_self _ _ _⟩
    · show (match simplifyToolInputSchema fuel (lookupF tf "inputSchema") with
            | none => none
            | some v2 => some (Json.obj (setFieldL tf "inputSchema" v2)))
          = some (Json.obj (setFieldL tf "inputSchema" v))
      rw [hv]
    · intro k hk
      exact lookupF_setFieldL_other tf "inputSchema" k _ (fun he => hk he.symm)
  · intro fuel is2 h
    simp [simplifyToolInputSchema, h]

/-- C4, witness: the rewrite applied to a one-tool message with a
missing-inputSchema entry. -/
theorem C4_witness :
    simplifyToolsListResponse 7 (.obj [("id", .num 2),
        ("result", .obj [("tools", .arr [.obj [("name", .str "t")]])])])
      = some (.obj [("id", .num 2),
          ("result", .obj [("tools", .arr [.obj [("name", .str "t"),
            ("inputSchema", .obj [("type", .str "object"),
                                  ("properties", .obj [])])]])])]) :=
  (C4_theorem.1 7 [("id", .num 2), ("result", .obj [("tools", .arr [.obj [("name", .str "t")]])])]
    [("tools", .arr [.obj [("name", .str "t")]])]
    [.obj [("name", .str "t")]]
    [.obj [("name", .str "t"),
           ("inputSchema", .obj [("type", .str "object"), ("properties", .obj [])])]]
    rfl rfl rfl).1

/-! ## Claim C9: object-typed options without properties in the merger -/

theorem mergeLoop_skip_pre (recSimp : Json → Nat → Nat → Option Json → Option Json)
    (md d : Nat) (defs : Json) (tail : List Json) :
    ∀ (pre : List Json) (acc : List (String × Json)) (reqs : List (List Json)),
      (∀ p ∈ pre, ∃ sp, recSimp p md d (some defs) = some sp
        ∧ (typeIs sp "object" && truthyO (jsGet sp "properties")) = false
        ∧ truthyO (jsGet sp "type") = false) →
      mergeLoop recSimp md d defs (pre ++ tail) acc reqs false
        = mergeLoop recSimp md d defs tail acc reqs false := by
  intro pre
  induction pre with
  | nil => intro acc reqs _; rfl
  | cons p pre2 ih =>
    intro acc reqs hpre
    obtain ⟨sp, hsp, hc1, hc2⟩ := hpre p (List.mem_cons_self _ _)
    simp only [List.cons_append, mergeLoop]
    split
    · rename_i hnone
      rw [hsp] at hnone
      cases hnone
    · rename_i sp2 hsp2
      rw [hsp] at hsp2
      rw [Option.some_inj] at hsp2
      subst hsp2
      rw [if_neg (by simp [hc1]), if_neg (by simp [hc2])]
      exact ih acc reqs (fun q hq => hpre q (List.mem_cons_of_mem _ hq))

theorem mergeLoop_early (recSimp : Json → Nat → Nat → Option Json → Option Json)
    (md d : Nat) (defs : Json) (o : Json) (rest : List Json)
    (acc : List (String × Json)) (reqs : List (List Json)) (sO : Json)
    (hsO : recSimp o md d (some defs) = some sO)
    (h1 : (typeIs sO "object" && truthyO (jsGet sO "properties")) = false)
    (h2 : truthyO (jsGet sO "type") = true) :
    mergeLoop recSimp md d defs (o :: rest) acc reqs false = some (Sum.inl sO) := by
  simp only [mergeLoop]
  split
  · rename_i hnone
    rw [hsO] at hnone
    cases hnone
  · rename_i sp2 hsp2
    rw [hsO] at hsp2
    rw [Option.some_inj] at hsp2
    subst hsp2
    rw [if_neg (by simp [h1]), if_pos (by simp [h2])]

theorem mergeLoop_skip_one (recSimp : Json → Nat → Nat → Option Json → Option Json)
    (md d : Nat) (defs : Json) (o : Json) (rest : List Json)
    (acc : List (String × Json)) (reqs : List (List Json)) (sO : Json)
    (hsO : recSimp o md d (some defs) = some sO)
    (h1 : (typeIs sO "object" && truthyO (jsGet sO "properties")) = false) :
    mergeLoop recSimp md d defs (o :: rest) acc reqs true
      = mergeLoop recSimp md d defs rest acc reqs true := by
  simp only [mergeLoop]
  split
  · rename_i hnone
    rw [hsO] at hnone
    cases hnone
  · rename_i sp2 hsp2
    rw [hsO] at hsp2
    rw [Option.some_inj] at hsp2
    subst hsp2
    rw [if_neg (by simp [h1]), if_neg (by simp)]

/-- C9: an option whose simplified form is object-typed but carries no
truthy properties mapping (for example the opaque fallback) is never
recorded as an object variant.  If the walk reaches it before any
object-with-properties option (every earlier option neither being an
object variant nor having a truthy type), its simplified form is returned
as the whole merge result; once an object variant has been seen, such an
option leaves the walk state (merged properties, required sets, flag)
completely unchanged. -/
theorem C9_theorem :
    (∀ (fuel md d : Nat) (defs : Json) (pre : List Json) (o : Json) (rest : List Json)
       (sO : Json),
      (∀ p ∈ pre, ∃ sp, simplifySchemaForDatabricks fuel p md d (some defs) = some sp
        ∧ (typeIs sp "object" && truthyO (jsGet sp "properties")) = false
        ∧ truthyO (jsGet sp "type") = false) →
      simplifySchemaForDatabricks fuel o md d (some defs) = some sO →
      jsGet sO "type" = some (.str "object") →
      truthyO (jsGet sO "properties") = false →
      mergeSchemaOptionsFuel fuel (pre ++ o :: rest) md d defs = some sO)
    ∧ (∀ (fuel md d : Nat) (defs : Json) (o : Json) (rest : List Json)
        (acc : List (String × Json)) (reqs : List (List Json)) (sO : Json),
      simplifySchemaForDatabricks fuel o md d (some defs) = some sO →
      jsGet sO "type" = some (.str "object") →
      truthyO (jsGet sO "properties") = false →
      mergeLoop (simplifySchemaForDatabricks fuel) md d defs (o :: rest) acc reqs true
        = mergeLoop (simplifySchemaForDatabricks fuel) md d defs rest acc reqs true) := by
  constructor
  · intro fuel md d defs pre o rest sO hpre hsO htype hprops
    unfold mergeSchemaOptionsFuel mergeSchemaOptions
    rw [mergeLoop_skip_pre _ md d defs _ pre [] [] hpre]
    rw [mergeLoop_early _ md d defs o rest [] [] sO hsO
      (by simp [hprops]) (by rw [htype]; rfl)]
  · intro fuel md d defs o rest acc reqs sO hsO htype hprops
    exact mergeLoop_skip_one _ md d defs o rest acc reqs sO hsO (by simp [hprops])

/-- C9, witness: an unresolvable-$ref option simplifies to the opaque
fallback; preceded only by a typeless option it short-circuits the merge,
and after an object variant it is ignored. -/
theorem C9_witness :
    mergeSchemaOptionsFuel 9
      [.obj [("enum", .arr [.null])], .obj [("$ref", .str "#/missing")],
       .obj [("type", .str "object"),
             ("properties", .obj [("a", .obj [("type", .str "string")])])]] 4 0 (.obj [])
      = some fallbackSchema
    ∧ mergeLoop (simplifySchemaForDatabricks 9) 4 0 (.obj [])
        [.obj [("$ref", .str "#/missing")]] [("a", .obj [("type", .str "string")])]
        [[Json.str "a"]] true
      = mergeLoop (simplifySchemaForDatabricks 9) 4 0 (.obj []) []
        [("a", .obj [("type", .str "string")])] [[Json.str "a"]] true := by
  constructor
  · exact C9_theorem.1 9 4 0 (.obj []) [.obj [("enum", .arr [.null])]]
      (.obj [("$ref", .str "#/missing")])
      [.obj [("type", .str "object"),
             ("properties", .obj [("a", .obj [("type", .str "string")])])]]
      fallbackSchema
      (by
        intro p hp
        simp only [List.mem_singleton] at hp
        subst hp
        exact ⟨.obj [("enum", .arr [.null])], rfl, rfl, rfl⟩)
      rfl rfl rfl
  · exact C9_theorem.2 9 4 0 (.obj []) (.obj [("$ref", .str "#/missing")]) []
      [("a", .obj [("type", .str "string")])] [[Json.str "a"]] fallbackSchema rfl rfl rfl

/-! ## Claim C5: the required-intersection law -/

/-- The required list recorded for a simplified variant (absent or
non-array required reads as the empty set). -/
def reqListOf (s : Json) : List Json :=
  match jsGet s "required" with
  | some (.arr rs) => rs
  | _ => []

/-- Whether a simplified variant's properties mapping carries a key. -/
def hasKeyProps (s : Json) (k : String) : Bool :=
  match jsGet s "properties" with
  | some (.obj ps) => hasKeyF ps k
  | _ => false

/-- Whether a merged node's required field contains a name. -/
def reqHasB (outFields : List (String × Json)) (nm : String) : Bool :=
  match lookupF outFields "required" with
  | some (.arr r) => elemB r (.str nm)
  | _ => false

/-- C5, counterexample: the claim says a property present in only some
object variants never appears in the merged required.  required lists are
carried verbatim and intersected independently of the properties mappings,
so a name required by every variant ends up in the merged required even
when only one variant lists it among its properties. -/
theorem C5_counterexample :
    mergeSchemaOptionsFuel 9
      [.obj [("type", .str "object"),
             ("properties", .obj [("a", .obj [("type", .str "string")])]),
             ("required", .arr [.str "b"])],
       .obj [("type", .str "object"),
             ("properties", .obj [("b", .obj [("type", .str "number")])]),
             ("required", .arr [.str "b"])]] 4 0 (.obj [])
      = some (.obj [("type", .str "object"),
                    ("properties", .obj [("a", .obj [("type", .str "string")]),
                                         ("b", .obj [("type", .str "number")])]),
                    ("required", .arr [.str "b"])])
    ∧ lookupF [("a", Json.obj [("type", Json.str "string")])] "b" = none :=
  ⟨rfl, rfl⟩

def allStrsL (l : List Json) : Prop := ∀ x ∈ l, ∃ s, x = Json.str s

theorem elemB_append (l1 l2 : List Json) (x : Json) :
    elemB (l1 ++ l2) x = (elemB l1 x || elemB l2 x) := by
  simp [elemB, List.any_append]

theorem elemB_dedupGo :
    ∀ (l seen : List Json) (nm : String), allStrsL l →
      elemB (dedupGo seen l) (.str nm) = (elemB l (.str nm) && !(elemB seen (.str nm))) := by
  intro l
  induction l with
  | nil => intro seen nm _; simp [dedupGo, elemB]
  | cons y l2 ih =>
    intro seen nm hstr
    obtain ⟨t, rfl⟩ := hstr _ (List.mem_cons_self _ _)
    have hstr2 : allStrsL l2 := fun x hx => hstr x (List.mem_cons_of_mem _ hx)
    by_cases hb : t = nm
    · subst hb
      simp only [dedupGo]
      cases hseen : elemB seen (.str t) with
      | true =>
        rw [if_pos rfl, ih seen t hstr2, hseen]
        simp [elemB]
      | false =>
        rw [if_neg (by simp)]
        simp only [elemB, List.any_cons]
        rw [show jsonBeq (Json.str t) (Json.str t) = true by simp [jsonBeq]]
        simp
    · simp only [dedupGo]
      have hbq : jsonBeq (Json.str t) (Json.str nm) = false := by
        simpa [jsonBeq] using hb
      cases hseen : elemB seen (.str t) with
      | true =>
        rw [if_pos rfl, ih seen nm hstr2]
        simp [elemB, List.any_cons, hbq]
      | false =>
        rw [if_neg (by simp)]
        simp only [elemB, List.any_cons, hbq, Bool.false_or]
        rw [show (dedupGo (seen ++ [Json.str t]) l2).any (fun y => jsonBeq y (Json.str nm))
            = elemB (dedupGo (seen ++ [Json.str t]) l2) (Json.str nm) from rfl]
        rw [ih (seen ++ [Json.str t]) nm hstr2]
        rw [elemB_append]
        simp [elemB, hbq]

theorem elemB_dedupB (l : List Json) (nm : String) (hstr : allStrsL l) :
    elemB (dedupB l) (.str nm) = elemB l (.str nm) := by
  unfold dedupB
  rw [elemB_dedupGo l [] nm hstr]
  simp [elemB]

theorem mem_dedupGo_sub : ∀ (l seen : List Json) (y : Json), y ∈ dedupGo seen l → y ∈ l := by
  intro l
  induction l with
  | nil => intro seen y hy; simp [dedupGo] at hy
  | cons x l2 ih =>
    intro seen y hy
    simp only [dedupGo] at hy
    split at hy
    · exact List.mem_cons_of_mem _ (ih seen y hy)
    · rcases List.mem_cons.mp hy with rfl | hy2
      · exact List.mem_cons_self _ _
      · exact List.mem_cons_of_mem _ (ih _ y hy2)

theorem elemB_finalRequiredOf (Rsets : List (List Json)) (nm : String)
    (hne : Rsets ≠ []) (hstr : ∀ R ∈ Rsets, allStrsL R) :
    elemB (finalRequiredOf Rsets) (.str nm)
      = Rsets.all (fun R => elemB R (.str nm)) := by
  cases Rsets with
  | nil => exact absurd rfl hne
  | cons first restR =>
    simp only [finalRequiredOf]
    cases hall : (first :: restR).all (fun R => elemB R (.str nm)) with
    | true =>
      have h1 : elemB first (.str nm) = true := by
        have := (List.all_eq_true.mp hall) first (List.mem_cons_self _ _)
        exact this
      obtain ⟨y, hy, hby⟩ := List.any_eq_true.mp h1
      obtain ⟨t, rfl⟩ := hstr first (List.mem_cons_self _ _) y hy
      have ht : t = nm := by simpa [jsonBeq] using hby
      subst ht
      apply List.any_eq_true.mpr
      refine ⟨Json.str t, List.mem_filter.mpr ⟨hy, ?_⟩, by simp [jsonBeq]⟩
      exact hall
    | false =>
      rw [← Bool.not_eq_true]
      intro habs
      obtain ⟨y, hy, hby⟩ := List.any_eq_true.mp habs
      have hyf := List.mem_filter.mp hy
      obtain ⟨t, rfl⟩ := hstr first (List.mem_cons_self _ _) _ hyf.1
      have ht : t = nm := by simpa [jsonBeq] using hby
      subst ht
      rw [hyf.2] at hall
      cases hall

theorem hasKeyF_cons (k1 : String) (v : Json) (rest : List (String × Json)) (k2 : String) :
    hasKeyF ((k1, v) :: rest) k2 = ((k1 == k2) || hasKeyF rest k2) := by
  simp only [hasKeyF, lookupF]
  by_cases h : k1 == k2 <;> simp [h]

theorem hasKeyF_append (a b : List (String × Json)) (k : String) :
    hasKeyF (a ++ b) k = (hasKeyF a k || hasKeyF b k) := by
  simp only [hasKeyF, lookupF_append]
  cases h : lookupF a k <;> simp

theorem hasKeyF_setFieldL (fs : List (String × Json)) (k : String) (v : Json) (k2 : String) :
    hasKeyF (setFieldL fs k v) k2 = (hasKeyF fs k2 || (k == k2)) := by
  induction fs with
  | nil =>
    simp only [setFieldL, hasKeyF_cons, hasKeyF, lookupF]
    by_cases h : k = k2 <;> simp [h]
  | cons p rest ih =>
    obtain ⟨k3, w⟩ := p
    by_cases h3 : k3 = k
    · subst h3
      rw [setFieldL, if_pos (beq_self_eq_true _)]
      rw [hasKeyF_cons, hasKeyF_cons]
      by_cases hk : k3 = k2
      · subst hk; simp
      · simp [show (k3 == k2) = false by simpa using hk]
    · rw [setFieldL, if_neg (by simpa using h3)]
      rw [hasKeyF_cons, hasKeyF_cons, ih]
      cases h : k3 == k2 <;> simp

theorem mergePropsInto_keys :
    ∀ entries acc out, mergePropsInto acc entries = some out →
      ∀ k, hasKeyF out k = (hasKeyF acc k || hasKeyF entries k) := by
  intro entries
  induction entries with
  | nil =>
    intro acc out h k
    cases h
    simp [hasKeyF, lookupF]
  | cons p rest ih =>
    intro acc out h k
    obtain ⟨key, propSchema⟩ := p
    simp only [mergePropsInto] at h
    split at h
    · rename_i existing hex
      split at h
      · split at h
        · cases h
        · rename_i merged hm
          rw [ih _ _ h k, hasKeyF_setFieldL, hasKeyF_cons]
          have hkey : hasKeyF acc key = true := by simp [hasKeyF, hex]
          by_cases hk : key = k
          · subst hk; simp [hkey]
          · simp [show (key == k) = false by simpa using hk]
      · rw [ih _ _ h k, hasKeyF_setFieldL, hasKeyF_cons]
        have hkey : hasKeyF acc key = true := by simp [hasKeyF, hex]
        by_cases hk : key = k
        · subst hk; simp [hkey]
        · simp [show (key == k) = false by simpa using hk]
    · rw [ih _ _ h k, hasKeyF_append, hasKeyF_cons, hasKeyF_cons]
      simp only [hasKeyF, lookupF]
      cases hq : key == k <;> simp [hq]

theorem list_all_map_congr (l : List Json) (f : Json → List Json)
    (p : List Json → Bool) (q : Json → Bool) (h : ∀ s ∈ l, p (f s) = q s) :
    (l.map f).all p = l.all q := by
  induction l with
  | nil => rfl
  | cons x rest ih =>
    simp only [List.map_cons, List.all_cons]
    rw [h x (List.mem_cons_self _ _), ih (fun y hy => h y (List.mem_cons_of_mem _ hy))]

theorem lookup_out_type (props2 : List (String × Json)) (fr : List Json) :
    lookupF ([("type", Json.str "object"), ("properties", Json.obj props2)]
      ++ (if fr.isEmpty then [] else [("required", Json.arr fr)])) "type"
      = some (Json.str "object") := by
  cases fr <;> rfl

theorem lookup_out_props (props2 : List (String × Json)) (fr : List Json) :
    lookupF ([("type", Json.str "object"), ("properties", Json.obj props2)]
      ++ (if fr.isEmpty then [] else [("required", Json.arr fr)])) "properties"
      = some (Json.obj props2) := by
  cases fr <;> rfl

theorem lookup_out_required (props2 : List (String × Json)) (fr : List Json) :
    lookupF ([("type", Json.str "object"), ("properties", Json.obj props2)]
      ++ (if fr.isEmpty then [] else [("required", Json.arr fr)])) "required"
      = if fr.isEmpty then none else some (Json.arr fr) := by
  cases fr <;> rfl

theorem finalRequired_ne_nil_strings (Rsets : List (List Json))
    (hstr : ∀ R ∈ Rsets, allStrsL R) (hne : finalRequiredOf Rsets ≠ []) :
    ∃ nm, elemB (finalRequiredOf Rsets) (.str nm) = true := by
  cases Rsets with
  | nil => exact absurd rfl hne
  | cons first restR =>
    cases hf : finalRequiredOf (first :: restR) with
    | nil => exact absurd hf hne
    | cons y ys =>
      have hy : y ∈ finalRequiredOf (first :: restR) := by
        rw [hf]
        exact List.mem_cons_self _ _
      have hyf := List.mem_filter.mp (by simpa only [finalRequiredOf] using hy)
      obtain ⟨t, rfl⟩ := hstr first (List.mem_cons_self _ _) _ hyf.1
      refine ⟨t, ?_⟩
      simp only [elemB]
      exact List.any_eq_true.mpr ⟨Json.str t, List.mem_cons_self _ _, by simp [jsonBeq]⟩

theorem mergeLoop_allObj (recSimp : Json → Nat → Nat → Option Json → Option Json)
    (md d : Nat) (defs : Json) :
    ∀ (opts sims : List Json) (acc : List (String × Json)) (reqs : List (List Json))
      (hasObj : Bool) res,
      List.Forall₂ (fun o s => recSimp o md d (some defs) = some s) opts sims →
      (∀ s ∈ sims, jsGet s "type" = some (.str "object")
        ∧ (∃ ps, jsGet s "properties" = some (.obj ps))
        ∧ (jsGet s "required" = none ∨ ∃ rs, jsGet s "required" = some (.arr rs))) →
      mergeLoop recSimp md d defs opts acc reqs hasObj = some res →
      ∃ props2, res = Sum.inr (props2, reqs ++ sims.map (fun s => dedupB (reqListOf s)),
          (hasObj || !opts.isEmpty))
        ∧ ∀ k, hasKeyF props2 k = (hasKeyF acc k || sims.any (fun s => hasKeyProps s k)) := by
  intro opts
  induction opts with
  | nil =>
    intro sims acc reqs hasObj res hfa hshape h
    cases hfa
    simp only [mergeLoop, Option.some_inj] at h
    subst h
    exact ⟨acc, by simp, by simp⟩
  | cons o opts2 ih =>
    intro sims acc reqs hasObj res hfa hshape h
    obtain - | @⟨_, s, _, sims2, ho, hfa2⟩ := hfa
    obtain ⟨htype, ⟨ps, hps⟩, hreq⟩ := hshape s (List.mem_cons_self _ _)
    have hshape2 : ∀ s2 ∈ sims2, jsGet s2 "type" = some (.str "object")
        ∧ (∃ ps2, jsGet s2 "properties" = some (.obj ps2))
        ∧ (jsGet s2 "required" = none ∨ ∃ rs, jsGet s2 "required" = some (.arr rs)) :=
      fun s2 hs2 => hshape s2 (List.mem_cons_of_mem _ hs2)
    simp only [mergeLoop] at h
    split at h
    · rename_i hnone
      rw [ho] at hnone
      cases hnone
    · rename_i simplified hsimp
      rw [ho, Option.some_inj] at hsimp
      subst hsimp
      rw [if_pos (by simp [typeIs, htype, hps, truthyO, truthy])] at h
      split at h
      · rename_i hse
        rcases hreq with hnone2 | ⟨rs, hrs⟩
        · rw [hnone2] at hse
          simp [jsSetElems] at hse
        · rw [hrs] at hse
          simp [jsSetElems, truthy] at hse
      · rename_i optionRequired hse
        split at h
        · exact absurd h (by simp)
        · rename_i merged2 hmp
          have hor : optionRequired = dedupB (reqListOf s) := by
            rcases hreq with hnone2 | ⟨rs, hrs⟩
            · rw [hnone2] at hse
              simp only [jsSetElems, Option.some_inj] at hse
              rw [← hse]
              simp [reqListOf, hnone2, dedupB, dedupGo]
            · rw [hrs] at hse
              simp only [jsSetElems, truthy, Bool.not_true, Bool.false_eq_true, if_false,
                Option.some_inj] at hse
              rw [← hse]
              simp [reqListOf, hrs]
          have hent : jsEntries ((jsGet s "properties").getD Json.null) = ps := by
            rw [hps]; rfl
          rw [hent] at hmp
          obtain ⟨props2, hres, hkeys⟩ :=
            ih sims2 merged2 (reqs ++ [optionRequired]) true res hfa2 hshape2 h
          refine ⟨props2, ?_, ?_⟩
          · rw [hres, hor]
            simp
          · intro k
            rw [hkeys k, mergePropsInto_keys ps acc merged2 hmp k]
            simp [List.any_cons, hasKeyProps, hps, Bool.or_assoc]

/-- C5 (amended): for an option list whose simplified forms are all
object variants with properties mappings and well-formed required lists of
names R1..Rn, when the merge succeeds it produces an object node whose
properties mapping carries exactly the union of the variant property keys,
and whose required field contains a name exactly when every variant's
required list contains it — the set intersection of all Ri — with the
required field omitted exactly when that intersection is empty.  In
particular a property present in only some variants appears in the merged
properties, and it appears in the merged required exactly when every
variant (including those not listing it among their properties) requires
it. -/
theorem C5_theorem (fuel md d : Nat) (defs : Json) (opts sims : List Json) (out : Json)
    (hne : opts ≠ [])
    (hfa : List.Forall₂
      (fun o s => simplifySchemaForDatabricks fuel o md d (some defs) = some s) opts sims)
    (hshape : ∀ s ∈ sims, jsGet s "type" = some (.str "object")
      ∧ (∃ ps, jsGet s "properties" = some (.obj ps))
      ∧ (jsGet s "required" = none
         ∨ ∃ rs, jsGet s "required" = some (.arr rs) ∧ allStrsL rs))
    (hsucc : mergeSchemaOptionsFuel fuel opts md d defs = some out) :
    ∃ outFields, out = Json.obj outFields
      ∧ lookupF outFields "type" = some (.str "object")
      ∧ (∃ mergedProps, lookupF outFields "properties" = some (.obj mergedProps)
          ∧ ∀ k, hasKeyF mergedProps k = sims.any (fun s => hasKeyProps s k))
      ∧ (∀ nm : String,
          reqHasB outFields nm = sims.all (fun s => elemB (reqListOf s) (.str nm)))
      ∧ (lookupF outFields "required" = none
          ↔ ∀ nm : String, sims.all (fun s => elemB (reqListOf s) (.str nm)) = false) := by
  have hshapeW : ∀ s ∈ sims, jsGet s "type" = some (.str "object")
      ∧ (∃ ps, jsGet s "properties" = some (.obj ps))
      ∧ (jsGet s "required" = none ∨ ∃ rs, jsGet s "required" = some (.arr rs)) := by
    intro s hs
    obtain ⟨h1, h2, h3⟩ := hshape s hs
    exact ⟨h1, h2, h3.imp id (fun ⟨rs, hrs, _⟩ => ⟨rs, hrs⟩)⟩
  have hsimsne : sims ≠ [] := by
    intro habs
    subst habs
    cases hfa
    exact hne rfl
  have hreqstr : ∀ s ∈ sims, allStrsL (reqListOf s) := by
    intro s hs
    obtain ⟨-, -, h3⟩ := hshape s hs
    rcases h3 with hnone2 | ⟨rs, hrs, hstr⟩
    · intro x hx
      simp [reqListOf, hnone2] at hx
    · intro x hx
      rw [reqListOf, hrs] at hx
      exact hstr x hx
  have hRstr : ∀ R ∈ sims.map (fun s => dedupB (reqListOf s)), allStrsL R := by
    intro R hR
    obtain ⟨s, hs, rfl⟩ := List.mem_map.mp hR
    intro x hx
    exact hreqstr s hs x (mem_dedupGo_sub _ _ _ hx)
  have hmapne : sims.map (fun s => dedupB (reqListOf s)) ≠ [] := by
    cases sims with
    | nil => exact absurd rfl hsimsne
    | cons a l => simp
  have hmain : ∀ nm : String,
      elemB (finalRequiredOf (sims.map fun s => dedupB (reqListOf s))) (.str nm)
        = sims.all (fun s => elemB (reqListOf s) (.str nm)) := by
    intro nm
    rw [elemB_finalRequiredOf _ nm hmapne hRstr]
    exact list_all_map_congr sims _ _ _ (fun s hs => elemB_dedupB _ nm (hreqstr s hs))
  unfold mergeSchemaOptionsFuel mergeSchemaOptions at hsucc
  split at hsucc
  · exact absurd hsucc (by simp)
  · rename_i r hml
    obtain ⟨props2, hres, -⟩ :=
      mergeLoop_allObj _ md d defs opts sims [] [] false _ hfa hshapeW hml
    exact absurd hres (by simp)
  · rename_i props reqsF hasObjF hml
    obtain ⟨props2, hres, hkeys⟩ :=
      mergeLoop_allObj _ md d defs opts sims [] [] false _ hfa hshapeW hml
    rw [Sum.inr.injEq, Prod.mk.injEq] at hres
    obtain ⟨hp1, hres2⟩ := hres
    rw [Prod.mk.injEq] at hres2
    obtain ⟨hp2, hp3⟩ := hres2
    rw [List.nil_append] at hp2
    have hOF : hasObjF = true := by
      rw [hp3]
      cases opts with
      | nil => exact absurd rfl hne
      | cons a l => simp
    rw [hOF] at hsucc
    simp only [Bool.not_true, Bool.false_eq_true, if_false, Option.some_inj] at hsucc
    subst hp1
    subst hp2
    subst hsucc
    refine ⟨_, rfl, lookup_out_type _ _, ⟨props, lookup_out_props _ _, ?_⟩, ?_, ?_⟩
    · intro k
      rw [hkeys k]
      simp [hasKeyF, lookupF]
    · intro nm
      simp only [reqHasB]
      rw [lookup_out_required]
      cases hemp : (finalRequiredOf (List.map (fun s => dedupB (reqListOf s)) sims)).isEmpty with
      | true =>
        rw [if_pos rfl]
        have hfr : finalRequiredOf (List.map (fun s => dedupB (reqListOf s)) sims) = [] := by
          cases hx : finalRequiredOf (List.map (fun s => dedupB (reqListOf s)) sims) with
          | nil => rfl
          | cons a l =>
            rw [hx] at hemp
            simp at hemp
        rw [show sims.all (fun s => elemB (reqListOf s) (.str nm))
            = elemB (finalRequiredOf (List.map (fun s => dedupB (reqListOf s)) sims)) (.str nm)
            from (hmain nm).symm, hfr]
        rfl
      | false =>
        rw [if_neg (by simp)]
        rw [show sims.all (fun s => elemB (reqListOf s) (.str nm))
            = elemB (finalRequiredOf (List.map (fun s => dedupB (reqListOf s)) sims)) (.str nm)
            from (hmain nm).symm]
    · rw [lookup_out_required]
      cases hemp : (finalRequiredOf (List.map (fun s => dedupB (reqListOf s)) sims)).isEmpty with
      | true =>
        rw [if_pos rfl]
        have hfr : finalRequiredOf (List.map (fun s => dedupB (reqListOf s)) sims) = [] := by
          cases hx : finalRequiredOf (List.map (fun s => dedupB (reqListOf s)) sims) with
          | nil => rfl
          | cons a l =>
            rw [hx] at hemp
            simp at hemp
        constructor
        · intro _ nm
          rw [show sims.all (fun s => elemB (reqListOf s) (.str nm))
              = elemB (finalRequiredOf (List.map (fun s => dedupB (reqListOf s)) sims)) (.str nm)
              from (hmain nm).symm, hfr]
          rfl
        · intro _
          rfl
      | false =>
        rw [if_neg (by simp)]
        have hfne : finalRequiredOf (List.map (fun s => dedupB (reqListOf s)) sims) ≠ [] := by
          intro habs
          rw [habs] at hemp
          simp at hemp
        obtain ⟨nm0, hnm0⟩ := finalRequired_ne_nil_strings _ hRstr hfne
        constructor
        · intro hcontra
          exact absurd hcontra (by simp)
        · intro hall
          exfalso
          have hx := hall nm0
          rw [← hmain nm0, hnm0] at hx
          exact Bool.noConfusion hx

def c5opt1 : Json := .obj [("type", .str "object"),
  ("properties", .obj [("a", .obj [("type", .str "string")])]),
  ("required", .arr [.str "a"])]

def c5opt2 : Json := .obj [("type", .str "object"),
  ("properties", .obj [("a", .obj [("type", .str "string")]),
                       ("b", .obj [("type", .str "number")])])]

def c5merged : Json := .obj [("type", .str "object"),
  ("properties", .obj [("a", .obj [("type", .str "string")]),
                       ("b", .obj [("type", .str "number")])])]

/-- C5 witness: the spec's own example pair — one variant requiring "a",
the other with properties a and b and no required — merges to an object
whose properties carry both keys and whose required field is omitted,
matching the intersection of the required sets being empty. -/
theorem C5_witness :
    ∃ outFields, c5merged = Json.obj outFields
      ∧ lookupF outFields "type" = some (Json.str "object")
      ∧ (∃ mergedProps, lookupF outFields "properties" = some (Json.obj mergedProps)
          ∧ ∀ k, hasKeyF mergedProps k = [c5opt1, c5opt2].any (fun s => hasKeyProps s k))
      ∧ (∀ nm : String,
          reqHasB outFields nm = [c5opt1, c5opt2].all (fun s => elemB (reqListOf s) (.str nm)))
      ∧ (lookupF outFields "required" = none
          ↔ ∀ nm : String,
              [c5opt1, c5opt2].all (fun s => elemB (reqListOf s) (.str nm)) = false) :=
  C5_theorem 9 4 0 (.obj []) [c5opt1, c5opt2] [c5opt1, c5opt2] c5merged
    (by simp) (List.Forall₂.cons rfl (List.Forall₂.cons rfl List.Forall₂.nil))
    (by
      intro s hs
      rcases List.mem_cons.mp hs with rfl | hs2
      · exact ⟨rfl, ⟨_, rfl⟩, Or.inr ⟨_, rfl, fun x hx => by
          simp only [List.mem_singleton] at hx
          exact ⟨"a", hx⟩⟩⟩
      · rcases List.mem_cons.mp hs2 with rfl | hs3
        · exact ⟨rfl, ⟨_, rfl⟩, Or.inl rfl⟩
        · simp at hs3)
    rfl

/-! ## Claim C3: idempotence of the simplifier -/

-- Object key lists with pairwise-distinct keys, and trees all of whose
-- objects have pairwise-distinct keys (a parsed JSON document always has
-- this form: parsing keeps one binding per key).
def keysNodupB : List (String × Json) → Bool
  | [] => true
  | (k, _) :: rest => !(hasKeyF rest k) && keysNodupB rest

mutual

def nodupDeep : Json → Bool
  | .obj fs => keysNodupB fs && nodupDeepF fs
  | .arr xs => nodupDeepL xs
  | _ => true

def nodupDeepL : List Json → Bool
  | [] => true
  | x :: xs => nodupDeep x && nodupDeepL xs

def nodupDeepF : List (String × Json) → Bool
  | [] => true
  | (_, v) :: rest => nodupDeep v && nodupDeepF rest

end

-- Every properties key anywhere in the tree holds an object mapping.
mutual

def propsObjDeep : Json → Bool
  | .obj fs => (match lookupF fs "properties" with
      | some (.obj _) => true
      | some _ => false
      | none => true) && propsObjDeepF fs
  | .arr xs => propsObjDeepL xs
  | _ => true

def propsObjDeepL : List Json → Bool
  | [] => true
  | x :: xs => propsObjDeep x && propsObjDeepL xs

def propsObjDeepF : List (String × Json) → Bool
  | [] => true
  | (_, v) :: rest => propsObjDeep v && propsObjDeepF rest

end

-- The input class on which simplification is idempotent: no reference or
-- union vocabulary anywhere, well-formed type sets, pairwise-distinct
-- object keys, and object-valued properties mappings.
def idemOK (j : Json) : Bool :=
  simpleTree j && nodupDeep j && propsObjDeep j

theorem lookupF_mem (fs : List (String × Json)) (k : String) (v : Json)
    (h : lookupF fs k = some v) : (k, v) ∈ fs := by
  induction fs with
  | nil => simp [lookupF] at h
  | cons p rest ih =>
    obtain ⟨k2, w⟩ := p
    by_cases hk : k2 == k
    · rw [lookupF, if_pos hk, Option.some_inj] at h
      have : k2 = k := by simpa using hk
      subst this
      subst h
      exact List.mem_cons_self _ _
    · rw [lookupF, if_neg hk] at h
      exact List.mem_cons_of_mem _ (ih h)

theorem hasKeyF_of_mem (fs : List (String × Json)) (k : String) (v : Json)
    (h : (k, v) ∈ fs) : hasKeyF fs k = true := by
  induction fs with
  | nil => simp at h
  | cons p rest ih =>
    obtain ⟨k2, w⟩ := p
    rcases List.mem_cons.mp h with heq | htail
    · rw [Prod.mk.injEq] at heq
      rw [heq.1] at *
      simp [hasKeyF, lookupF]
    · rw [hasKeyF_cons]
      rw [ih htail]
      simp

theorem lookupF_of_mem_nodup (fs : List (String × Json)) (k : String) (v : Json)
    (hnd : keysNodupB fs = true) (h : (k, v) ∈ fs) : lookupF fs k = some v := by
  induction fs with
  | nil => simp at h
  | cons p rest ih =>
    obtain ⟨k2, w⟩ := p
    simp only [keysNodupB, Bool.and_eq_true, Bool.not_eq_true'] at hnd
    rcases List.mem_cons.mp h with heq | htail
    · rw [Prod.mk.injEq] at heq
      rw [heq.1, heq.2]
      simp [lookupF]
    · have hk : ¬ (k2 == k) = true := by
        intro hb
        have : k2 = k := by simpa using hb
        subst this
        rw [hasKeyF_of_mem rest k2 v htail] at hnd
        exact Bool.noConfusion hnd.1
      rw [lookupF, if_neg hk]
      exact ih hnd.2 htail

theorem hasKeyDeepF_mem (key : String) (fs : List (String × Json))
    (h : hasKeyDeepF key fs = false) (k : String) (v : Json) (hm : (k, v) ∈ fs) :
    hasKeyDeep key v = false := by
  induction fs with
  | nil => simp at hm
  | cons p rest ih =>
    obtain ⟨k2, w⟩ := p
    simp only [hasKeyDeepF, Bool.or_eq_false_iff] at h
    rcases List.mem_cons.mp hm with heq | htail
    · rw [Prod.mk.injEq] at heq
      rw [heq.2]
      exact h.1
    · exact ih h.2 htail

theorem hasKeyDeepL_mem (key : String) (xs : List Json)
    (h : hasKeyDeepL key xs = false) (v : Json) (hm : v ∈ xs) :
    hasKeyDeep key v = false := by
  induction xs with
  | nil => simp at hm
  | cons x rest ih =>
    simp only [hasKeyDeepL, Bool.or_eq_false_iff] at h
    rcases List.mem_cons.mp hm with heq | htail
    · rw [heq]; exact h.1
    · exact ih h.2 htail

theorem nodupDeepF_mem (fs : List (String × Json)) (h : nodupDeepF fs = true)
    (k : String) (v : Json) (hm : (k, v) ∈ fs) : nodupDeep v = true := by
  induction fs with
  | nil => simp at hm
  | cons p rest ih =>
    obtain ⟨k2, w⟩ := p
    simp only [nodupDeepF, Bool.and_eq_true] at h
    rcases List.mem_cons.mp hm with heq | htail
    · rw [Prod.mk.injEq] at heq
      rw [heq.2]
      exact h.1
    · exact ih h.2 htail

theorem nodupDeepL_mem (xs : List Json) (h : nodupDeepL xs = true)
    (v : Json) (hm : v ∈ xs) : nodupDeep v = true := by
  induction xs with
  | nil => simp at hm
  | cons x rest ih =>
    simp only [nodupDeepL, Bool.and_eq_true] at h
    rcases List.mem_cons.mp hm with heq | htail
    · rw [heq]; exact h.1
    · exact ih h.2 htail

theorem propsObjDeepF_mem (fs : List (String × Json)) (h : propsObjDeepF fs = true)
    (k : String) (v : Json) (hm : (k, v) ∈ fs) : propsObjDeep v = true := by
  induction fs with
  | nil => simp at hm
  | cons p rest ih =>
    obtain ⟨k2, w⟩ := p
    simp only [propsObjDeepF, Bool.and_eq_true] at h
    rcases List.mem_cons.mp hm with heq | htail
    · rw [Prod.mk.injEq] at heq
      rw [heq.2]
      exact h.1
    · exact ih h.2 htail

theorem propsObjDeepL_mem (xs : List Json) (h : propsObjDeepL xs = true)
    (v : Json) (hm : v ∈ xs) : propsObjDeep v = true := by
  induction xs with
  | nil => simp at hm
  | cons x rest ih =>
    simp only [propsObjDeepL, Bool.and_eq_true] at h
    rcases List.mem_cons.mp hm with heq | htail
    · rw [heq]; exact h.1
    · exact ih h.2 htail

theorem allTASF_mem (fs : List (String × Json)) (h : allTASF fs = true)
    (k : String) (v : Json) (hm : (k, v) ∈ fs) : allTAS v = true := by
  induction fs with
  | nil => simp at hm
  | cons p rest ih =>
    obtain ⟨k2, w⟩ := p
    simp only [allTASF, Bool.and_eq_true] at h
    rcases List.mem_cons.mp hm with heq | htail
    · rw [Prod.mk.injEq] at heq
      rw [heq.2]
      exact h.1
    · exact ih h.2 htail

theorem getElem_opt_mem (xs : List Json) : ∀ (i : Nat) (v : Json), xs[i]? = some v → v ∈ xs := by
  induction xs with
  | nil => intro i v hg; simp at hg
  | cons x rest ih =>
    intro i v hg
    cases i with
    | zero =>
      simp at hg
      exact hg ▸ List.mem_cons_self _ _
    | succ j =>
      simp only [List.getElem?_cons_succ] at hg
      exact List.mem_cons_of_mem _ (ih j v hg)

theorem hasKeyDeep_jsGet (key : String) (j : Json) (k : String) (v : Json)
    (h : hasKeyDeep key j = false) (hg : jsGet j k = some v) : hasKeyDeep key v = false := by
  cases j with
  | obj fs =>
    simp only [hasKeyDeep, Bool.or_eq_false_iff] at h
    exact hasKeyDeepF_mem key fs h.2 k v (lookupF_mem _ _ _ hg)
  | arr xs =>
    simp only [jsGet] at hg
    split at hg
    · rw [Option.some_inj] at hg
      subst hg
      rfl
    · split at hg
      · split at hg
        · exact hasKeyDeepL_mem key xs (by simpa [hasKeyDeep] using h) v
            (getElem_opt_mem xs _ v hg)
        · exact Option.noConfusion hg
      · exact Option.noConfusion hg
  | str s =>
    simp only [jsGet] at hg
    split at hg
    · rw [Option.some_inj] at hg
      subst hg
      rfl
    · split at hg
      · split at hg
        · obtain ⟨c, -, rfl⟩ := Option.map_eq_some'.mp hg
          rfl
        · exact Option.noConfusion hg
      · exact Option.noConfusion hg
  | null => exact Option.noConfusion hg
  | bool b => exact Option.noConfusion hg
  | num n => exact Option.noConfusion hg

theorem nodupDeep_jsGet (j : Json) (k : String) (v : Json)
    (h : nodupDeep j = true) (hg : jsGet j k = some v) : nodupDeep v = true := by
  cases j with
  | obj fs =>
    simp only [nodupDeep, Bool.and_eq_true] at h
    exact nodupDeepF_mem fs h.2 k v (lookupF_mem _ _ _ hg)
  | arr xs =>
    simp only [jsGet] at hg
    split at hg
    · rw [Option.some_inj] at hg
      subst hg
      rfl
    · split at hg
      · split at hg
        · exact nodupDeepL_mem xs (by simpa [nodupDeep] using h) v (getElem_opt_mem xs _ v hg)
        · exact Option.noConfusion hg
      · exact Option.noConfusion hg
  | str s =>
    simp only [jsGet] at hg
    split at hg
    · rw [Option.some_inj] at hg
      subst hg
      rfl
    · split at hg
      · split at hg
        · obtain ⟨c, -, rfl⟩ := Option.map_eq_some'.mp hg
          rfl
        · exact Option.noConfusion hg
      · exact Option.noConfusion hg
  | null => exact Option.noConfusion hg
  | bool b => exact Option.noConfusion hg
  | num n => exact Option.noConfusion hg

theorem propsObjDeep_jsGet (j : Json) (k : String) (v : Json)
    (h : propsObjDeep j = true) (hg : jsGet j k = some v) : propsObjDeep v = true := by
  cases j with
  | obj fs =>
    simp only [propsObjDeep, Bool.and_eq_true] at h
    exact propsObjDeepF_mem fs h.2 k v (lookupF_mem _ _ _ hg)
  | arr xs =>
    simp only [jsGet] at hg
    split at hg
    · rw [Option.some_inj] at hg
      subst hg
      rfl
    · split at hg
      · split at hg
        · exact propsObjDeepL_mem xs (by simpa [propsObjDeep] using h) v
            (getElem_opt_mem xs _ v hg)
        · exact Option.noConfusion hg
      · exact Option.noConfusion hg
  | str s =>
    simp only [jsGet] at hg
    split at hg
    · rw [Option.some_inj] at hg
      subst hg
      rfl
    · split at hg
      · split at hg
        · obtain ⟨c, -, rfl⟩ := Option.map_eq_some'.mp hg
          rfl
        · exact Option.noConfusion hg
      · exact Option.noConfusion hg
  | null => exact Option.noConfusion hg
  | bool b => exact Option.noConfusion hg
  | num n => exact Option.noConfusion hg

theorem idemOK_parts (j : Json) (h : idemOK j = true) :
    hasKeyDeep "$ref" j = false ∧ hasKeyDeep "anyOf" j = false
    ∧ hasKeyDeep "oneOf" j = false ∧ hasKeyDeep "allOf" j = false
    ∧ allTAS j = true ∧ nodupDeep j = true ∧ propsObjDeep j = true := by
  simp only [idemOK, simpleTree, Bool.and_eq_true, Bool.not_eq_true'] at h
  exact ⟨h.1.1.1.1.1.1, h.1.1.1.1.1.2, h.1.1.1.1.2, h.1.1.1.2, h.1.1.2, h.1.2, h.2⟩

theorem idemOK_build (j : Json)
    (h1 : hasKeyDeep "$ref" j = false) (h2 : hasKeyDeep "anyOf" j = false)
    (h3 : hasKeyDeep "oneOf" j = false) (h4 : hasKeyDeep "allOf" j = false)
    (h5 : allTAS j = true) (h6 : nodupDeep j = true) (h7 : propsObjDeep j = true) :
    idemOK j = true := by
  simp only [idemOK, simpleTree, Bool.and_eq_true, Bool.not_eq_true']
  exact ⟨⟨⟨⟨⟨⟨h1, h2⟩, h3⟩, h4⟩, h5⟩, h6⟩, h7⟩

theorem idemOK_jsGet (j : Json) (k : String) (v : Json) (h : idemOK j = true)
    (hg : jsGet j k = some v) : idemOK v = true := by
  obtain ⟨h1, h2, h3, h4, h5, h6, h7⟩ := idemOK_parts j h
  exact idemOK_build v (hasKeyDeep_jsGet _ _ _ _ h1 hg) (hasKeyDeep_jsGet _ _ _ _ h2 hg)
    (hasKeyDeep_jsGet _ _ _ _ h3 hg) (hasKeyDeep_jsGet _ _ _ _ h4 hg)
    (allTAS_jsGet _ _ _ h5 hg) (nodupDeep_jsGet _ _ _ h6 hg) (propsObjDeep_jsGet _ _ _ h7 hg)

theorem idemOK_fieldsMem (ps : List (String × Json)) (h : idemOK (.obj ps) = true)
    (k : String) (v : Json) (hm : (k, v) ∈ ps) : idemOK v = true := by
  obtain ⟨h1, h2, h3, h4, h5, h6, h7⟩ := idemOK_parts _ h
  have hdeep : ∀ key, hasKeyDeep key (Json.obj ps) = false → hasKeyDeep key v = false := by
    intro key hk
    simp only [hasKeyDeep, Bool.or_eq_false_iff] at hk
    exact hasKeyDeepF_mem key ps hk.2 k v hm
  refine idemOK_build v (hdeep _ h1) (hdeep _ h2) (hdeep _ h3) (hdeep _ h4) ?_ ?_ ?_
  · exact allTASF_mem ps (allTAS_obj_fields ps h5) k v hm
  · simp only [nodupDeep, Bool.and_eq_true] at h6
    exact nodupDeepF_mem ps h6.2 k v hm
  · simp only [propsObjDeep, Bool.and_eq_true] at h7
    exact propsObjDeepF_mem ps h7.2 k v hm

theorem keysSubF_refl (fs : List (String × Json)) : keysSubF fs fs = true := by
  apply List.all_eq_true.mpr
  intro q hq
  obtain ⟨k, v⟩ := q
  exact hasKeyF_of_mem fs k v hq

theorem jeqFieldsIn_of_lookup : ∀ (fs gs : List (String × Json)),
    (∀ p ∈ fs, ∃ w, lookupF gs p.1 = some w ∧ jeqB p.2 w = true) →
    jeqFieldsIn fs gs = true := by
  intro fs
  induction fs with
  | nil => intro gs _; rfl
  | cons p rest ih =>
    intro gs h
    obtain ⟨k, v⟩ := p
    obtain ⟨w, hw, hj⟩ := h (k, v) (List.mem_cons_self _ _)
    simp only [jeqFieldsIn, hw, hj, Bool.true_and]
    exact ih gs (fun q hq => h q (List.mem_cons_of_mem _ hq))

mutual

theorem jeqB_refl : ∀ v, nodupDeep v = true → jeqB v v = true
  | .null, _ => rfl
  | .bool b, _ => by simp [jeqB]
  | .num n, _ => by simp [jeqB]
  | .str s, _ => by simp [jeqB]
  | .arr xs, h => by
    simp only [jeqB]
    exact jeqList_refl xs (by simpa [nodupDeep] using h)
  | .obj fs, h => by
    simp only [jeqB]
    have h1 : keysNodupB fs = true := by
      simp only [nodupDeep, Bool.and_eq_true] at h
      exact h.1
    have h2 : nodupDeepF fs = true := by
      simp only [nodupDeep, Bool.and_eq_true] at h
      exact h.2
    rw [jeqFields_refl_go fs fs h2
      (fun p hp => lookupF_of_mem_nodup fs p.1 p.2 h1 (by simpa using hp)), keysSubF_refl]
    rfl

theorem jeqList_refl : ∀ xs, nodupDeepL xs = true → jeqList xs xs = true
  | [], _ => rfl
  | x :: xs, h => by
    simp only [jeqList]
    simp only [nodupDeepL, Bool.and_eq_true] at h
    rw [jeqB_refl x h.1, jeqList_refl xs h.2]
    rfl

theorem jeqFields_refl_go : ∀ (fs gs : List (String × Json)), nodupDeepF fs = true →
    (∀ p ∈ fs, lookupF gs p.1 = some p.2) → jeqFieldsIn fs gs = true
  | [], _, _, _ => rfl
  | (k, v) :: rest, gs, h2, hl => by
    simp only [nodupDeepF, Bool.and_eq_true] at h2
    simp only [jeqFieldsIn, hl (k, v) (List.mem_cons_self _ _)]
    rw [jeqB_refl v h2.1]
    simp only [Bool.true_and]
    exact jeqFields_refl_go rest gs h2.2 (fun p hp => hl p (List.mem_cons_of_mem _ hp))

end

theorem forall2_mem_right {R : (String × Json) → (String × Json) → Prop} :
    ∀ {fs gs : List (String × Json)}, List.Forall₂ R fs gs → ∀ q ∈ gs, ∃ p ∈ fs, R p q := by
  intro fs gs h
  induction h with
  | nil => intro q hq; simp at hq
  | cons hR htail ih =>
    intro q hq
    rcases List.mem_cons.mp hq with rfl | hq2
    · exact ⟨_, List.mem_cons_self _ _, hR⟩
    · obtain ⟨p, hp, hpq⟩ := ih q hq2
      exact ⟨p, List.mem_cons_of_mem _ hp, hpq⟩

theorem forall2_lookup_left : ∀ (fs gs : List (String × Json)),
    List.Forall₂ (fun p q => p.1 = q.1 ∧ jeqB p.2 q.2 = true) fs gs →
    keysNodupB fs = true →
    ∀ p ∈ fs, ∃ w, lookupF gs p.1 = some w ∧ jeqB p.2 w = true := by
  intro fs
  induction fs with
  | nil => intro gs _ _ p hp; simp at hp
  | cons p0 rest ih =>
    intro gs h hnd p hp
    obtain - | @⟨_, q0, _, gs2, hR, htail⟩ := h
    obtain ⟨k0, v0⟩ := p0
    obtain ⟨q1, q2⟩ := q0
    obtain ⟨hk, hj⟩ := hR
    simp only at hk hj
    subst hk
    simp only [keysNodupB, Bool.and_eq_true, Bool.not_eq_true'] at hnd
    rcases List.mem_cons.mp hp with heq | htl
    · subst heq
      exact ⟨q2, by simp [lookupF], hj⟩
    · have hne : (k0 == p.1) = false := by
        cases hb : k0 == p.1
        · rfl
        · have hkk : k0 = p.1 := by simpa using hb
          rw [hkk, hasKeyF_of_mem rest p.1 p.2 (by simpa using htl)] at hnd
          exact Bool.noConfusion hnd.1
      rw [lookupF, if_neg (by simp [hne])]
      exact ih gs2 htail hnd.2 p htl

theorem jeqObj_pointwise (fs gs : List (String × Json)) (hnd : keysNodupB fs = true)
    (hfa : List.Forall₂ (fun p q => p.1 = q.1 ∧ jeqB p.2 q.2 = true) fs gs) :
    jeqB (.obj fs) (.obj gs) = true := by
  simp only [jeqB]
  rw [jeqFieldsIn_of_lookup fs gs (forall2_lookup_left fs gs hfa hnd)]
  have hsub : keysSubF gs fs = true := by
    apply List.all_eq_true.mpr
    intro q hq
    obtain ⟨p, hp, hkq, -⟩ := forall2_mem_right hfa q hq
    show (lookupF fs q.1).isSome = true
    rw [← hkq]
    exact hasKeyF_of_mem fs p.1 p.2 (by simpa using hp)
  rw [hsub]
  rfl

theorem jeqObj_rot (pk : String) (pv : Json) (fields : List (String × Json))
    (hnk : hasKeyF fields pk = false) (hnd : keysNodupB fields = true)
    (hrefl : ∀ q ∈ fields, jeqB q.2 q.2 = true) (hp : jeqB pv pv = true) :
    jeqB (.obj (fields ++ [(pk, pv)])) (.obj ((pk, pv) :: fields)) = true := by
  simp only [jeqB]
  have hlk : ∀ q ∈ fields ++ [(pk, pv)],
      ∃ w, lookupF ((pk, pv) :: fields) q.1 = some w ∧ jeqB q.2 w = true := by
    intro q hq
    rcases List.mem_append.mp hq with hqf | hqp
    · have hne : (pk == q.1) = false := by
        cases hb : pk == q.1
        · rfl
        · have hkk : pk = q.1 := by simpa using hb
          rw [hkk, hasKeyF_of_mem fields q.1 q.2 (by simpa using hqf)] at hnk
          exact Bool.noConfusion hnk
      refine ⟨q.2, ?_, hrefl q hqf⟩
      rw [lookupF, if_neg (by simp [hne])]
      exact lookupF_of_mem_nodup fields q.1 q.2 hnd (by simpa using hqf)
    · rw [List.mem_singleton] at hqp
      subst hqp
      exact ⟨pv, by simp [lookupF], hp⟩
  rw [jeqFieldsIn_of_lookup _ _ hlk]
  have hsub : keysSubF ((pk, pv) :: fields) (fields ++ [(pk, pv)]) = true := by
    apply List.all_eq_true.mpr
    intro q hq
    show (lookupF (fields ++ [(pk, pv)]) q.1).isSome = true
    show hasKeyF (fields ++ [(pk, pv)]) q.1 = true
    rw [hasKeyF_append]
    rcases List.mem_cons.mp hq with rfl | hqf
    · simp [hasKeyF, lookupF]
    · rw [hasKeyF_of_mem fields q.1 q.2 (by simpa using hqf)]
      rfl
  rw [hsub]
  rfl

theorem forall2_jeq_refl (zs : List (String × Json)) (h : ∀ q ∈ zs, jeqB q.2 q.2 = true) :
    List.Forall₂ (fun p q => p.1 = q.1 ∧ jeqB p.2 q.2 = true) zs zs := by
  induction zs with
  | nil => exact List.Forall₂.nil
  | cons q rest ih =>
    exact List.Forall₂.cons ⟨rfl, h q (List.mem_cons_self _ _)⟩
      (ih (fun q2 hq2 => h q2 (List.mem_cons_of_mem _ hq2)))

theorem hasKeyF_eq_of_forall2 : ∀ {fs gs : List (String × Json)},
    List.Forall₂ (fun p q => p.1 = q.1 ∧ jeqB p.2 q.2 = true) fs gs →
    ∀ k, hasKeyF fs k = hasKeyF gs k := by
  intro fs gs h
  induction h with
  | nil => intro k; rfl
  | cons hR htail ih =>
    rename_i p0 q0 fs2 gs2
    intro k
    obtain ⟨k0, v0⟩ := p0
    obtain ⟨q1, q2⟩ := q0
    obtain ⟨hk, -⟩ := hR
    simp only at hk
    subst hk
    rw [hasKeyF_cons, hasKeyF_cons, ih k]

theorem keysNodupB_of_forall2 : ∀ {fs gs : List (String × Json)},
    List.Forall₂ (fun p q => p.1 = q.1 ∧ jeqB p.2 q.2 = true) fs gs →
    keysNodupB fs = true → keysNodupB gs = true := by
  intro fs gs h
  induction h with
  | nil => intro _; rfl
  | cons hR htail ih =>
    rename_i p0 q0 fs2 gs2
    intro hnd
    obtain ⟨k0, v0⟩ := p0
    obtain ⟨q1, q2⟩ := q0
    obtain ⟨hk, -⟩ := hR
    simp only at hk
    subst hk
    simp only [keysNodupB, Bool.and_eq_true, Bool.not_eq_true'] at hnd ⊢
    rw [← hasKeyF_eq_of_forall2 htail]
    exact ⟨hnd.1, ih hnd.2⟩

theorem lookupF_append_chunkT_ne (k1 k : String) (o : Option Json)
    (rest : List (String × Json)) (h : (k1 == k) = false) :
    lookupF (chunkTruthy k1 o ++ rest) k = lookupF rest k := by
  cases ht : truthyO o <;> simp [chunkTruthy, ht, lookupF, h]

theorem lookupF_append_chunkP_ne (k1 k : String) (o : Option Json)
    (rest : List (String × Json)) (h : (k1 == k) = false) :
    lookupF (chunkPresent k1 o ++ rest) k = lookupF rest k := by
  cases o <;> simp [chunkPresent, lookupF, h]

theorem lookupF_append_chunkP_self (k : String) (o : Option Json)
    (rest : List (String × Json)) (hrest : lookupF rest k = none) :
    lookupF (chunkPresent k o ++ rest) k = o := by
  cases o <;> simp [chunkPresent, lookupF, hrest]

theorem lookupF_append_chunkT_self (k : String) (o : Option Json)
    (rest : List (String × Json)) (hrest : lookupF rest k = none) :
    lookupF (chunkTruthy k o ++ rest) k =
      if truthyO o then some (o.getD .null) else none := by
  cases ht : truthyO o <;> simp [chunkTruthy, ht, lookupF, hrest]

theorem chunkTruthy_round (k : String) (o : Option Json) :
    chunkTruthy k (if truthyO o then some (o.getD .null) else none) = chunkTruthy k o := by
  cases o with
  | none => rfl
  | some v => cases hv : truthy v <;> simp [chunkTruthy, truthyO, hv]

theorem truthyO_round (o : Option Json) :
    truthyO (if truthyO o then some (o.getD .null) else none) = truthyO o := by
  cases o with
  | none => rfl
  | some v => cases hv : truthy v <;> simp [truthyO, hv]

theorem getD_round (o : Option Json) :
    ((if truthyO o then some (o.getD .null) else none).getD .null)
      = if truthyO o then o.getD .null else .null := by
  cases ht : truthyO o <;> simp

theorem normalizeSchemaType_id (fs : List (String × Json))
    (h : ∀ ts, lookupF fs "type" ≠ some (.arr ts)) :
    normalizeSchemaType (.obj fs) = .obj fs := by
  simp only [normalizeSchemaType]

theorem keysNodupB_setFieldL (fs : List (String × Json)) (k : String) (v : Json)
    (h : keysNodupB fs = true) : keysNodupB (setFieldL fs k v) = true := by
  induction fs with
  | nil =>
    simp [setFieldL, keysNodupB, hasKeyF, lookupF]
  | cons p rest ih =>
    obtain ⟨k2, w⟩ := p
    simp only [keysNodupB, Bool.and_eq_true, Bool.not_eq_true'] at h
    by_cases hk : k2 == k
    · rw [setFieldL, if_pos hk]
      have : k2 = k := by simpa using hk
      subst this
      simp only [keysNodupB, Bool.and_eq_true, Bool.not_eq_true']
      exact ⟨h.1, h.2⟩
    · rw [setFieldL, if_neg hk]
      simp only [keysNodupB, Bool.and_eq_true, Bool.not_eq_true']
      constructor
      · rw [hasKeyF_setFieldL, h.1]
        simp only [Bool.false_or]
        cases hb : k == k2
        · rfl
        · have : k2 = k := by simp at hb; exact hb.symm
          exact absurd (by simpa using this : (k2 == k) = true) (by simp [hk])
      · exact ih h.2

theorem nodupDeepF_setFieldL (fs : List (String × Json)) (k : String) (v : Json)
    (hv : nodupDeep v = true) (h : nodupDeepF fs = true) :
    nodupDeepF (setFieldL fs k v) = true := by
  induction fs with
  | nil => simp [setFieldL, nodupDeepF, hv]
  | cons p rest ih =>
    obtain ⟨k2, w⟩ := p
    simp only [nodupDeepF, Bool.and_eq_true] at h
    by_cases hk : k2 == k
    · rw [setFieldL, if_pos hk]
      simp only [nodupDeepF, Bool.and_eq_true]
      exact ⟨hv, h.2⟩
    · rw [setFieldL, if_neg hk]
      simp only [nodupDeepF, Bool.and_eq_true]
      exact ⟨h.1, ih h.2⟩

theorem nodupDeep_normalizeSchemaType (schema : Json) (hall : allTAS schema = true)
    (h : nodupDeep schema = true) : nodupDeep (normalizeSchemaType schema) = true := by
  cases schema with
  | obj fs =>
    simp only [normalizeSchemaType]
    cases htype : lookupF fs "type" with
    | none => exact h
    | some v =>
      cases v with
      | arr types =>
        have hok : typeFieldOK fs = true := by
          simp only [allTAS, Bool.and_eq_true] at hall
          exact hall.1
        have hstr : types.all isStrJ = true := by
          unfold typeFieldOK at hok
          rw [htype] at hok
          exact hok
        have hs2 : isStrJ ((normalizeType (some (.arr types))).getD .null) = true :=
          normalizeTypeArr_str types hstr
        simp only [nodupDeep, Bool.and_eq_true] at h ⊢
        constructor
        · exact keysNodupB_setFieldL fs _ _ h.1
        · refine nodupDeepF_setFieldL fs _ _ ?_ h.2
          cases hv : (normalizeType (some (.arr types))).getD .null <;> simp_all [isStrJ, nodupDeep]
      | null => exact h
      | bool b => exact h
      | num n => exact h
      | str s => exact h
      | obj fs2 => exact h
  | null => exact h
  | bool b => exact h
  | num n => exact h
  | str s => exact h
  | arr xs => exact h

theorem simplifyCore_depth (recSimp : Json → Nat → Nat → Option Json → Option Json)
    (v : Json) (md d : Nat) (dfs : Option Json) (hd : d > md) :
    simplifyCore recSimp v md d dfs = some fallbackSchema := by
  simp only [simplifyCore]
  rw [if_pos hd]

theorem simplifyCore_objbranch (recSimp : Json → Nat → Nat → Option Json → Option Json)
    (v : Json) (md d : Nat) (dfs2 : Option Json) (sps sps2 : List (String × Json))
    (hdm : ¬ d > md)
    (hvnorm : normalizeSchemaType v = v)
    (href : jsGet v "$ref" = none) (hao : jsGet v "anyOf" = none)
    (hoo : jsGet v "oneOf" = none) (hallo : jsGet v "allOf" = none)
    (hty : typeIs v "object" = true)
    (hprops : jsGet v "properties" = some (.obj sps))
    (hsp2 : simplifyProps recSimp md (d + 1) (collectDefs dfs2 v) sps = some sps2) :
    simplifyCore recSimp v md d dfs2 = some (mkObjectOut v sps2) := by
  simp only [simplifyCore]
  rw [if_neg hdm, hvnorm, href]
  rw [if_neg (by simp [truthyO])]
  rw [hao, hoo]
  rw [if_neg (by simp [truthyO])]
  rw [hallo]
  rw [if_neg (by simp [truthyO])]
  rw [if_pos (by rw [hty, hprops]; rfl)]
  rw [hprops]
  rw [show jsEntries ((some (Json.obj sps)).getD Json.null) = sps from rfl]
  rw [hsp2]

theorem simplifyCore_arrbranch (recSimp : Json → Nat → Nat → Option Json → Option Json)
    (v iv iv2 : Json) (md d : Nat) (dfs2 : Option Json)
    (hdm : ¬ d > md)
    (hvnorm : normalizeSchemaType v = v)
    (href : jsGet v "$ref" = none) (hao : jsGet v "anyOf" = none)
    (hoo : jsGet v "oneOf" = none) (hallo : jsGet v "allOf" = none)
    (hnp : truthyO (jsGet v "properties") = false)
    (hty : typeIs v "array" = true)
    (hitems : jsGet v "items" = some iv)
    (htruthy : truthy iv = true)
    (hrec : recSimp iv md (d + 1) (some (collectDefs dfs2 v)) = some iv2) :
    simplifyCore recSimp v md d dfs2 = some (mkArrayOut v iv2) := by
  simp only [simplifyCore]
  rw [if_neg hdm, hvnorm, href]
  rw [if_neg (by simp [truthyO])]
  rw [hao, hoo]
  rw [if_neg (by simp [truthyO])]
  rw [hallo]
  rw [if_neg (by simp [truthyO])]
  rw [if_neg (by rw [hnp]; simp)]
  rw [if_pos (by rw [hty, hitems]; simp [truthyO, htruthy])]
  rw [hitems]
  rw [show ((some iv).getD Json.null) = iv from rfl]
  rw [hrec]

theorem simplifyCore_primbranch (recSimp : Json → Nat → Nat → Option Json → Option Json)
    (v : Json) (md d : Nat) (dfs2 : Option Json)
    (hdm : ¬ d > md)
    (hvnorm : normalizeSchemaType v = v)
    (href : jsGet v "$ref" = none) (hao : jsGet v "anyOf" = none)
    (hoo : jsGet v "oneOf" = none) (hallo : jsGet v "allOf" = none)
    (hnp : truthyO (jsGet v "properties") = false)
    (hni : truthyO (jsGet v "items") = false) :
    simplifyCore recSimp v md d dfs2 = some (primitiveOut v) := by
  simp only [simplifyCore]
  rw [if_neg hdm, hvnorm, href]
  rw [if_neg (by simp [truthyO])]
  rw [hao, hoo]
  rw [if_neg (by simp [truthyO])]
  rw [hallo]
  rw [if_neg (by simp [truthyO])]
  rw [if_neg (by rw [hnp]; simp)]
  rw [if_neg (by rw [hni]; simp)]

theorem simplifyCore_bool (recSimp : Json → Nat → Nat → Option Json → Option Json)
    (b : Bool) (md d : Nat) (dfs : Option Json) :
    simplifyCore recSimp (.bool b) md d dfs =
      if d > md then some fallbackSchema else some (.obj [("type", .str "object")]) := by
  by_cases hdm : d > md
  · rw [if_pos hdm]
    exact simplifyCore_depth recSimp _ md d dfs hdm
  · rw [if_neg hdm]
    exact (simplifyCore_primbranch recSimp (Json.bool b) md d dfs hdm rfl rfl rfl rfl rfl rfl rfl).trans
      (by rfl)

theorem simplifyCore_num (recSimp : Json → Nat → Nat → Option Json → Option Json)
    (n : Int) (md d : Nat) (dfs : Option Json) :
    simplifyCore recSimp (.num n) md d dfs =
      if d > md then some fallbackSchema else some (.obj [("type", .str "object")]) := by
  by_cases hdm : d > md
  · rw [if_pos hdm]
    exact simplifyCore_depth recSimp _ md d dfs hdm
  · rw [if_neg hdm]
    exact (simplifyCore_primbranch recSimp (Json.num n) md d dfs hdm rfl rfl rfl rfl rfl rfl rfl).trans
      (by rfl)

theorem simplifyCore_str (recSimp : Json → Nat → Nat → Option Json → Option Json)
    (s : String) (md d : Nat) (dfs : Option Json) :
    simplifyCore recSimp (.str s) md d dfs =
      if d > md then some fallbackSchema else some (.obj [("type", .str "object")]) := by
  by_cases hdm : d > md
  · rw [if_pos hdm]
    exact simplifyCore_depth recSimp _ md d dfs hdm
  · rw [if_neg hdm]
    exact (simplifyCore_primbranch recSimp (Json.str s) md d dfs hdm rfl rfl rfl rfl rfl rfl rfl).trans
      (by rfl)

theorem simplifyCore_arrv (recSimp : Json → Nat → Nat → Option Json → Option Json)
    (xs : List Json) (md d : Nat) (dfs : Option Json) :
    simplifyCore recSimp (.arr xs) md d dfs =
      if d > md then some fallbackSchema else some (.obj [("type", .str "object")]) := by
  by_cases hdm : d > md
  · rw [if_pos hdm]
    exact simplifyCore_depth recSimp _ md d dfs hdm
  · rw [if_neg hdm]
    exact (simplifyCore_primbranch recSimp (Json.arr xs) md d dfs hdm rfl rfl rfl rfl rfl rfl rfl).trans
      (by rfl)

theorem simplifyCore_typeobject (recSimp : Json → Nat → Nat → Option Json → Option Json)
    (md d : Nat) (dfs : Option Json) (hdm : ¬ d > md) :
    simplifyCore recSimp (.obj [("type", .str "object")]) md d dfs
      = some (.obj [("type", .str "object")]) := by
  exact (simplifyCore_primbranch recSimp (Json.obj [("type", Json.str "object")]) md d dfs hdm rfl rfl rfl rfl rfl rfl rfl).trans
    (by rfl)

theorem simplifyCore_fallbackSchema (recSimp : Json → Nat → Nat → Option Json → Option Json)
    (md d : Nat) (dfs : Option Json) (hdm : ¬ d > md) :
    simplifyCore recSimp fallbackSchema md d dfs
      = some (.obj [("type", .str "object")]) := by
  exact (simplifyCore_primbranch recSimp fallbackSchema md d dfs hdm rfl rfl rfl rfl rfl rfl rfl).trans
    (by rfl)

theorem mem_chunkPresent_val (p : String × Json) (k : String) (o : Option Json)
    (h : p ∈ chunkPresent k o) : o = some p.2 := by
  unfold chunkPresent at h
  cases o with
  | none => simp at h
  | some v =>
    simp only [List.mem_singleton] at h
    rw [h]

theorem mem_chunkTruthy_val (p : String × Json) (k : String) (o : Option Json)
    (h : p ∈ chunkTruthy k o) : p.2 = o.getD .null ∧ truthyO o = true := by
  unfold chunkTruthy at h
  split at h
  · simp only [List.mem_singleton] at h
    rw [h]
    rename_i ht
    exact ⟨rfl, ht⟩
  · simp at h

theorem chunkPresent_refl (stp : Json) (k : String) (hnd : nodupDeep stp = true) :
    ∀ q ∈ chunkPresent k (jsGet stp k), jeqB q.2 q.2 = true := by
  intro q hq
  have hv := mem_chunkPresent_val q k _ hq
  exact jeqB_refl q.2 (nodupDeep_jsGet stp k q.2 hnd hv)

theorem chunkTruthy_refl (stp : Json) (k : String) (hnd : nodupDeep stp = true) :
    ∀ q ∈ chunkTruthy k (jsGet stp k), jeqB q.2 q.2 = true := by
  intro q hq
  obtain ⟨hval, htr⟩ := mem_chunkTruthy_val q k _ hq
  cases hg : jsGet stp k with
  | none => rw [hg] at htr; exact Bool.noConfusion htr
  | some v =>
    rw [hg] at hval
    simp only [Option.getD_some] at hval
    rw [hval]
    exact jeqB_refl v (nodupDeep_jsGet stp k v hnd hg)

theorem jsGet_mkObjectOut_type (stp : Json) (sps : List (String × Json)) :
    jsGet (mkObjectOut stp sps) "type" = some (.str "object") := rfl

theorem jsGet_mkObjectOut_props (stp : Json) (sps : List (String × Json)) :
    jsGet (mkObjectOut stp sps) "properties" = some (.obj sps) := rfl

theorem jsGet_mkObjectOut_required (stp : Json) (sps : List (String × Json)) :
    jsGet (mkObjectOut stp sps) "required" = jsGet stp "required" := by
  show lookupF _ "required" = _
  simp only [mkObjectOut, List.append_assoc, List.cons_append, List.nil_append]
  rw [lookupF, if_neg (by decide)]
  rw [lookupF, if_neg (by decide)]
  rw [lookupF_append_chunkP_self _ _ _ (by
    rw [lookupF_append_chunkT_ne _ _ _ _ (by decide)]
    exact lookupF_chunkPresent_ne _ _ _ (by decide))]

theorem jsGet_mkObjectOut_desc (stp : Json) (sps : List (String × Json)) :
    jsGet (mkObjectOut stp sps) "description"
      = if truthyO (jsGet stp "description")
        then some ((jsGet stp "description").getD .null) else none := by
  show lookupF _ "description" = _
  simp only [mkObjectOut, List.append_assoc, List.cons_append, List.nil_append]
  rw [lookupF, if_neg (by decide)]
  rw [lookupF, if_neg (by decide)]
  rw [lookupF_append_chunkP_ne _ _ _ _ (by decide)]
  rw [lookupF_append_chunkT_self _ _ _ (lookupF_chunkPresent_ne _ _ _ (by decide))]

theorem jsGet_mkObjectOut_ap (stp : Json) (sps : List (String × Json)) :
    jsGet (mkObjectOut stp sps) "additionalProperties"
      = jsGet stp "additionalProperties" := by
  show lookupF _ "additionalProperties" = _
  simp only [mkObjectOut, List.append_assoc, List.cons_append, List.nil_append]
  rw [lookupF, if_neg (by decide)]
  rw [lookupF, if_neg (by decide)]
  rw [lookupF_append_chunkP_ne _ _ _ _ (by decide)]
  rw [lookupF_append_chunkT_ne _ _ _ _ (by decide)]
  exact lookupF_chunkPresent_self _ _

theorem jsGet_mkObjectOut_other (stp : Json) (sps : List (String × Json)) (k : String)
    (h1 : ("type" == k) = false) (h2 : ("properties" == k) = false)
    (h3 : ("required" == k) = false) (h4 : ("description" == k) = false)
    (h5 : ("additionalProperties" == k) = false) :
    jsGet (mkObjectOut stp sps) k = none := by
  show lookupF _ k = _
  simp only [mkObjectOut, List.append_assoc, List.cons_append, List.nil_append]
  rw [lookupF, if_neg (by simp [h1])]
  rw [lookupF, if_neg (by simp [h2])]
  rw [lookupF_append_chunkP_ne _ _ _ _ h3]
  rw [lookupF_append_chunkT_ne _ _ _ _ h4]
  exact lookupF_chunkPresent_ne _ _ _ h5

theorem keysNodupB_mkObjectOutFields (stp : Json) (sps : List (String × Json)) :
    keysNodupB ([("type", Json.str "object"), ("properties", Json.obj sps)]
      ++ chunkPresent "required" (jsGet stp "required")
      ++ chunkTruthy "description" (jsGet stp "description")
      ++ chunkPresent "additionalProperties" (jsGet stp "additionalProperties")) = true := by
  cases hr : jsGet stp "required" <;>
    cases hd : truthyO (jsGet stp "description") <;>
      cases ha : jsGet stp "additionalProperties" <;>
        simp [chunkPresent, chunkTruthy, hd, keysNodupB, hasKeyF, lookupF]

theorem jeqB_mkObjectOut (stp stq : Json) (sps sps2 : List (String × Json))
    (hreq : jsGet stq "required" = jsGet stp "required")
    (hdesc : chunkTruthy "description" (jsGet stq "description")
      = chunkTruthy "description" (jsGet stp "description"))
    (hap : jsGet stq "additionalProperties" = jsGet stp "additionalProperties")
    (hnd : keysNodupB sps = true)
    (hndstp : nodupDeep stp = true)
    (hfa : List.Forall₂ (fun p q => p.1 = q.1 ∧ jeqB p.2 q.2 = true) sps sps2) :
    jeqB (mkObjectOut stp sps) (mkObjectOut stq sps2) = true := by
  simp only [mkObjectOut]
  rw [hreq, hdesc, hap]
  apply jeqObj_pointwise
  · exact keysNodupB_mkObjectOutFields stp sps
  · simp only [List.append_assoc, List.cons_append, List.nil_append]
    refine List.Forall₂.cons ⟨rfl, by simp [jeqB]⟩ ?_
    refine List.Forall₂.cons ⟨rfl, jeqObj_pointwise sps sps2 hnd hfa⟩ ?_
    apply forall2_jeq_refl
    intro q hq
    rcases List.mem_append.mp hq with hq1 | hq23
    · exact chunkPresent_refl stp "required" hndstp q hq1
    · rcases List.mem_append.mp hq23 with hq2 | hq3
      · exact chunkTruthy_refl stp "description" hndstp q hq2
      · exact chunkPresent_refl stp "additionalProperties" hndstp q hq3

theorem jsGet_mkArrayOut_type (stp items2 : Json) :
    jsGet (mkArrayOut stp items2) "type" = some (.str "array") := rfl

theorem jsGet_mkArrayOut_items (stp items2 : Json) :
    jsGet (mkArrayOut stp items2) "items" = some items2 := rfl

theorem jsGet_mkArrayOut_desc (stp items2 : Json) :
    jsGet (mkArrayOut stp items2) "description"
      = if truthyO (jsGet stp "description")
        then some ((jsGet stp "description").getD .null) else none := by
  show lookupF _ "description" = _
  simp only [mkArrayOut, List.append_assoc, List.cons_append, List.nil_append]
  rw [lookupF, if_neg (by decide)]
  rw [lookupF, if_neg (by decide)]
  exact lookupF_chunkTruthy_self _ _

theorem jsGet_mkArrayOut_other (stp items2 : Json) (k : String)
    (h1 : ("type" == k) = false) (h2 : ("items" == k) = false)
    (h3 : ("description" == k) = false) :
    jsGet (mkArrayOut stp items2) k = none := by
  show lookupF _ k = _
  simp only [mkArrayOut, List.append_assoc, List.cons_append, List.nil_append]
  rw [lookupF, if_neg (by simp [h1])]
  rw [lookupF, if_neg (by simp [h2])]
  exact lookupF_chunkTruthy_ne _ _ _ h3

theorem keysNodupB_mkArrayOutFields (stp items2 : Json) :
    keysNodupB ([("type", Json.str "array"), ("items", items2)]
      ++ chunkTruthy "description" (jsGet stp "description")) = true := by
  cases hd : truthyO (jsGet stp "description") <;>
    simp [chunkTruthy, hd, keysNodupB, hasKeyF, lookupF]

theorem jeqB_mkArrayOut (stp stq items2 items2b : Json)
    (hdesc : chunkTruthy "description" (jsGet stq "description")
      = chunkTruthy "description" (jsGet stp "description"))
    (hndstp : nodupDeep stp = true)
    (hj : jeqB items2 items2b = true) :
    jeqB (mkArrayOut stp items2) (mkArrayOut stq items2b) = true := by
  simp only [mkArrayOut]
  rw [hdesc]
  apply jeqObj_pointwise
  · exact keysNodupB_mkArrayOutFields stp items2
  · simp only [List.append_assoc, List.cons_append, List.nil_append]
    refine List.Forall₂.cons ⟨rfl, by simp [jeqB]⟩ ?_
    refine List.Forall₂.cons ⟨rfl, hj⟩ ?_
    apply forall2_jeq_refl
    intro q hq
    exact chunkTruthy_refl stp "description" hndstp q hq

theorem lookupF_primBase_enum (stp : Json) :
    lookupF (primBase stp) "enum" =
      (if truthyO (jsGet stp "enum") then some ((jsGet stp "enum").getD .null) else none) := by
  simp only [primBase, List.append_assoc]
  rw [lookupF_append_chunkT_ne _ _ _ _ (by decide)]
  rw [lookupF_append_chunkT_self _ _ _ (by
    rw [lookupF_append_chunkP_ne _ _ _ _ (by decide)]
    rw [lookupF_append_chunkT_ne _ _ _ _ (by decide)]
    exact lookupF_chunkPresent_ne _ _ _ (by decide))]

theorem lookupF_primBase_const (stp : Json) :
    lookupF (primBase stp) "const" = jsGet stp "const" := by
  simp only [primBase, List.append_assoc]
  rw [lookupF_append_chunkT_ne _ _ _ _ (by decide)]
  rw [lookupF_append_chunkT_ne _ _ _ _ (by decide)]
  rw [lookupF_append_chunkP_self _ _ _ (by
    rw [lookupF_append_chunkT_ne _ _ _ _ (by decide)]
    exact lookupF_chunkPresent_ne _ _ _ (by decide))]

theorem lookupF_primBase_desc (stp : Json) :
    lookupF (primBase stp) "description" =
      (if truthyO (jsGet stp "description")
       then some ((jsGet stp "description").getD .null) else none) := by
  simp only [primBase, List.append_assoc]
  rw [lookupF_append_chunkT_ne _ _ _ _ (by decide)]
  rw [lookupF_append_chunkT_ne _ _ _ _ (by decide)]
  rw [lookupF_append_chunkP_ne _ _ _ _ (by decide)]
  rw [lookupF_append_chunkT_self _ _ _ (lookupF_chunkPresent_ne _ _ _ (by decide))]

theorem lookupF_primBase_default (stp : Json) :
    lookupF (primBase stp) "default" = jsGet stp "default" := by
  simp only [primBase, List.append_assoc]
  rw [lookupF_append_chunkT_ne _ _ _ _ (by decide)]
  rw [lookupF_append_chunkT_ne _ _ _ _ (by decide)]
  rw [lookupF_append_chunkP_ne _ _ _ _ (by decide)]
  rw [lookupF_append_chunkT_ne _ _ _ _ (by decide)]
  exact lookupF_chunkPresent_self _ _

theorem lookupF_primBase_other (stp : Json) (k : String)
    (h1 : ("type" == k) = false) (h2 : ("enum" == k) = false)
    (h3 : ("const" == k) = false) (h4 : ("description" == k) = false)
    (h5 : ("default" == k) = false) :
    lookupF (primBase stp) k = none := by
  simp only [primBase, List.append_assoc]
  rw [lookupF_append_chunkT_ne _ _ _ _ h1]
  rw [lookupF_append_chunkT_ne _ _ _ _ h2]
  rw [lookupF_append_chunkP_ne _ _ _ _ h3]
  rw [lookupF_append_chunkT_ne _ _ _ _ h4]
  exact lookupF_chunkPresent_ne _ _ _ h5

theorem lookupF_append_singleton_ne (fs : List (String × Json)) (k1 : String) (z : Json)
    (k : String) (h : (k1 == k) = false) :
    lookupF (fs ++ [(k1, z)]) k = lookupF fs k := by
  rw [lookupF_append]
  cases hl : lookupF fs k <;> simp [lookupF, h]

theorem nodupDeepF_of_forall (fs : List (String × Json))
    (h : ∀ p ∈ fs, nodupDeep p.2 = true) : nodupDeepF fs = true := by
  induction fs with
  | nil => rfl
  | cons p rest ih =>
    obtain ⟨k, v⟩ := p
    simp only [nodupDeepF, Bool.and_eq_true]
    exact ⟨h (k, v) (List.mem_cons_self _ _), ih (fun q hq => h q (List.mem_cons_of_mem _ hq))⟩

theorem mem_primBase_val (stp : Json) (q : String × Json) (hq : q ∈ primBase stp) :
    ∃ k, jsGet stp k = some q.2 := by
  simp only [primBase, List.append_assoc] at hq
  rcases List.mem_append.mp hq with h1 | hq
  · obtain ⟨hv, ht⟩ := mem_chunkTruthy_val q _ _ h1
    cases hg : jsGet stp "type" with
    | none => rw [hg] at ht; exact Bool.noConfusion ht
    | some v =>
      rw [hg] at hv
      simp only [Option.getD_some] at hv
      exact ⟨"type", by rw [hg, hv]⟩
  rcases List.mem_append.mp hq with h1 | hq
  · obtain ⟨hv, ht⟩ := mem_chunkTruthy_val q _ _ h1
    cases hg : jsGet stp "enum" with
    | none => rw [hg] at ht; exact Bool.noConfusion ht
    | some v =>
      rw [hg] at hv
      simp only [Option.getD_some] at hv
      exact ⟨"enum", by rw [hg, hv]⟩
  rcases List.mem_append.mp hq with h1 | hq
  · exact ⟨"const", (mem_chunkPresent_val q _ _ h1).symm ▸ rfl⟩
  rcases List.mem_append.mp hq with h1 | h1
  · obtain ⟨hv, ht⟩ := mem_chunkTruthy_val q _ _ h1
    cases hg : jsGet stp "description" with
    | none => rw [hg] at ht; exact Bool.noConfusion ht
    | some v =>
      rw [hg] at hv
      simp only [Option.getD_some] at hv
      exact ⟨"description", by rw [hg, hv]⟩
  · exact ⟨"default", (mem_chunkPresent_val q _ _ h1).symm ▸ rfl⟩

theorem primBase_values_nodup (stp : Json) (hnd : nodupDeep stp = true) :
    ∀ q ∈ primBase stp, nodupDeep q.2 = true := by
  intro q hq
  obtain ⟨k, hk⟩ := mem_primBase_val stp q hq
  exact nodupDeep_jsGet stp k q.2 hnd hk

theorem primBase_values_refl (stp : Json) (hnd : nodupDeep stp = true) :
    ∀ q ∈ primBase stp, jeqB q.2 q.2 = true := by
  intro q hq
  exact jeqB_refl q.2 (primBase_values_nodup stp hnd q hq)

theorem keysNodupB_primBase (stp : Json) : keysNodupB (primBase stp) = true := by
  simp only [primBase, List.append_assoc]
  cases h1 : truthyO (jsGet stp "type") <;>
    cases h2 : truthyO (jsGet stp "enum") <;>
      cases h3 : jsGet stp "const" <;>
        cases h4 : truthyO (jsGet stp "description") <;>
          cases h5 : jsGet stp "default" <;>
            simp [chunkPresent, chunkTruthy, h1, h2, h4, keysNodupB, hasKeyF, lookupF]

theorem jsGet_obj (fs : List (String × Json)) (k : String) :
    jsGet (.obj fs) k = lookupF fs k := rfl

theorem hasKeyF_chunkT_ne (k1 k : String) (o : Option Json) (h : (k1 == k) = false) :
    hasKeyF (chunkTruthy k1 o) k = false := by
  rw [hasKeyF, lookupF_chunkTruthy_ne _ _ _ h]
  rfl

theorem hasKeyF_chunkP_ne (k1 k : String) (o : Option Json) (h : (k1 == k) = false) :
    hasKeyF (chunkPresent k1 o) k = false := by
  rw [hasKeyF, lookupF_chunkPresent_ne _ _ _ h]
  rfl

theorem primBase_ne_nil_type (stp : Json) (ht : truthyO (jsGet stp "type") = true) :
    (primBase stp).isEmpty = false := by
  simp only [primBase]
  rw [show chunkTruthy "type" (jsGet stp "type")
      = [("type", (jsGet stp "type").getD .null)] from by
    unfold chunkTruthy
    rw [if_pos ht]]
  rfl

theorem primBase_ne_nil_enum (stp : Json) (he : truthyO (jsGet stp "enum") = true) :
    (primBase stp).isEmpty = false := by
  simp only [primBase]
  rw [show chunkTruthy "enum" (jsGet stp "enum")
      = [("enum", (jsGet stp "enum").getD .null)] from by
    unfold chunkTruthy
    rw [if_pos he]]
  cases htx : truthyO (jsGet stp "type")
  · rw [show chunkTruthy "type" (jsGet stp "type") = [] from by
      unfold chunkTruthy
      rw [if_neg (by rw [htx]; simp)]]
    rfl
  · rw [show chunkTruthy "type" (jsGet stp "type")
        = [("type", (jsGet stp "type").getD .null)] from by
      unfold chunkTruthy
      rw [if_pos htx]]
    rfl

theorem primitiveOut_eqA (stp : Json) (ht : truthyO (jsGet stp "type") = true) :
    primitiveOut stp = .obj (primBase stp) := by
  simp only [primitiveOut]
  rw [ht]
  show (if (primBase stp).isEmpty = true then Json.obj [("type", Json.str "object")]
    else Json.obj (primBase stp)) = Json.obj (primBase stp)
  rw [primBase_ne_nil_type stp ht]
  rfl

theorem primitiveOut_eq_noinf (stp : Json)
    (hcond : (!truthyO (jsGet stp "type") && truthyO (jsGet stp "enum")
      && !(enumLen ((jsGet stp "enum").getD .null) == 0)) = false) :
    primitiveOut stp = if (primBase stp).isEmpty
      then .obj [("type", .str "object")] else .obj (primBase stp) := by
  simp only [primitiveOut]
  rw [hcond]
  rfl

theorem primitiveOut_eq_tagnone (stp : Json)
    (ht : truthyO (jsGet stp "type") = false)
    (he : truthyO (jsGet stp "enum") = true)
    (hlen : (enumLen ((jsGet stp "enum").getD .null) == 0) = false)
    (htag : inferredTypeTag ((jsGet stp "enum").getD .null) = none) :
    primitiveOut stp = .obj (primBase stp) := by
  simp only [primitiveOut]
  rw [ht, he, hlen, htag]
  show (if (primBase stp).isEmpty = true then Json.obj [("type", Json.str "object")]
    else Json.obj (primBase stp)) = Json.obj (primBase stp)
  rw [primBase_ne_nil_enum stp he]
  rfl

theorem primitiveOut_eq_tag (stp : Json) (tg : String)
    (ht : truthyO (jsGet stp "type") = false)
    (he : truthyO (jsGet stp "enum") = true)
    (hlen : (enumLen ((jsGet stp "enum").getD .null) == 0) = false)
    (htag : inferredTypeTag ((jsGet stp "enum").getD .null) = some tg) :
    primitiveOut stp = .obj (primBase stp ++ [("type", .str tg)]) := by
  simp only [primitiveOut]
  rw [ht, he, hlen, htag]
  show (if (primBase stp ++ [("type", Json.str tg)]).isEmpty = true
    then Json.obj [("type", Json.str "object")]
    else Json.obj (primBase stp ++ [("type", Json.str tg)]))
    = Json.obj (primBase stp ++ [("type", Json.str tg)])
  rw [show (primBase stp ++ [("type", Json.str tg)]).isEmpty = false from by
    cases hpb : primBase stp <;> rfl]
  rfl

theorem primBase_round (stp : Json) :
    primBase (.obj (primBase stp)) = primBase stp := by
  show chunkTruthy "type" (jsGet (Json.obj (primBase stp)) "type")
      ++ chunkTruthy "enum" (jsGet (Json.obj (primBase stp)) "enum")
      ++ chunkPresent "const" (jsGet (Json.obj (primBase stp)) "const")
      ++ chunkTruthy "description" (jsGet (Json.obj (primBase stp)) "description")
      ++ chunkPresent "default" (jsGet (Json.obj (primBase stp)) "default")
      = primBase stp
  rw [jsGet_obj, jsGet_obj, jsGet_obj, jsGet_obj, jsGet_obj]
  rw [lookupF_primBase_type, lookupF_primBase_enum, lookupF_primBase_const,
    lookupF_primBase_desc, lookupF_primBase_default]
  rw [chunkTruthy_round, chunkTruthy_round, chunkTruthy_round]
  rfl

theorem primCond_round (stp : Json) :
    (!truthyO (jsGet (.obj (primBase stp)) "type")
      && truthyO (jsGet (.obj (primBase stp)) "enum")
      && !(enumLen ((jsGet (.obj (primBase stp)) "enum").getD .null) == 0))
    = (!truthyO (jsGet stp "type") && truthyO (jsGet stp "enum")
      && !(enumLen ((jsGet stp "enum").getD .null) == 0)) := by
  rw [jsGet_obj, jsGet_obj]
  rw [lookupF_primBase_type, lookupF_primBase_enum]
  rw [truthyO_round, truthyO_round, getD_round]
  cases he : truthyO (jsGet stp "enum") <;> simp

theorem jsGet_primBase_enum_getD (stp : Json) (he : truthyO (jsGet stp "enum") = true) :
    (jsGet (.obj (primBase stp)) "enum").getD .null = (jsGet stp "enum").getD .null := by
  rw [jsGet_obj, lookupF_primBase_enum, getD_round, if_pos he]

theorem inferredTypeTag_cases (e : Json) (tg : String) (h : inferredTypeTag e = some tg) :
    tg = "string" ∨ tg = "number" ∨ tg = "boolean" := by
  unfold inferredTypeTag at h
  split at h
  · rw [Option.some_inj] at h
    exact Or.inl h.symm
  · rw [Option.some_inj] at h
    exact Or.inr (Or.inl h.symm)
  · rw [Option.some_inj] at h
    exact Or.inr (Or.inr h.symm)
  · exact Option.noConfusion h

theorem nodupDeep_primBaseObj (stp : Json) (hnd : nodupDeep stp = true) :
    nodupDeep (.obj (primBase stp)) = true := by
  simp only [nodupDeep, Bool.and_eq_true]
  exact ⟨keysNodupB_primBase stp, nodupDeepF_of_forall _ (primBase_values_nodup stp hnd)⟩

theorem prim_pass2 (recSimp : Json → Nat → Nat → Option Json → Option Json)
    (stp : Json) (md d : Nat) (dfs2 : Option Json)
    (hdm : ¬ d > md) (hTna : typeNotArrB stp = true) :
    simplifyCore recSimp (primitiveOut stp) md d dfs2
      = some (primitiveOut (primitiveOut stp)) := by
  rcases primitiveOut_shape stp with h | h | ⟨tg, h⟩
  · rw [h]
    rw [simplifyCore_typeobject recSimp md d dfs2 hdm]
    rfl
  · rw [h]
    apply simplifyCore_primbranch recSimp _ md d dfs2 hdm
    · apply normalizeSchemaType_id
      intro ts hts
      rw [lookupF_primBase_type] at hts
      split at hts
      · rw [Option.some_inj] at hts
        cases hg : jsGet stp "type" with
        | none => rw [hg] at hts; simp at hts
        | some tv =>
          rw [hg] at hts
          simp only [Option.getD_some] at hts
          unfold typeNotArrB at hTna
          rw [hg, hts] at hTna
          exact Bool.noConfusion hTna
      · exact Option.noConfusion hts
    · exact lookupF_primBase_other stp "$ref" (by decide) (by decide) (by decide) (by decide)
        (by decide)
    · exact lookupF_primBase_other stp "anyOf" (by decide) (by decide) (by decide) (by decide)
        (by decide)
    · exact lookupF_primBase_other stp "oneOf" (by decide) (by decide) (by decide) (by decide)
        (by decide)
    · exact lookupF_primBase_other stp "allOf" (by decide) (by decide) (by decide) (by decide)
        (by decide)
    · show truthyO (lookupF (primBase stp) "properties") = false
      rw [lookupF_primBase_other stp "properties" (by decide) (by decide) (by decide) (by decide)
        (by decide)]
      rfl
    · show truthyO (lookupF (primBase stp) "items") = false
      rw [lookupF_primBase_other stp "items" (by decide) (by decide) (by decide) (by decide)
        (by decide)]
      rfl
  · rw [h]
    apply simplifyCore_primbranch recSimp _ md d dfs2 hdm
    · apply normalizeSchemaType_id
      intro ts hts
      rw [lookupF_append] at hts
      cases hl : lookupF (primBase stp) "type" with
      | none =>
        rw [hl] at hts
        simp [lookupF] at hts
      | some v =>
        rw [hl] at hts
        have hv : v = Json.arr ts := Option.some_inj.mp hts
        subst hv
        rw [lookupF_primBase_type] at hl
        split at hl
        · rw [Option.some_inj] at hl
          cases hg : jsGet stp "type" with
          | none => rw [hg] at hl; simp at hl
          | some tv =>
            rw [hg] at hl
            simp only [Option.getD_some] at hl
            unfold typeNotArrB at hTna
            rw [hg, hl] at hTna
            exact Bool.noConfusion hTna
        · exact Option.noConfusion hl
    · show lookupF _ "$ref" = none
      rw [lookupF_append_singleton_ne _ _ _ _ (by decide)]
      exact lookupF_primBase_other stp "$ref" (by decide) (by decide) (by decide) (by decide)
        (by decide)
    · show lookupF _ "anyOf" = none
      rw [lookupF_append_singleton_ne _ _ _ _ (by decide)]
      exact lookupF_primBase_other stp "anyOf" (by decide) (by decide) (by decide) (by decide)
        (by decide)
    · show lookupF _ "oneOf" = none
      rw [lookupF_append_singleton_ne _ _ _ _ (by decide)]
      exact lookupF_primBase_other stp "oneOf" (by decide) (by decide) (by decide) (by decide)
        (by decide)
    · show lookupF _ "allOf" = none
      rw [lookupF_append_singleton_ne _ _ _ _ (by decide)]
      exact lookupF_primBase_other stp "allOf" (by decide) (by decide) (by decide) (by decide)
        (by decide)
    · show truthyO (lookupF _ "properties") = false
      rw [lookupF_append_singleton_ne _ _ _ _ (by decide)]
      rw [lookupF_primBase_other stp "properties" (by decide) (by decide) (by decide) (by decide)
        (by decide)]
      rfl
    · show truthyO (lookupF _ "items") = false
      rw [lookupF_append_singleton_ne _ _ _ _ (by decide)]
      rw [lookupF_primBase_other stp "items" (by decide) (by decide) (by decide) (by decide)
        (by decide)]
      rfl

theorem prim_jeq_samePB (stp : Json) (hnd : nodupDeep stp = true)
    (hout2 : primitiveOut (.obj (primBase stp)) = .obj (primBase (.obj (primBase stp)))) :
    jeqB (.obj (primBase stp)) (primitiveOut (.obj (primBase stp))) = true := by
  rw [hout2, primBase_round]
  exact jeqB_refl _ (nodupDeep_primBaseObj stp hnd)

theorem prim_jeq (stp : Json) (hnd : nodupDeep stp = true) :
    jeqB (primitiveOut stp) (primitiveOut (primitiveOut stp)) = true := by
  cases ht : truthyO (jsGet stp "type") with
  | true =>
    rw [primitiveOut_eqA stp ht]
    apply prim_jeq_samePB stp hnd
    apply primitiveOut_eqA
    rw [jsGet_obj, lookupF_primBase_type, truthyO_round]
    exact ht
  | false =>
    cases he : truthyO (jsGet stp "enum") with
    | false =>
      have hcond : (!truthyO (jsGet stp "type") && truthyO (jsGet stp "enum")
          && !(enumLen ((jsGet stp "enum").getD .null) == 0)) = false := by
        rw [he]
        simp
      have hcond2 : (!truthyO (jsGet (.obj (primBase stp)) "type")
          && truthyO (jsGet (.obj (primBase stp)) "enum")
          && !(enumLen ((jsGet (.obj (primBase stp)) "enum").getD .null) == 0)) = false :=
        (primCond_round stp).trans hcond
      rw [primitiveOut_eq_noinf stp hcond]
      cases hfe : (primBase stp).isEmpty with
      | true =>
        rw [if_pos rfl]
        rfl
      | false =>
        simp only [Bool.false_eq_true, if_false]
        have hout2 : primitiveOut (.obj (primBase stp))
            = .obj (primBase (.obj (primBase stp))) := by
          rw [primitiveOut_eq_noinf _ hcond2, primBase_round, hfe]
          rfl
        exact prim_jeq_samePB stp hnd hout2
    | true =>
      cases hlen : (enumLen ((jsGet stp "enum").getD .null) == 0) with
      | true =>
        have hcond : (!truthyO (jsGet stp "type") && truthyO (jsGet stp "enum")
            && !(enumLen ((jsGet stp "enum").getD .null) == 0)) = false := by
          rw [ht, he, hlen]
          rfl
        have hcond2 : (!truthyO (jsGet (.obj (primBase stp)) "type")
            && truthyO (jsGet (.obj (primBase stp)) "enum")
            && !(enumLen ((jsGet (.obj (primBase stp)) "enum").getD .null) == 0)) = false :=
          (primCond_round stp).trans hcond
        rw [primitiveOut_eq_noinf stp hcond]
        rw [primBase_ne_nil_enum stp he]
        simp only [Bool.false_eq_true, if_false]
        have hout2 : primitiveOut (.obj (primBase stp))
            = .obj (primBase (.obj (primBase stp))) := by
          rw [primitiveOut_eq_noinf _ hcond2, primBase_round, primBase_ne_nil_enum stp he]
          rfl
        exact prim_jeq_samePB stp hnd hout2
      | false =>
        cases htag : inferredTypeTag ((jsGet stp "enum").getD .null) with
        | none =>
          rw [primitiveOut_eq_tagnone stp ht he hlen htag]
          have he2 : truthyO (jsGet (.obj (primBase stp)) "enum") = true := by
            rw [jsGet_obj, lookupF_primBase_enum, truthyO_round]
            exact he
          have ht2 : truthyO (jsGet (.obj (primBase stp)) "type") = false := by
            rw [jsGet_obj, lookupF_primBase_type, truthyO_round]
            exact ht
          have hget2 := jsGet_primBase_enum_getD stp he
          have hout2 : primitiveOut (.obj (primBase stp))
              = .obj (primBase (.obj (primBase stp))) :=
            primitiveOut_eq_tagnone _ ht2 he2 (by rw [hget2]; exact hlen)
              (by rw [hget2]; exact htag)
          exact prim_jeq_samePB stp hnd hout2
        | some tg =>
          rw [primitiveOut_eq_tag stp tg ht he hlen htag]
          have htOut : truthyO
              (jsGet (.obj (primBase stp ++ [("type", Json.str tg)])) "type") = true := by
            rw [jsGet_obj, lookupF_append, lookupF_primBase_type, ht]
            rcases inferredTypeTag_cases _ tg htag with rfl | rfl | rfl <;> rfl
          rw [primitiveOut_eqA _ htOut]
          have hpb : primBase (.obj (primBase stp ++ [("type", Json.str tg)]))
              = ("type", Json.str tg) :: (chunkTruthy "enum" (jsGet stp "enum")
                 ++ (chunkPresent "const" (jsGet stp "const")
                 ++ (chunkTruthy "description" (jsGet stp "description")
                 ++ chunkPresent "default" (jsGet stp "default")))) := by
            show chunkTruthy "type"
                (jsGet (Json.obj (primBase stp ++ [("type", Json.str tg)])) "type")
                ++ chunkTruthy "enum"
                  (jsGet (Json.obj (primBase stp ++ [("type", Json.str tg)])) "enum")
                ++ chunkPresent "const"
                  (jsGet (Json.obj (primBase stp ++ [("type", Json.str tg)])) "const")
                ++ chunkTruthy "description"
                  (jsGet (Json.obj (primBase stp ++ [("type", Json.str tg)])) "description")
                ++ chunkPresent "default"
                  (jsGet (Json.obj (primBase stp ++ [("type", Json.str tg)])) "default")
                = _
            rw [jsGet_obj, jsGet_obj, jsGet_obj, jsGet_obj, jsGet_obj]
            rw [show lookupF (primBase stp ++ [("type", Json.str tg)]) "type"
                = some (Json.str tg) from by
              rw [lookupF_append, lookupF_primBase_type, ht]
              rfl]
            rw [lookupF_append_singleton_ne _ _ _ _ (by decide)]
            rw [lookupF_append_singleton_ne _ _ _ _ (by decide)]
            rw [lookupF_append_singleton_ne _ _ _ _ (by decide)]
            rw [lookupF_append_singleton_ne _ _ _ _ (by decide)]
            rw [lookupF_primBase_enum, lookupF_primBase_const, lookupF_primBase_desc,
              lookupF_primBase_default]
            rw [chunkTruthy_round, chunkTruthy_round]
            rw [show chunkTruthy "type" (some (Json.str tg)) = [("type", Json.str tg)] from by
              unfold chunkTruthy
              rw [if_pos (by
                rcases inferredTypeTag_cases _ tg htag with rfl | rfl | rfl <;> rfl)]
              rfl]
            simp [List.append_assoc]
          rw [hpb]
          have hpb1 : primBase stp = chunkTruthy "enum" (jsGet stp "enum")
              ++ (chunkPresent "const" (jsGet stp "const")
              ++ (chunkTruthy "description" (jsGet stp "description")
              ++ chunkPresent "default" (jsGet stp "default"))) := by
            simp only [primBase]
            rw [show chunkTruthy "type" (jsGet stp "type") = [] from by
              unfold chunkTruthy
              rw [if_neg (by rw [ht]; simp)]]
            simp [List.append_assoc]
          rw [hpb1]
          apply jeqObj_rot
          · rw [hasKeyF_append, hasKeyF_append, hasKeyF_append]
            rw [hasKeyF_chunkT_ne _ _ _ (by decide), hasKeyF_chunkP_ne _ _ _ (by decide),
              hasKeyF_chunkT_ne _ _ _ (by decide), hasKeyF_chunkP_ne _ _ _ (by decide)]
            rfl
          · rw [← hpb1]
            exact keysNodupB_primBase stp
          · intro q hq
            apply primBase_values_refl stp hnd
            rw [hpb1]
            exact hq
          · simp [jeqB]

theorem simplifyProps_forall2 (recSimp : Json → Nat → Nat → Option Json → Option Json)
    (md d : Nat) (defs : Json) :
    ∀ (ps sps : List (String × Json)),
      simplifyProps recSimp md d defs ps = some sps →
      List.Forall₂ (fun p q => p.1 = q.1 ∧ recSimp p.2 md d (some defs) = some q.2) ps sps := by
  intro ps
  induction ps with
  | nil =>
    intro sps h
    simp only [simplifyProps, Option.some_inj] at h
    subst h
    exact List.Forall₂.nil
  | cons p rest ih =>
    intro sps h
    obtain ⟨k, v⟩ := p
    simp only [simplifyProps] at h
    split at h
    · exact absurd h (by simp)
    · rename_i v2 hv2
      obtain ⟨rest2, hrest2, rfl⟩ := Option.map_eq_some'.mp h
      exact List.Forall₂.cons ⟨rfl, hv2⟩ (ih rest2 hrest2)

theorem simplifyProps_of_pointwise (recSimp : Json → Nat → Nat → Option Json → Option Json)
    (md d : Nat) (defs2 : Json) :
    ∀ (sps : List (String × Json)),
      (∀ p ∈ sps, ∃ v2, recSimp p.2 md d (some defs2) = some v2 ∧ jeqB p.2 v2 = true) →
      ∃ sps2, simplifyProps recSimp md d defs2 sps = some sps2
        ∧ List.Forall₂ (fun p q => p.1 = q.1 ∧ jeqB p.2 q.2 = true) sps sps2 := by
  intro sps
  induction sps with
  | nil => intro _; exact ⟨[], rfl, List.Forall₂.nil⟩
  | cons p rest ih =>
    intro h
    obtain ⟨k, v⟩ := p
    obtain ⟨v2, hv2, hj⟩ := h (k, v) (List.mem_cons_self _ _)
    obtain ⟨rest2, hrest2, hfa⟩ := ih (fun q hq => h q (List.mem_cons_of_mem _ hq))
    refine ⟨(k, v2) :: rest2, ?_, List.Forall₂.cons ⟨rfl, hj⟩ hfa⟩
    simp only [simplifyProps, hv2, hrest2, Option.map_some']

theorem hasKeyF_eq_of_forall2K : ∀ {fs gs : List (String × Json)},
    List.Forall₂ (fun p q => p.1 = q.1) fs gs →
    ∀ k, hasKeyF fs k = hasKeyF gs k := by
  intro fs gs h
  induction h with
  | nil => intro k; rfl
  | cons hR htail ih =>
    rename_i p0 q0 fs2 gs2
    intro k
    obtain ⟨k0, v0⟩ := p0
    obtain ⟨q1, q2⟩ := q0
    simp only at hR
    subst hR
    rw [hasKeyF_cons, hasKeyF_cons, ih k]

theorem keysNodupB_transfer : ∀ {fs gs : List (String × Json)},
    List.Forall₂ (fun p q => p.1 = q.1) fs gs →
    keysNodupB fs = true → keysNodupB gs = true := by
  intro fs gs h
  induction h with
  | nil => intro _; rfl
  | cons hR htail ih =>
    rename_i p0 q0 fs2 gs2
    intro hnd
    obtain ⟨k0, v0⟩ := p0
    obtain ⟨q1, q2⟩ := q0
    simp only at hR
    subst hR
    simp only [keysNodupB, Bool.and_eq_true, Bool.not_eq_true'] at hnd ⊢
    rw [← hasKeyF_eq_of_forall2K htail]
    exact ⟨hnd.1, ih hnd.2⟩

theorem simplifyCore_nullv (recSimp : Json → Nat → Nat → Option Json → Option Json)
    (md d : Nat) (dfs : Option Json) :
    simplifyCore recSimp .null md d dfs =
      if d > md then some fallbackSchema else some (.obj [("type", .str "object")]) := by
  by_cases hdm : d > md
  · rw [if_pos hdm]
    exact simplifyCore_depth recSimp _ md d dfs hdm
  · rw [if_neg hdm]
    exact (simplifyCore_primbranch recSimp Json.null md d dfs hdm rfl rfl rfl rfl rfl rfl
      rfl).trans (by rfl)

theorem simplifyCore_idem (recSimp : Json → Nat → Nat → Option Json → Option Json)
    (hrecObj : ∀ s md2 d2 dfs o, recSimp s md2 d2 dfs = some o → ∃ fs2, o = Json.obj fs2)
    (hrecIdem : ∀ s md2 d2 dfs o, idemOK s = true → recSimp s md2 d2 dfs = some o →
      ∀ dfsb, ∃ o2, recSimp o md2 d2 dfsb = some o2 ∧ jeqB o o2 = true)
    (S : Json) (md d : Nat) (dfsO : Option Json) (out : Json)
    (hok : idemOK S = true)
    (h : simplifyCore recSimp S md d dfsO = some out) :
    ∀ dfs2, ∃ out2, simplifyCore recSimp out md d dfs2 = some out2 ∧ jeqB out out2 = true := by
  intro dfs2
  by_cases hdm : d > md
  · rw [simplifyCore_depth recSimp S md d dfsO hdm, Option.some_inj] at h
    subst h
    exact ⟨fallbackSchema, simplifyCore_depth recSimp _ md d dfs2 hdm, by rfl⟩
  · cases S with
    | null =>
      rw [simplifyCore_nullv recSimp md d dfsO, if_neg hdm, Option.some_inj] at h
      subst h
      exact ⟨_, simplifyCore_typeobject recSimp md d dfs2 hdm, by rfl⟩
    | bool b =>
      rw [simplifyCore_bool recSimp b md d dfsO, if_neg hdm, Option.some_inj] at h
      subst h
      exact ⟨_, simplifyCore_typeobject recSimp md d dfs2 hdm, by rfl⟩
    | num n =>
      rw [simplifyCore_num recSimp n md d dfsO, if_neg hdm, Option.some_inj] at h
      subst h
      exact ⟨_, simplifyCore_typeobject recSimp md d dfs2 hdm, by rfl⟩
    | str s =>
      rw [simplifyCore_str recSimp s md d dfsO, if_neg hdm, Option.some_inj] at h
      subst h
      exact ⟨_, simplifyCore_typeobject recSimp md d dfs2 hdm, by rfl⟩
    | arr xs =>
      rw [simplifyCore_arrv recSimp xs md d dfsO, if_neg hdm, Option.some_inj] at h
      subst h
      exact ⟨_, simplifyCore_typeobject recSimp md d dfs2 hdm, by rfl⟩
    | obj fs =>
      obtain ⟨h1, h2, h3, h4, h5, h6, h7⟩ := idemOK_parts _ hok
      have htop : ∀ key, hasKeyDeep key (Json.obj fs) = false → lookupF fs key = none := by
        intro key hk
        simp only [hasKeyDeep, Bool.or_eq_false_iff] at hk
        have hk1 := hk.1
        rw [hasKeyF] at hk1
        cases hl : lookupF fs key
        · rfl
        · rw [hl] at hk1
          exact Bool.noConfusion hk1
      have href : jsGet (normalizeSchemaType (Json.obj fs)) "$ref" = none := by
        rw [jsGet_normalizeSchemaType_other _ _ (by decide)]
        exact htop _ h1
      have hao : jsGet (normalizeSchemaType (Json.obj fs)) "anyOf" = none := by
        rw [jsGet_normalizeSchemaType_other _ _ (by decide)]
        exact htop _ h2
      have hoo : jsGet (normalizeSchemaType (Json.obj fs)) "oneOf" = none := by
        rw [jsGet_normalizeSchemaType_other _ _ (by decide)]
        exact htop _ h3
      have hallo : jsGet (normalizeSchemaType (Json.obj fs)) "allOf" = none := by
        rw [jsGet_normalizeSchemaType_other _ _ (by decide)]
        exact htop _ h4
      have hstpn : nodupDeep (normalizeSchemaType (Json.obj fs)) = true :=
        nodupDeep_normalizeSchemaType _ h5 h6
      have hTna : typeNotArrB (normalizeSchemaType (Json.obj fs)) = true :=
        typeNotArrB_normalizeSchemaType _ h5
      simp only [simplifyCore] at h
      rw [if_neg hdm, href] at h
      rw [if_neg (by simp [truthyO])] at h
      rw [hao, hoo] at h
      rw [if_neg (by simp [truthyO])] at h
      rw [hallo] at h
      rw [if_neg (by simp [truthyO])] at h
      by_cases hobj : (typeIs (normalizeSchemaType (Json.obj fs)) "object"
          && truthyO (jsGet (normalizeSchemaType (Json.obj fs)) "properties")) = true
      · rw [if_pos hobj] at h
        have hprops : ∃ ps, jsGet (normalizeSchemaType (Json.obj fs)) "properties"
            = some (.obj ps) := by
          simp only [Bool.and_eq_true] at hobj
          have htr := hobj.2
          rw [jsGet_normalizeSchemaType_other _ _ (by decide)] at htr
          simp only [propsObjDeep, Bool.and_eq_true] at h7
          have h7top := h7.1
          cases hl : lookupF fs "properties" with
          | none =>
            rw [show jsGet (Json.obj fs) "properties" = lookupF fs "properties" from rfl,
              hl] at htr
            exact absurd htr (by simp [truthyO])
          | some pv =>
            cases pv with
            | obj ps =>
              refine ⟨ps, ?_⟩
              rw [jsGet_normalizeSchemaType_other _ _ (by decide)]
              exact hl
            | null => rw [hl] at h7top; exact Bool.noConfusion h7top
            | bool b2 => rw [hl] at h7top; exact Bool.noConfusion h7top
            | num n2 => rw [hl] at h7top; exact Bool.noConfusion h7top
            | str s2 => rw [hl] at h7top; exact Bool.noConfusion h7top
            | arr xs2 => rw [hl] at h7top; exact Bool.noConfusion h7top
        obtain ⟨ps, hprops⟩ := hprops
        rw [hprops] at h
        rw [show jsEntries ((some (Json.obj ps)).getD Json.null) = ps from rfl] at h
        split at h
        · rename_i sps hsp
          rw [Option.some_inj] at h
          subst h
          have hSprops : jsGet (Json.obj fs) "properties" = some (Json.obj ps) := by
            rw [← jsGet_normalizeSchemaType_other (Json.obj fs) "properties" (by decide)]
            exact hprops
          have hobjps : idemOK (Json.obj ps) = true :=
            idemOK_jsGet (Json.obj fs) "properties" _ hok hSprops
          have hndps : keysNodupB ps = true := by
            have := (idemOK_parts _ hobjps).2.2.2.2.2.1
            simp only [nodupDeep, Bool.and_eq_true] at this
            exact this.1
          have hfa1 := simplifyProps_forall2 recSimp md (d + 1) _ ps sps hsp
          have hpointwise : ∀ q ∈ sps, ∃ v2,
              recSimp q.2 md (d + 1) (some (collectDefs dfs2
                (mkObjectOut (normalizeSchemaType (Json.obj fs)) sps))) = some v2
              ∧ jeqB q.2 v2 = true := by
            intro q hq
            obtain ⟨p, hp, hk, hrec1⟩ := forall2_mem_right hfa1 q hq
            have hpok : idemOK p.2 = true :=
              idemOK_fieldsMem ps hobjps p.1 p.2 (by simpa using hp)
            exact hrecIdem p.2 md (d + 1) _ q.2 hpok hrec1 _
          obtain ⟨sps2, hsp2, hfa2⟩ :=
            simplifyProps_of_pointwise recSimp md (d + 1) _ sps hpointwise
          refine ⟨mkObjectOut (mkObjectOut (normalizeSchemaType (Json.obj fs)) sps) sps2,
            ?_, ?_⟩
          · apply simplifyCore_objbranch recSimp _ md d dfs2 sps sps2 hdm
            · apply normalizeSchemaType_id
              intro ts hts
              have hcontr : some (Json.str "object") = some (Json.arr ts) :=
                (jsGet_mkObjectOut_type _ _).symm.trans hts
              exact Json.noConfusion (Option.some_inj.mp hcontr)
            · exact jsGet_mkObjectOut_other _ _ "$ref" (by decide) (by decide) (by decide)
                (by decide) (by decide)
            · exact jsGet_mkObjectOut_other _ _ "anyOf" (by decide) (by decide) (by decide)
                (by decide) (by decide)
            · exact jsGet_mkObjectOut_other _ _ "oneOf" (by decide) (by decide) (by decide)
                (by decide) (by decide)
            · exact jsGet_mkObjectOut_other _ _ "allOf" (by decide) (by decide) (by decide)
                (by decide) (by decide)
            · rfl
            · exact jsGet_mkObjectOut_props _ _
            · exact hsp2
          · apply jeqB_mkObjectOut
            · exact jsGet_mkObjectOut_required _ _
            · rw [jsGet_mkObjectOut_desc]
              exact chunkTruthy_round _ _
            · exact jsGet_mkObjectOut_ap _ _
            · exact keysNodupB_transfer (hfa1.imp (fun _ _ hpq => hpq.1)) hndps
            · exact hstpn
            · exact hfa2
        · exact absurd h (by simp)
      · rw [if_neg hobj] at h
        by_cases harr : (typeIs (normalizeSchemaType (Json.obj fs)) "array"
            && truthyO (jsGet (normalizeSchemaType (Json.obj fs)) "items")) = true
        · rw [if_pos harr] at h
          have hitems : ∃ iv, jsGet (normalizeSchemaType (Json.obj fs)) "items" = some iv
              ∧ truthy iv = true := by
            simp only [Bool.and_eq_true] at harr
            have htr := harr.2
            cases hl : jsGet (normalizeSchemaType (Json.obj fs)) "items" with
            | none => rw [hl] at htr; exact absurd htr (by simp [truthyO])
            | some iv => rw [hl] at htr; exact ⟨iv, rfl, htr⟩
          obtain ⟨iv, hiv, hivt⟩ := hitems
          rw [hiv] at h
          rw [show ((some iv).getD Json.null) = iv from rfl] at h
          split at h
          · rename_i its2 hits
            rw [Option.some_inj] at h
            subst h
            have hivok : idemOK iv = true := by
              apply idemOK_jsGet (Json.obj fs) "items" iv hok
              rw [← jsGet_normalizeSchemaType_other (Json.obj fs) "items" (by decide)]
              exact hiv
            obtain ⟨its2b, hits2b, hjits⟩ := hrecIdem iv md (d + 1) _ its2 hivok hits
              (some (collectDefs dfs2 (mkArrayOut (normalizeSchemaType (Json.obj fs)) its2)))
            refine ⟨mkArrayOut (mkArrayOut (normalizeSchemaType (Json.obj fs)) its2) its2b,
              ?_, ?_⟩
            · apply simplifyCore_arrbranch recSimp _ its2 its2b md d dfs2 hdm
              · apply normalizeSchemaType_id
                intro ts hts
                have hcontr : some (Json.str "array") = some (Json.arr ts) :=
                  (jsGet_mkArrayOut_type _ _).symm.trans hts
                exact Json.noConfusion (Option.some_inj.mp hcontr)
              · exact jsGet_mkArrayOut_other _ _ "$ref" (by decide) (by decide) (by decide)
              · exact jsGet_mkArrayOut_other _ _ "anyOf" (by decide) (by decide) (by decide)
              · exact jsGet_mkArrayOut_other _ _ "oneOf" (by decide) (by decide) (by decide)
              · exact jsGet_mkArrayOut_other _ _ "allOf" (by decide) (by decide) (by decide)
              · rw [jsGet_mkArrayOut_other _ _ "properties" (by decide) (by decide)
                  (by decide)]
                rfl
              · rfl
              · exact jsGet_mkArrayOut_items _ _
              · obtain ⟨fs2, hfs2⟩ := hrecObj iv md (d + 1) _ its2 hits
                rw [hfs2]
                rfl
              · exact hits2b
            · apply jeqB_mkArrayOut
              · rw [jsGet_mkArrayOut_desc]
                exact chunkTruthy_round _ _
              · exact hstpn
              · exact hjits
          · exact absurd h (by simp)
        · rw [if_neg harr, Option.some_inj] at h
          subst h
          exact ⟨primitiveOut (primitiveOut (normalizeSchemaType (Json.obj fs))),
            prim_pass2 recSimp _ md d dfs2 hdm hTna, prim_jeq _ hstpn⟩

theorem simplify_idem :
    ∀ fuel S md d dfsO out,
      idemOK S = true →
      simplifySchemaForDatabricks fuel S md d dfsO = some out →
      ∀ dfs2, ∃ out2, simplifySchemaForDatabricks fuel out md d dfs2 = some out2
        ∧ jeqB out out2 = true := by
  intro fuel
  induction fuel with
  | zero =>
    intro S md d dfsO out _ h
    exact absurd h (by simp [simplifySchemaForDatabricks])
  | succ n ih =>
    intro S md d dfsO out hok h dfs2
    have hobj := fun s md2 d2 dfsb o ho => simplify_isObj n s md2 d2 dfsb o ho
    obtain ⟨ofs, rfl⟩ := simplify_isObj (n + 1) S md d dfsO out h
    cases S with
    | null => exact absurd h (by simp [simplifySchemaForDatabricks, simplifyStep])
    | bool b =>
      exact simplifyCore_idem (simplifySchemaForDatabricks n) hobj ih (Json.bool b) md d dfsO
        (Json.obj ofs) hok h dfs2
    | num n2 =>
      exact simplifyCore_idem (simplifySchemaForDatabricks n) hobj ih (Json.num n2) md d dfsO
        (Json.obj ofs) hok h dfs2
    | str s2 =>
      exact simplifyCore_idem (simplifySchemaForDatabricks n) hobj ih (Json.str s2) md d dfsO
        (Json.obj ofs) hok h dfs2
    | arr xs =>
      exact simplifyCore_idem (simplifySchemaForDatabricks n) hobj ih (Json.arr xs) md d dfsO
        (Json.obj ofs) hok h dfs2
    | obj fs =>
      exact simplifyCore_idem (simplifySchemaForDatabricks n) hobj ih (Json.obj fs) md d dfsO
        (Json.obj ofs) hok h dfs2

/-- C3, counterexample: idempotence fails on a node carrying an
unresolvable $ref.  The first pass returns the opaque fallback
`(type: object, additionalProperties: true)`; the second pass re-simplifies
that node through the primitive branch (the object branch requires a
properties mapping), dropping additionalProperties, so the second output
differs from the first even as a key-order-insensitive JSON document. -/
theorem C3_counterexample :
    simplifySchemaForDatabricks 5 (.obj [("$ref", .str "#/$defs/missing")]) 4 0 none
      = some fallbackSchema
    ∧ simplifySchemaForDatabricks 5 fallbackSchema 4 0 none
      = some (.obj [("type", .str "object")])
    ∧ jeqB fallbackSchema (.obj [("type", .str "object")]) = false
    ∧ fallbackSchema ≠ .obj [("type", .str "object")] :=
  ⟨rfl, rfl, rfl, by
    intro hcontr
    injection hcontr with h2
    simp at h2⟩

/-- C3 (amended): simplification is idempotent on the reference- and
union-free fragment: for every input schema S that carries none of the
keys $ref, anyOf, oneOf, allOf anywhere, whose type sets hold only string
tags, whose objects have pairwise-distinct keys, and whose properties
keys hold object mappings (the predicate idemOK), if simplification at
depth 0 succeeds then simplifying the output again (same maxDepth, depth
0, reference table collected from the node itself) succeeds and returns
the same JSON document, where documents are compared key-order
insensitively (jeqB); the key order can genuinely differ when a type tag
is inferred from an enum, as the inferred tag is appended last on the
first pass but copied first on the second.  Outside this fragment
idempotence fails: an unresolvable $ref yields the opaque fallback, which
re-simplifies to a different document (see the counterexample). -/
theorem C3_theorem (fuel : Nat) (S out : Json) (md : Nat)
    (hok : idemOK S = true)
    (h : simplifySchemaForDatabricks fuel S md 0 none = some out) :
    ∃ out2, simplifySchemaForDatabricks fuel out md 0 none = some out2
      ∧ jeqB out out2 = true :=
  simplify_idem fuel S md 0 none out hok h none

/-- C3 witness: the type-set example normalizes to a single-tag node that
re-simplifies to itself. -/
theorem C3_witness :
    ∃ out2, simplifySchemaForDatabricks 3
        (.obj [("type", .str "string")]) 4 0 none = some out2
      ∧ jeqB (.obj [("type", .str "string")]) out2 = true :=
  C3_theorem 3 (.obj [("type", .arr [.str "string", .str "null"])])
    (.obj [("type", .str "string")]) 4 rfl rfl
